import Mathlib

/-! # protostream-compile: lexer, parser and generator

A shallow embedding of `src/protokens.go` and `src/main.go`.

* A Go `byte` is a `Nat` (every concrete input uses values below 256), a Go
  `string` is the list of its bytes.
* A `*bufio.Reader` over the input is the list of bytes not yet read;
  `ReadByte` on the empty list reports `io.EOF`, on every call.
* A Go function returning `(*T, error)` returns a pair of options here, `none`
  standing for `nil`, so that "no result together with an error" is a property
  to be proved and not one built into the type.
* Loops that Go does not bound (`for { ... }` in the parser) take a fuel
  argument; the outer `Option` of their result is `none` exactly when the fuel
  ran out.
* The generator returns the text it writes, or `none` when the Go code panics
  on a slice expression out of range.
* The standard library functions `strconv.Atoi`, `strings.ToUpper` and the
  verb `%d` of `fmt` are modelled from their documented behaviour, with an
  `int` of 64 bits.
-/

namespace Protostream

/-! ## Bytes and strings -/

/-- A Go string: its sequence of bytes, each byte a natural number. -/
abbrev GoString := List Nat

/-- The bytes of an ASCII literal. -/
def str (s : String) : GoString := s.toList.map Char.toNat

/-- The byte of an ASCII character literal. -/
def chr (c : Char) : Nat := c.toNat

/-! ## Errors -/

/-- The error values that the program can produce.
`EOF` is `io.EOF`; `New s` is `errors.New(s)` or `fmt.Errorf` with the
formatted text `s`; `NumSyntax` and `NumRange` are the `*strconv.NumError`
values of `strconv.Atoi` (with `strconv.ErrSyntax` and `strconv.ErrRange`),
carrying the offending text. -/
inductive GoError where
  | EOF : GoError
  | New : GoString → GoError
  | NumSyntax : GoString → GoError
  | NumRange : GoString → GoError
  deriving DecidableEq, Repr

/-! ## protokens.go -/

/-- The Go struct `TokenReader`: field `r` holds the unread bytes of the
input, `buffer` the bytes of the token being accumulated, `next` a token
buffered for the following call. -/
structure TokenReader where
  r : List Nat
  buffer : GoString
  next : GoString
  deriving DecidableEq, Repr

/-- The Go function `NewTokenReader`. -/
def NewTokenReader (r : List Nat) : TokenReader :=
  { r := r, buffer := [], next := [] }

/-- The delimiter test of `NextToken` (line 37). -/
def isDelim (b : Nat) : Bool :=
  b == chr ' ' || b == chr ';' || b == chr '\n' || b == chr '\t' || b == chr '='

/-- The `for` loop of `NextToken`, on the three fields of the reader. Every
iteration that does not return reads one byte. -/
def NextTokenLoop : List Nat → GoString → GoString →
    GoString × Option GoError × TokenReader
  | [], buffer, next =>
    if next ≠ [] then
      (next, none, { r := [], buffer := buffer, next := [] })
    else if buffer.length > 0 then
      -- io.EOF with a pending buffer: the buffer is returned, and is not reset
      (buffer, none, { r := [], buffer := buffer, next := next })
    else
      ([], some GoError.EOF, { r := [], buffer := buffer, next := next })
  | b :: rest, buffer, next =>
    if next ≠ [] then
      (next, none, { r := b :: rest, buffer := buffer, next := [] })
    else if isDelim b then
      let next1 := if b == chr ';' || b == chr '=' then [b] else next
      if buffer.length > 0 then
        (buffer, none, { r := rest, buffer := [], next := next1 })
      else
        NextTokenLoop rest buffer next1
    else
      NextTokenLoop rest (buffer ++ [b]) next

/-- The Go method `TokenReader.NextToken`: the token, the error, and the
reader after the call. -/
def TokenReader.NextToken (reader : TokenReader) :
    GoString × Option GoError × TokenReader :=
  NextTokenLoop reader.r reader.buffer reader.next

/-! ## main.go: the syntax tree -/

/-- The Go struct `Field`; the member `Type` is spelled `Typ`, the former
being reserved. -/
structure Field where
  Name : GoString
  Number : Int
  Typ : GoString
  Attribute : GoString
  deriving DecidableEq, Repr

/-- The Go struct `Message`. -/
inductive Message where
  | mk (Name : GoString) (Fields : List Field) (SubMessages : List Message) : Message
  deriving Repr

/-- Field `Name` of a `Message`. -/
def Message.Name : Message → GoString
  | .mk n _ _ => n

/-- Field `Fields` of a `Message`. -/
def Message.Fields : Message → List Field
  | .mk _ fs _ => fs

/-- Field `SubMessages` of a `Message`. -/
def Message.SubMessages : Message → List Message
  | .mk _ _ ss => ss

/-- The Go struct `Protobuf`. -/
structure Protobuf where
  Package : GoString
  Messages : List Message
  deriving Repr

/-! ## strconv.Atoi -/

/-- Width of the Go type `int` (`strconv.IntSize`) on 64-bit platforms. -/
def intSize : Nat := 64

/-- The loop of `strconv.ParseUint` over the digits, in base 10: the bytes are
read from the left; a byte that is not a digit gives `none` (the syntax
error); a digit with which the value leaves the range of `uint64` ends the
loop with the largest `uint64` (the range error, returned before the bytes
that follow are looked at); otherwise the result is the value of the digits. -/
def parseDigits : List Nat → Nat → Option Nat
  | [], acc => some acc
  | c :: cs, acc =>
    if chr '0' ≤ c ∧ c ≤ chr '9' then
      if acc * 10 + (c - chr '0') < 2 ^ 64 then parseDigits cs (acc * 10 + (c - chr '0'))
      else some (2 ^ 64 - 1)
    else none

/-- The standard library function `strconv.Atoi`: an optional sign, then one
or more decimal digits, the value within the range of `int`. A value outside
the range gives the range error with the nearest bound, also when the loop
over the digits has stopped at the largest `uint64`. -/
def Atoi (s : GoString) : Int × Option GoError :=
  let neg := s.head? = some (chr '-')
  let digits := if s.head? = some (chr '-') ∨ s.head? = some (chr '+') then s.tail else s
  if digits = [] then (0, some (GoError.NumSyntax s))
  else
    match parseDigits digits 0 with
    | none => (0, some (GoError.NumSyntax s))
    | some n =>
      if neg then
        if n ≤ 2 ^ (intSize - 1) then (- (n : Int), none)
        else (- (2 ^ (intSize - 1) : Int), some (GoError.NumRange s))
      else
        if n < 2 ^ (intSize - 1) then ((n : Int), none)
        else ((2 ^ (intSize - 1) : Int) - 1, some (GoError.NumRange s))

/-! ## strconv.Itoa and the verb %d -/

/-- Decimal digits of a natural number, most significant first; `fuel` bounds
the number of digits. -/
def natDecFuel : Nat → Nat → GoString
  | 0, _ => []
  | fuel + 1, n =>
    if n < 10 then [chr '0' + n] else natDecFuel fuel (n / 10) ++ [chr '0' + n % 10]

/-- Decimal rendering of a natural number. -/
def natDec (n : Nat) : GoString :=
  natDecFuel (n + 1) n

/-- Decimal rendering of an integer, as `strconv.Itoa` and the verb `%d` of
`fmt` produce it. -/
def Itoa (n : Int) : GoString :=
  if n < 0 then chr '-' :: natDec n.natAbs else natDec n.natAbs

/-! ## main.go: the parser -/

/-- The Go method `Field.ParseField`: the field as the method leaves it, the
error, and the reader after the call. -/
def Field.ParseField (f : Field) (r : TokenReader) : Field × Option GoError × TokenReader :=
  match r.NextToken with
  | (_, some err, r) => (f, some err, r)
  | (typ, none, r) =>
    let f := { f with Typ := typ }
    match r.NextToken with
    | (_, some err, r) => (f, some err, r)
    | (name, none, r) =>
      let f := { f with Name := name }
      match r.NextToken with
      | (_, some err, r) => (f, some err, r)
      | (eq, none, r) =>
        if eq ≠ str "=" then
          (f, some (GoError.New (str "expected equals sign after field name")), r)
        else
          match r.NextToken with
          | (_, some err, r) => (f, some err, r)
          | (fieldnum, none, r) =>
            match Atoi fieldnum with
            | (_, some err) => (f, some err, r)
            | (fnum, none) =>
              let f := { f with Number := fnum }
              match r.NextToken with
              | (_, some err, r) => (f, some err, r)
              | (semi, none, r) =>
                if semi ≠ str ";" then
                  (f, some (GoError.New (str "expected a semicolon after field number")), r)
                else
                  (f, none, r)

/-- What `ParseMessage` returns: the Go pair `(*Message, error)`, and the
reader after the call. -/
abbrev MessageResult := (Option Message × Option GoError) × TokenReader

mutual
/-- The Go function `ParseMessage` (lines 77 to 93, then the loop). -/
def ParseMessage : Nat → TokenReader → Option MessageResult
  | 0, _ => none
  | fuel + 1, r =>
    match r.NextToken with
    | (_, some err, r) => some ((none, some err), r)
    | (mesname, none, r) =>
      match r.NextToken with
      | (_, some err, r) => some ((none, some err), r)
      | (openBracket, none, r) =>
        if openBracket ≠ str "\x7b" then
          some ((none, some (GoError.New (str "expected opening bracket after message name"))), r)
        else
          ParseMessageLoop fuel (Message.mk mesname [] []) r
/-- The `for` loop of `ParseMessage` (lines 95 to 125), `m` being the message
under construction. -/
def ParseMessageLoop : Nat → Message → TokenReader → Option MessageResult
  | 0, _, _ => none
  | fuel + 1, m, r =>
    match r.NextToken with
    | (_, some err, r) => some ((none, some err), r)
    | (tok, none, r) =>
      if tok = str "\x7d" then
        some ((some m, none), r)
      else if tok = str "repeated" ∨ tok = str "required" ∨ tok = str "optional" then
        match Field.ParseField { Name := [], Number := 0, Typ := [], Attribute := tok } r with
        | (_, some err, r) => some ((none, some err), r)
        | (f, none, r) =>
          ParseMessageLoop fuel (Message.mk m.Name (m.Fields ++ [f]) m.SubMessages) r
      else if tok = str "message" then
        match ParseMessage fuel r with
        | none => none
        | some ((_, some err), r) => some ((none, some err), r)
        | some ((none, none), r) =>
          -- not reached: ParseMessage never returns (nil, nil)
          some ((none, none), r)
        | some ((some subm, none), r) =>
          ParseMessageLoop fuel (Message.mk m.Name m.Fields (m.SubMessages ++ [subm])) r
      else
        some ((none, some (GoError.New (str "Unrecognized token: " ++ tok))), r)
end

/-- The `for` loop of `ParseProtoFile` (lines 131 to 166), `pb` being the
`Protobuf` under construction. The line printed for an unrecognized token
goes to standard output and is not part of the result. -/
def ParseProtoFileLoop : Nat → Protobuf → TokenReader → Option (Option Protobuf × Option GoError)
  | 0, _, _ => none
  | fuel + 1, pb, read =>
    match read.NextToken with
    | (_, some err, _) =>
      if err = GoError.EOF then some (some pb, none) else some (none, some err)
    | (tok, none, read) =>
      if tok = str "package" then
        match read.NextToken with
        | (_, some err, _) => some (none, some err)
        | (pkgname, none, read) =>
          let pb := { pb with Package := pkgname }
          match read.NextToken with
          | (_, some err, _) => some (none, some err)
          | (semi, none, read) =>
            if semi ≠ str ";" then
              some (none, some (GoError.New (str "expected semicolon after package name")))
            else
              ParseProtoFileLoop fuel pb read
      else if tok = str "message" then
        match ParseMessage fuel read with
        | none => none
        | some ((_, some err), _) => some (none, some err)
        | some ((none, none), _) => some (none, none)
        | some ((some message, none), read) =>
          ParseProtoFileLoop fuel { pb with Messages := pb.Messages ++ [message] } read
      else
        ParseProtoFileLoop fuel pb read

/-- The Go function `ParseProtoFile`, on the bytes that the `io.Reader`
delivers. -/
def ParseProtoFile (fuel : Nat) (r : List Nat) : Option (Option Protobuf × Option GoError) :=
  ParseProtoFileLoop fuel { Package := [], Messages := [] } (NewTokenReader r)

/-! ## main.go: the generator

A function that writes to the `io.Writer` returns the text it writes; the
result is `none` when the Go code panics on a slice expression out of range
(the text written before the panic is then not represented). -/

/-- The Go slice expression `s[:n]`, which panics when `n` exceeds the
length. -/
def sliceTo (s : GoString) (n : Nat) : Option GoString :=
  if n ≤ s.length then some (s.take n) else none

/-- The Go slice expression `s[n:]`, which panics when `n` exceeds the
length. -/
def sliceFrom (s : GoString) (n : Nat) : Option GoString :=
  if n ≤ s.length then some (s.drop n) else none

/-- The standard library function `strings.ToUpper` on a string of at most one
byte: an ASCII lower-case letter becomes its upper-case letter, another ASCII
byte stays, and a byte from 128 on, not being valid UTF-8 by itself, becomes
the three bytes of U+FFFD. -/
def ToUpper (s : GoString) : GoString :=
  match s with
  | [] => []
  | b :: _ =>
    if b < 128 then
      if chr 'a' ≤ b ∧ b ≤ chr 'z' then [b - 32] else [b]
    else [0xEF, 0xBF, 0xBD]

/-- The Go function `makeGoName`. -/
def makeGoName (s : GoString) : Option GoString := do
  let first ← sliceTo s 1
  let tail ← sliceFrom s 1
  pure (ToUpper first ++ tail)

/-- The Go map `typeMap`, as its lookup `t, ok := typeMap[typ]`. -/
def typeMap (typ : GoString) : Option GoString :=
  if typ = str "string" then some (str "string")
  else if typ = str "bytes" then some (str "[]byte")
  else if typ = str "int32" then some (str "int32")
  else if typ = str "uint32" then some (str "uint32")
  else if typ = str "int64" then some (str "int64")
  else if typ = str "uint64" then some (str "uint64")
  else if typ = str "bool" then some (str "bool")
  else none

/-- The Go function `parseGoType`; `pre` is its parameter `prefix`. -/
def parseGoType (typ : GoString) (pre : GoString) (rep : Bool) : Option GoString :=
  match typeMap typ with
  | some t => do
    let t2 ← sliceTo t 2
    if rep || t2 = str "[]" then pure t else pure (str "*" ++ t)
  | none => do
    let n ← makeGoName typ
    pure (str "*" ++ pre ++ n)

/-- The Go function `formatGoProtoField`; `pre` is its parameter `prefix`. -/
def formatGoProtoField (f : Field) (pre : GoString) (stream : Bool) : Option GoString := do
  let typ0 : GoString :=
    if f.Attribute = str "repeated" then (if stream then str "chan " else str "[]") else []
  let t ← parseGoType f.Typ pre (f.Attribute = str "repeated")
  let typ := typ0 ++ t
  let name ← makeGoName f.Name
  let a3 ← sliceTo f.Attribute 3
  let tag := str "`protobuf:\"" ++ f.Typ ++ str "," ++ Itoa f.Number ++ str "," ++ a3 ++
    str ",name=" ++ f.Name ++ str "\"`"
  pure (name ++ str " " ++ typ ++ str " " ++ tag)

/-- The Go function `printInterfaceAssertion`. -/
def printInterfaceAssertion (name : GoString) (stream : Bool) : GoString :=
  let typ := if stream then str "pbs.StreamMessage" else str "proto.Message"
  str "var _ " ++ typ ++ str " = (*" ++ name ++ str ")(nil)\n\n"

/-- The loop of `printGoStreamMethods` over the fields (lines 259 to 263). -/
def printCloseCalls : List Field → Option GoString
  | [] => some []
  | f :: fs => do
    let line ←
      if f.Attribute = str "repeated" then do
        let n ← makeGoName f.Name
        pure (str "\tclose(m." ++ n ++ str ")\n")
      else pure []
    let rest ← printCloseCalls fs
    pure (line ++ rest)

/-- The Go function `printGoStreamMethods`. -/
def printGoStreamMethods (mes : Message) (name : GoString) : Option GoString := do
  let closes ← printCloseCalls mes.Fields
  pure (str "func (m *" ++ name ++ str ") Errors() chan error \x7b return m.errors \x7d\n\n" ++
    str "func (m *" ++ name ++ str ") Closed() <-chan struct\x7b\x7d \x7b return m.closeCh \x7d\n\n" ++
    str "func (m *" ++ name ++ str ") Close() error \x7b\n" ++
    closes ++
    str "\tclose(m.errors)\n" ++
    str "\tclose(m.closeCh)\n" ++
    str "\treturn nil\n" ++
    str "\x7d\n\n")

/-- The loop of `printMessageConstructor` over the fields (lines 276 to 280). -/
def printMakeCalls : List Field → GoString → Option GoString
  | [], _ => some []
  | f :: fs, name => do
    let line ←
      if f.Attribute = str "repeated" then do
        let n ← makeGoName f.Name
        let t ← parseGoType f.Typ (name ++ str "_") true
        pure (str "\t\t" ++ n ++ str ": make(chan " ++ t ++ str "),\n")
      else pure []
    let rest ← printMakeCalls fs name
    pure (line ++ rest)

/-- The Go function `printMessageConstructor`. -/
def printMessageConstructor (mes : Message) (name : GoString) (stream : Bool) :
    Option GoString := do
  let makes ←
    if stream then do
      let ms ← printMakeCalls mes.Fields name
      pure (str "\t\terrors: make(chan error, 1),\n" ++
        str "\t\tcloseCh: make(chan struct\x7b\x7d),\n" ++ ms)
    else pure []
  pure (str "func New" ++ name ++ str "() *" ++ name ++ str " \x7b\n" ++
    str "\treturn &" ++ name ++ str "\x7b\n" ++
    makes ++
    str "\t\x7d\n\x7d\n")

/-- The Go function `printProtoMethods`. -/
def printProtoMethods (name : GoString) : GoString :=
  str "func (*" ++ name ++ str ") ProtoMessage() \x7b\x7d\n\n" ++
  str "func (m *" ++ name ++
    str ") String() string \x7breturn proto.CompactTextString(m)\x7d\n\n" ++
  str "func (m *" ++ name ++ str ") Reset() \x7b*m = *New" ++ name ++ str "()\x7d\n\n"

/-- The loop of `printGoProtoMessage` over the fields (lines 223 to 225). -/
def printFieldLines : List Field → GoString → Bool → Option GoString
  | [], _, _ => some []
  | f :: fs, pre, stream => do
    let line ← formatGoProtoField f pre stream
    let rest ← printFieldLines fs pre stream
    pure (str "\t" ++ line ++ str "\n" ++ rest)

/-- Lines 221 to 238 of `printGoProtoMessage`: what is written for the message
itself, before its submessages; `name` is the local variable of that name. -/
def printMessageItself (mes : Message) (name : GoString) (stream : Bool) : Option GoString := do
  let fields ← printFieldLines mes.Fields (name ++ str "_") stream
  let members : GoString :=
    if stream then str "\terrors chan error\n" ++ str "\tcloseCh chan struct\x7b\x7d\n" else []
  let ctor ← printMessageConstructor mes name stream
  let methods ← if stream then printGoStreamMethods mes name else pure []
  pure (str "type " ++ name ++ str " struct \x7b\n" ++ fields ++ members ++ str "\x7d\n\n" ++
    ctor ++ methods ++ printProtoMethods name ++ printInterfaceAssertion name stream)

mutual
/-- The Go function `printGoProtoMessage`; `pre` is its parameter `prefix`. -/
def printGoProtoMessage : Message → GoString → Bool → Option GoString
  | .mk mname fields subs, pre, stream => do
    let own ← printMessageItself (.mk mname fields subs) (pre ++ mname) stream
    let rest ← printSubMessages subs (pre ++ mname ++ str "_")
    pure (own ++ rest)
/-- The loop of `printGoProtoMessage` over the submessages (lines 240 to 242). -/
def printSubMessages : List Message → GoString → Option GoString
  | [], _ => some []
  | subm :: rest, pre => do
    let a ← printGoProtoMessage subm pre false
    let b ← printSubMessages rest pre
    pure (a ++ b)
end

/-- The loop of `PrintGoStreamProto` over the messages (lines 172 to 174). -/
def printTopMessages : List Message → Option GoString
  | [] => some []
  | mes :: rest => do
    let a ← printGoProtoMessage mes [] true
    let b ← printTopMessages rest
    pure (a ++ b)

/-- The Go function `PrintGoStreamProto`: the text printed on standard output
(the package line) and the text written to `w`. -/
def PrintGoStreamProto (pb : Protobuf) : Option (GoString × GoString) := do
  let w ← printTopMessages pb.Messages
  pure (str "package " ++ pb.Package ++ str "\n\n", w)

/-! ## Drivers and reference definitions used by the statements -/

/-- The tokens returned by successive calls of `NextToken`: calls are made
until one reports an error, or returns leaving neither an unread byte nor a
buffered token in the reader (the input is exhausted). At most `fuel` calls
are made. -/
def tokenCalls : Nat → TokenReader → List GoString
  | 0, _ => []
  | fuel + 1, rd =>
    match rd.NextToken with
    | (_, some _, _) => []
    | (tok, none, rd1) =>
      if rd1.r = [] ∧ rd1.next = [] then [tok] else tok :: tokenCalls fuel rd1

/-- The tokens that the lexer returns on an input. No input needs more than
two calls for each of its bytes. -/
def tokensOf (input : List Nat) : List GoString :=
  tokenCalls (2 * input.length + 1) (NewTokenReader input)

/-- Reference tokenization, from the words of the specification: `run` is the
current run of bytes outside the delimiter set; a delimiter ends the run, and
the delimiters `;` and `=` are tokens of their own at their position. -/
def refTokensFrom : List Nat → GoString → List GoString
  | [], run => if run = [] then [] else [run]
  | b :: rest, run =>
    if b = chr ' ' ∨ b = chr '\n' ∨ b = chr '\t' then
      (if run = [] then [] else [run]) ++ refTokensFrom rest []
    else if b = chr ';' ∨ b = chr '=' then
      (if run = [] then [] else [run]) ++ [[b]] ++ refTokensFrom rest []
    else
      refTokensFrom rest (run ++ [b])

/-- Reference tokenization of an input. -/
def refTokens (input : List Nat) : List GoString :=
  refTokensFrom input []

/-- The next `n` tokens of a reader: the tokens that `n` successive calls of
`NextToken` return, and the reader after them; `none` when one of the calls
reports an error. -/
def nextTokens : Nat → TokenReader → Option (List GoString × TokenReader)
  | 0, r => some ([], r)
  | n + 1, r =>
    match r.NextToken with
    | (_, some _, _) => none
    | (tok, none, r1) =>
      match nextTokens n r1 with
      | none => none
      | some (toks, r2) => some (tok :: toks, r2)

/-- A token without its sign, if it has one. -/
def unsigned (tok : GoString) : GoString :=
  if tok.head? = some (chr '-') ∨ tok.head? = some (chr '+') then tok.tail else tok

/-- A decimal integer, in the words of the specification: an optional sign,
then one or more decimal digits. -/
def IsDecimalInteger (tok : GoString) : Prop :=
  unsigned tok ≠ [] ∧ ∀ c ∈ unsigned tok, chr '0' ≤ c ∧ c ≤ chr '9'

instance (tok : GoString) : Decidable (IsDecimalInteger tok) := by
  unfold IsDecimalInteger
  exact inferInstance

/-- The value of a decimal integer. -/
def decimalValue (tok : GoString) : Int :=
  let v : Nat := (unsigned tok).foldl (fun acc c => acc * 10 + (c - chr '0')) 0
  if tok.head? = some (chr '-') then - (v : Int) else (v : Int)

/-- The values of the Go type `int`. -/
def InIntRange (n : Int) : Prop :=
  - (2 : Int) ^ (intSize - 1) ≤ n ∧ n < (2 : Int) ^ (intSize - 1)

instance (n : Int) : Decidable (InIntRange n) := by
  unfold InIntRange
  exact inferInstance

/-! ## Canonical text of a syntax tree -/

/-- A word: a non-empty string free of delimiter bytes. -/
def Word (w : GoString) : Prop :=
  w ≠ [] ∧ ∀ b ∈ w, isDelim b = false

instance (w : GoString) : Decidable (Word w) := by
  unfold Word
  exact inferInstance

/-- The strings of a field are those of the canonical text: type and name are
words, the attribute is among the three, the number is a value of `int`. -/
def Field.Canonical (f : Field) : Prop :=
  Word f.Typ ∧ Word f.Name ∧
    (f.Attribute = str "repeated" ∨ f.Attribute = str "required" ∨
      f.Attribute = str "optional") ∧
    - (2 : Int) ^ (intSize - 1) ≤ f.Number ∧ f.Number < (2 : Int) ^ (intSize - 1)

/-- Text of a list of words, each followed by one space. -/
def renderWords : List GoString → List Nat
  | [] => []
  | w :: ws => w ++ str " " ++ renderWords ws

/-- The body of a message declaration as it is written: its items in order,
up to the closing brace. An item is a field or a nested message declaration
(name and body). -/
inductive Body where
  | close : Body
  | field : Field → Body → Body
  | sub : GoString → Body → Body → Body
  deriving Repr

/-- The fields declared directly in a body, in order. -/
def Body.fields : Body → List Field
  | .close => []
  | .field f rest => f :: rest.fields
  | .sub _ _ rest => rest.fields

/-- The messages declared directly in a body, in order, as syntax trees. -/
def Body.subs : Body → List Message
  | .close => []
  | .field _ rest => rest.subs
  | .sub name inner rest => Message.mk name inner.fields inner.subs :: rest.subs

/-- Canonical text of a field after its attribute: `TYPE NAME = NUMBER ;`,
every token followed by one space. -/
def renderFieldTail (f : Field) : List Nat :=
  f.Typ ++ str " " ++ f.Name ++ str " " ++ str "= " ++ Itoa f.Number ++ str " " ++ str "; "

/-- Canonical text of a body: the items in order, then `}`, every token
followed by one space. -/
def Body.render : Body → List Nat
  | .close => str "\x7d "
  | .field f rest => f.Attribute ++ str " " ++ renderFieldTail f ++ rest.render
  | .sub name inner rest =>
    str "message " ++ name ++ str " " ++ str "\x7b " ++ inner.render ++ rest.render

/-- The strings of a body are those of the canonical text: the fields are
canonical and the names of the nested messages are words, at every depth. -/
def Body.WellFormed : Body → Prop
  | .close => True
  | .field f rest => f.Canonical ∧ rest.WellFormed
  | .sub name inner rest => Word name ∧ inner.WellFormed ∧ rest.WellFormed

/-- Number of loop iterations and calls that parsing a body takes. -/
def Body.size : Body → Nat
  | .close => 1
  | .field _ rest => 1 + rest.size
  | .sub _ inner rest => 2 + inner.size + rest.size

/-- A top-level message declaration: its name and its body. -/
abbrev Decl := GoString × Body

/-- The syntax tree of a declaration. -/
def Decl.toMessage (d : Decl) : Message :=
  Message.mk d.1 d.2.fields d.2.subs

/-- Canonical text of the top-level declarations. -/
def renderDecls : List Decl → List Nat
  | [] => []
  | d :: ds => str "message " ++ d.1 ++ str " " ++ str "\x7b " ++ d.2.render ++ renderDecls ds

/-- Canonical text of a file: `package P ;` and the declarations. -/
def renderFile (pkg : GoString) (ds : List Decl) : List Nat :=
  str "package " ++ pkg ++ str " " ++ str "; " ++ renderDecls ds

/-- Fuel that parsing the declarations takes. -/
def declsSize : List Decl → Nat
  | [] => 1
  | d :: ds => 2 + d.2.size + declsSize ds

mutual
/-- A message whose name is a word and whose fields are canonical, at every
depth. -/
def Message.Canonical : Message → Prop
  | .mk mname fields subs => Word mname ∧ (∀ f ∈ fields, f.Canonical) ∧ Canonicals subs
/-- Messages whose names are words and whose fields are canonical, at every
depth. -/
def Canonicals : List Message → Prop
  | [] => True
  | m :: ms => m.Canonical ∧ Canonicals ms
end

/-- The body that lists the given fields, in order, before the items of
`rest`. -/
def fieldsThen : List Field → Body → Body
  | [], rest => rest
  | f :: fs, rest => Body.field f (fieldsThen fs rest)

mutual
/-- One way to write a message down: its fields first, then its
submessages. -/
def Message.body : Message → Body
  | .mk _ fields subs => fieldsThen fields (bodyOfSubs subs)
/-- The body that lists the given messages, in order, and nothing else. -/
def bodyOfSubs : List Message → Body
  | [] => Body.close
  | m :: ms => Body.sub m.Name m.body (bodyOfSubs ms)
end

/-- One way to write a top-level message down. -/
def Message.decl (m : Message) : Decl :=
  (m.Name, m.body)

/-! ## Expected output of the generator -/

/-- A field on which the generator does not panic: the name is not empty
(`s[:1]` in `makeGoName`), the attribute has three bytes (`f.Attribute[:3]`),
and a type outside the table is not empty (`s[:1]` in `makeGoName`). -/
def Field.Printable (f : Field) : Prop :=
  f.Name ≠ [] ∧ 3 ≤ f.Attribute.length ∧ (typeMap f.Typ = none → f.Typ ≠ [])

instance (f : Field) : Decidable f.Printable := by
  unfold Field.Printable
  exact inferInstance

mutual
/-- A message all of whose fields, at every depth, are printable. -/
def Message.Printable : Message → Prop
  | .mk _ fields subs => (∀ f ∈ fields, f.Printable) ∧ Printables subs
/-- Messages all of whose fields, at every depth, are printable. -/
def Printables : List Message → Prop
  | [] => True
  | m :: ms => m.Printable ∧ Printables ms
end

/-- A streaming type, in the words of the claim: the struct with the members
`errors chan error` and `closeCh chan struct\x7b\x7d` after its fields, the
constructor allocating them, the methods `Errors`, `Closed` and `Close`, the
methods of every message, and the assertion against `pbs.StreamMessage`. The
texts that depend on the fields are arguments. -/
def streamingType (name fieldLines makeCalls closeCalls : GoString) : GoString :=
  str "type " ++ name ++ str " struct \x7b\n" ++ fieldLines ++
  str "\terrors chan error\n" ++ str "\tcloseCh chan struct\x7b\x7d\n" ++ str "\x7d\n\n" ++
  str "func New" ++ name ++ str "() *" ++ name ++ str " \x7b\n" ++
  str "\treturn &" ++ name ++ str "\x7b\n" ++
  str "\t\terrors: make(chan error, 1),\n" ++
  str "\t\tcloseCh: make(chan struct\x7b\x7d),\n" ++ makeCalls ++
  str "\t\x7d\n\x7d\n" ++
  str "func (m *" ++ name ++ str ") Errors() chan error \x7b return m.errors \x7d\n\n" ++
  str "func (m *" ++ name ++ str ") Closed() <-chan struct\x7b\x7d \x7b return m.closeCh \x7d\n\n" ++
  str "func (m *" ++ name ++ str ") Close() error \x7b\n" ++ closeCalls ++
  str "\tclose(m.errors)\n" ++ str "\tclose(m.closeCh)\n" ++ str "\treturn nil\n" ++
  str "\x7d\n\n" ++
  printProtoMethods name ++
  str "var _ pbs.StreamMessage = (*" ++ name ++ str ")(nil)\n\n"

/-- A plain type, in the words of the claim: the struct with its fields only,
the constructor with an empty literal, the methods of every message, and the
assertion against `proto.Message`. -/
def plainType (name fieldLines : GoString) : GoString :=
  str "type " ++ name ++ str " struct \x7b\n" ++ fieldLines ++ str "\x7d\n\n" ++
  str "func New" ++ name ++ str "() *" ++ name ++ str " \x7b\n" ++
  str "\treturn &" ++ name ++ str "\x7b\n" ++
  str "\t\x7d\n\x7d\n" ++
  printProtoMethods name ++
  str "var _ proto.Message = (*" ++ name ++ str ")(nil)\n\n"

/-- The type expected for a message: streaming or plain, with the field lines,
allocations and close statements that the generator produces for its
fields. -/
def expectedType (streaming : Bool) (m : Message) (name : GoString) : GoString :=
  if streaming then
    streamingType name ((printFieldLines m.Fields (name ++ str "_") true).getD [])
      ((printMakeCalls m.Fields name).getD []) ((printCloseCalls m.Fields).getD [])
  else
    plainType name ((printFieldLines m.Fields (name ++ str "_") false).getD [])

mutual
/-- The text expected for a message at a nesting depth and for the messages
below it: streaming at depth 0, plain at every depth from 1 on. -/
def expectedTree : Nat → Message → GoString → GoString
  | depth, .mk mname fields subs, pre =>
    expectedType (depth = 0) (.mk mname fields subs) (pre ++ mname) ++
      expectedForest (depth + 1) subs (pre ++ mname ++ str "_")
/-- The text expected for sibling messages at a nesting depth. -/
def expectedForest : Nat → List Message → GoString → GoString
  | _, [], _ => []
  | depth, m :: ms, pre => expectedTree depth m pre ++ expectedForest depth ms pre
end

/-! ## The declarations that the generator writes, and their names -/

/-- One call of `printGoProtoMessage`: the local variable `name`, under which
the type is declared, the message, and the flag `stream`. -/
structure Declared where
  name : GoString
  mes : Message
  streaming : Bool

mutual
/-- The calls of `printGoProtoMessage` that one call gives rise to, itself
first, in the order in which they write: `name` is `prefix + mes.Name`, and the
submessages are visited with the prefix `name + "_"` and the flag `false`
(lines 221 and 240 to 242). -/
def declaredTree : Message → GoString → Bool → List Declared
  | .mk mname fields subs, pre, stream =>
    { name := pre ++ mname, mes := .mk mname fields subs, streaming := stream } ::
      declaredForest subs (pre ++ mname ++ str "_")
/-- The calls of `printGoProtoMessage` made by the loop over the submessages. -/
def declaredForest : List Message → GoString → List Declared
  | [], _ => []
  | subm :: rest, pre => declaredTree subm pre false ++ declaredForest rest pre
end

/-- The calls of `printGoProtoMessage` made by `PrintGoStreamProto`, with the
empty prefix and the flag `true` for each top-level message (line 173). -/
def declaredTop : List Message → List Declared
  | [] => []
  | mes :: rest => declaredTree mes [] true ++ declaredTop rest

/-- The texts of a list, one after the other. -/
def joinText : List GoString → GoString
  | [] => []
  | t :: ts => t ++ joinText ts

mutual
/-- The messages of a tree in depth-first pre-order, each with the names of its
ancestors, outermost first. -/
def placedTree : List GoString → Message → List (List GoString × Message)
  | ancestors, .mk mname fields subs =>
    (ancestors, .mk mname fields subs) :: placedForest (ancestors ++ [mname]) subs
/-- The messages of sibling trees in depth-first pre-order, each with the names
of its ancestors. -/
def placedForest : List GoString → List Message → List (List GoString × Message)
  | _, [] => []
  | ancestors, m :: ms => placedTree ancestors m ++ placedForest ancestors ms
end

mutual
/-- The messages of a tree in depth-first pre-order: the message, then its
submessages in their order, each followed by its own. -/
def preorderTree : Message → List Message
  | .mk mname fields subs => .mk mname fields subs :: preorderForest subs
/-- The messages of sibling trees in depth-first pre-order. -/
def preorderForest : List Message → List Message
  | [] => []
  | m :: ms => preorderTree m ++ preorderForest ms
end

/-- A name with its initial letter capitalized, as `makeGoName` does it where
it does not panic: the first byte upper-cased by `strings.ToUpper`, the rest
unchanged. -/
def capitalize (s : GoString) : GoString :=
  ToUpper (s.take 1) ++ s.drop 1

/-- The type name of the claim: every ancestor name capitalized and followed
by an underscore, then the own name. -/
def claimedName : List GoString → GoString → GoString
  | [], own => own
  | a :: ancestors, own => capitalize a ++ str "_" ++ claimedName ancestors own

/-- The flattened name: every ancestor name as it is, followed by an
underscore, then the own name. -/
def flatName : List GoString → GoString → GoString
  | [], own => own
  | a :: ancestors, own => a ++ str "_" ++ flatName ancestors own

mutual
/-- The property `P` holds of a message and of every message below it. -/
def Message.All (P : Message → Prop) : Message → Prop
  | .mk mname fields subs => P (.mk mname fields subs) ∧ AllMessages P subs
/-- The property `P` holds of every message of the list and of every message
below them. -/
def AllMessages (P : Message → Prop) : List Message → Prop
  | [] => True
  | m :: ms => m.All P ∧ AllMessages P ms
end

/-- The direct submessages of a message have pairwise distinct names. -/
def Message.DistinctSubNames (m : Message) : Prop :=
  (m.SubMessages.map Message.Name).Nodup

/-- The name of a message has no underscore. -/
def Message.NoUnderscore (m : Message) : Prop :=
  chr '_' ∉ m.Name

/-! ## Members: reference definitions -/

/-- The local variable `typ` of `formatGoProtoField` once line 213 has run:
the member type of the field. -/
def fieldGoType (f : Field) (pre : GoString) (stream : Bool) : Option GoString := do
  let typ0 : GoString :=
    if f.Attribute = str "repeated" then (if stream then str "chan " else str "[]") else []
  let t ← parseGoType f.Typ pre (f.Attribute = str "repeated")
  pure (typ0 ++ t)

/-- The fixed table of the claim: the seven primitive keywords, each with its
table value. -/
def primitiveTable : List (GoString × GoString) :=
  [(str "string", str "string"), (str "bytes", str "[]byte"), (str "int32", str "int32"),
    (str "uint32", str "uint32"), (str "int64", str "int64"), (str "uint64", str "uint64"),
    (str "bool", str "bool")]

/-- The seven primitive keywords. -/
def primitiveKeywords : List GoString :=
  primitiveTable.map Prod.fst

/-- The three-letter code of an attribute: `req`, `opt` or `rep`. -/
def attributeCode (a : GoString) : GoString :=
  if a = str "required" then str "req"
  else if a = str "optional" then str "opt"
  else str "rep"

/-- The tag of a member as the generator writes it: the type of the field, its
number in decimal, the code of its attribute, and `name=` with its name. -/
def fieldTag (f : Field) : GoString :=
  str "\x60protobuf:\"" ++ f.Typ ++ str "," ++ Itoa f.Number ++ str "," ++
    attributeCode f.Attribute ++ str ",name=" ++ f.Name ++ str "\"\x60"

/-- The tag of a member as the claim has it: the name of the field, its number
in decimal, the code of its attribute, and `name=` with its name. -/
def claimedTag (f : Field) : GoString :=
  str "\x60protobuf:\"" ++ f.Name ++ str "," ++ Itoa f.Number ++ str "," ++
    attributeCode f.Attribute ++ str ",name=" ++ f.Name ++ str "\"\x60"

/-- The element type of a repeated field: what `parseGoType` returns for it
with `rep` set. -/
def elementType (f : Field) (pre : GoString) : GoString :=
  (parseGoType f.Typ pre true).getD []

/-- The statements of `Close` for the fields: one `close` for each repeated
field, in the order of the fields. -/
def closeStatements (fs : List Field) : GoString :=
  joinText ((fs.filter (fun f => f.Attribute = str "repeated")).map
    (fun f => str "\tclose(m." ++ capitalize f.Name ++ str ")\n"))

/-- The entries of the constructor literal for the fields: one `make` of an
unbuffered channel for each repeated field, in the order of the fields. -/
def makeEntries (fs : List Field) (name : GoString) : GoString :=
  joinText ((fs.filter (fun f => f.Attribute = str "repeated")).map
    (fun f => str "\t\t" ++ capitalize f.Name ++ str ": make(chan " ++
      elementType f (name ++ str "_") ++ str "),\n"))

/-- The method `Close` in the words of the claim: the statements for the
repeated fields, then `close(m.errors)`, then `close(m.closeCh)`, then
`return nil`. -/
def closeMethod (name : GoString) (fs : List Field) : GoString :=
  str "func (m *" ++ name ++ str ") Close() error \x7b\n" ++
    closeStatements fs ++
    str "\tclose(m.errors)\n" ++
    str "\tclose(m.closeCh)\n" ++
    str "\treturn nil\n" ++
    str "\x7d\n\n"

/-- The constructor of a streaming type in the words of the claim: the literal
allocates the error channel with capacity one, the closed channel unbuffered,
and one channel for each repeated field. -/
def streamingConstructor (name : GoString) (fs : List Field) : GoString :=
  str "func New" ++ name ++ str "() *" ++ name ++ str " \x7b\n" ++
    str "\treturn &" ++ name ++ str "\x7b\n" ++
    (str "\t\terrors: make(chan error, 1),\n" ++
      str "\t\tcloseCh: make(chan struct\x7b\x7d),\n" ++ makeEntries fs name) ++
    str "\t\x7d\n\x7d\n"

/-- The constructor of a plain type in the words of the claim: the literal is
empty. -/
def plainConstructor (name : GoString) : GoString :=
  str "func New" ++ name ++ str "() *" ++ name ++ str " \x7b\n" ++
    str "\treturn &" ++ name ++ str "\x7b\n" ++
    str "\t\x7d\n\x7d\n"

/-- What the parser leaves in a field: an attribute among the three, a number
that is a value of `int`, and a name and a type that are not empty. -/
def Field.Parsed (f : Field) : Prop :=
  (f.Attribute = str "repeated" ∨ f.Attribute = str "required" ∨
    f.Attribute = str "optional") ∧
  InIntRange f.Number ∧ f.Name ≠ [] ∧ f.Typ ≠ []

/-! ## Places in a text -/

/-- An item of a message body as it is written: a field, or a nested message
declaration (name and body). -/
inductive Item where
  | field : Field → Item
  | sub : GoString → Body → Item
  deriving Repr

/-- Canonical text of an item, every token followed by one space. -/
def Item.render : Item → List Nat
  | .field f => f.Attribute ++ str " " ++ renderFieldTail f
  | .sub name inner => str "message " ++ name ++ str " " ++ str "\x7b " ++ inner.render

/-- The strings of an item are those of the canonical text. -/
def Item.WellFormed : Item → Prop
  | .field f => f.Canonical
  | .sub name inner => Word name ∧ inner.WellFormed

/-- Number of loop iterations and calls that parsing an item takes. -/
def Item.size : Item → Nat
  | .field _ => 1
  | .sub _ inner => 2 + inner.size

/-- Canonical text of a list of items. -/
def renderItems : List Item → List Nat
  | [] => []
  | i :: rest => i.render ++ renderItems rest

/-- Number of loop iterations and calls that parsing a list of items takes. -/
def itemsSize : List Item → Nat
  | [] => 0
  | i :: rest => i.size + itemsSize rest

/-- The fields among the items, in order. -/
def itemsFields : List Item → List Field
  | [] => []
  | .field f :: rest => f :: itemsFields rest
  | .sub _ _ :: rest => itemsFields rest

/-- The messages declared among the items, in order, as syntax trees. -/
def itemsSubs : List Item → List Message
  | [] => []
  | .field _ :: rest => itemsSubs rest
  | .sub name inner :: rest => Message.mk name inner.fields inner.subs :: itemsSubs rest

/-- A message declaration that is open at a place of a text: its name and the
items of its body written before the place. -/
abbrev Frame := GoString × List Item

/-- The strings of a frame are those of the canonical text. -/
def Frame.WellFormed (fr : Frame) : Prop :=
  Word fr.1 ∧ ∀ i ∈ fr.2, i.WellFormed

/-- Canonical text of the open declarations, outermost first: for each
`message N \x7b` and the items written so far. -/
def renderFrames : List Frame → List Nat
  | [] => []
  | fr :: rest =>
    str "message " ++ fr.1 ++ str " " ++ str "\x7b " ++ renderItems fr.2 ++ renderFrames rest

/-- Number of loop iterations and calls that parsing the open declarations
takes. -/
def framesSize : List Frame → Nat
  | [] => 0
  | fr :: rest => 2 + itemsSize fr.2 + framesSize rest

/-- A place of a text where a declaration may start: what is written before
it is an optional package declaration, complete top-level declarations, and
the declarations that are open at the place, outermost first, each with the
items of its body written so far. With no open declaration the place is at top
level; otherwise it is in the body of the innermost open declaration, where an
item may start. -/
structure Place where
  pkg : Option GoString
  decls : List Decl
  frames : List Frame

/-- Canonical text of the package declaration, if there is one. -/
def renderPackage : Option GoString → List Nat
  | none => []
  | some name => str "package " ++ name ++ str " " ++ str "; "

/-- Canonical text before a place. -/
def Place.render (p : Place) : List Nat :=
  renderPackage p.pkg ++ (renderDecls p.decls ++ renderFrames p.frames)

/-- The strings before a place are those of the canonical text. -/
def Place.WellFormed (p : Place) : Prop :=
  (∀ name, p.pkg = some name → Word name) ∧
  (∀ d ∈ p.decls, Word d.1 ∧ d.2.WellFormed) ∧
  ∀ fr ∈ p.frames, fr.WellFormed

/-- Fuel that parsing the text before a place takes. -/
def Place.size (p : Place) : Nat :=
  1 + declsSize p.decls + framesSize p.frames

/-- On the input, `ParseProtoFile` fails with the error: given enough fuel it
returns no `Protobuf` and the error. -/
def FailsWith (input : List Nat) (e : GoError) : Prop :=
  ∃ fuel0, ∀ fuel, fuel0 ≤ fuel → ParseProtoFile fuel input = some (none, some e)

/-- On the input, read from after the word `message`, `ParseMessage` fails
with the error: given enough fuel it returns no message and the error. -/
def MessageFailsWith (input : List Nat) (e : GoError) : Prop :=
  ∃ fuel0 r2, ∀ fuel, fuel0 ≤ fuel →
    ParseMessage fuel { r := input, buffer := [], next := [] } = some ((none, some e), r2)

/-! ## Readers and parses that do not end -/

/-- The reader after `n` calls of `NextToken`. -/
def readerAfter : Nat → TokenReader → TokenReader
  | 0, rd => rd
  | n + 1, rd => readerAfter n rd.NextToken.2.2

/-- The state of a reader whose input does not end in a delimiter: either
bytes remain, the last of them not a delimiter, or a token is pending in the
buffer. -/
def EndsInToken (rd : TokenReader) : Prop :=
  (∀ h : rd.r ≠ [], isDelim (rd.r.getLast h) = false) ∧ (rd.r = [] → rd.buffer ≠ [])

/-- The top-level loop never returns from `(pb, read)`: it is out of fuel
whatever the fuel. -/
def Diverges (pb : Protobuf) (read : TokenReader) : Prop :=
  ∀ fuel, ParseProtoFileLoop fuel pb read = none

/-! ## The lexer -/

theorem isDelim_iff (b : Nat) :
    isDelim b = true ↔ b = 32 ∨ b = 59 ∨ b = 10 ∨ b = 9 ∨ b = 61 := by
  simp [isDelim, chr, Bool.or_eq_true, or_assoc]

theorem NextTokenLoop_next (r : List Nat) (buffer next : GoString) (h : next ≠ []) :
    NextTokenLoop r buffer next = (next, none, { r := r, buffer := buffer, next := [] }) := by
  cases r <;> simp [NextTokenLoop, h]

theorem NextTokenLoop_byte (b : Nat) (rest : List Nat) (buffer : GoString)
    (h : isDelim b = false) :
    NextTokenLoop (b :: rest) buffer [] = NextTokenLoop rest (buffer ++ [b]) [] := by
  simp [NextTokenLoop, h]

theorem NextTokenLoop_flush (b : Nat) (rest : List Nat) (buffer : GoString)
    (h : isDelim b = true) (hb : buffer ≠ []) :
    NextTokenLoop (b :: rest) buffer [] =
      (buffer, none, { r := rest, buffer := [],
                       next := if b == chr ';' || b == chr '=' then [b] else [] }) := by
  have : 0 < buffer.length := List.length_pos.mpr hb
  simp [NextTokenLoop, h, this]

theorem NextTokenLoop_skip (b : Nat) (rest : List Nat)
    (h : b = 32 ∨ b = 10 ∨ b = 9) :
    NextTokenLoop (b :: rest) [] [] = NextTokenLoop rest [] [] := by
  rcases h with rfl | rfl | rfl <;> simp [NextTokenLoop, isDelim, chr]

theorem NextTokenLoop_punct (b : Nat) (rest : List Nat)
    (h : b = 59 ∨ b = 61) :
    NextTokenLoop (b :: rest) [] [] = ([b], none, { r := rest, buffer := [], next := [] }) := by
  rcases h with rfl | rfl <;> simp [NextTokenLoop, isDelim, chr, NextTokenLoop_next]

/-- Once the input is exhausted with a token pending, `NextToken` returns the
pending token and leaves the reader as it was. -/
theorem NextToken_stuck (rd : TokenReader) (hr : rd.r = []) (hn : rd.next = [])
    (hb : rd.buffer ≠ []) : rd.NextToken = (rd.buffer, none, rd) := by
  obtain ⟨r, buffer, next⟩ := rd
  simp only at hr hn hb
  subst hr hn
  have : 0 < buffer.length := List.length_pos.mpr hb
  simp [TokenReader.NextToken, NextTokenLoop, this]

theorem tokenCalls_succ (fuel : Nat) (rd : TokenReader) :
    tokenCalls (fuel + 1) rd =
      match rd.NextToken with
      | (_, some _, _) => []
      | (tok, none, rd1) =>
        if rd1.r = [] ∧ rd1.next = [] then [tok] else tok :: tokenCalls fuel rd1 := rfl

/-- The calls made on a reader depend on the reader through `NextToken` only. -/
theorem tokenCalls_congr (fuel : Nat) (rd rd1 : TokenReader)
    (h : rd.NextToken = rd1.NextToken) : tokenCalls fuel rd = tokenCalls fuel rd1 := by
  cases fuel with
  | zero => rfl
  | succ n => rw [tokenCalls_succ, tokenCalls_succ, h]

theorem refTokensFrom_nil_nil : refTokensFrom [] [] = [] := rfl

theorem tokenCalls_eq_ref (r : List Nat) :
    ∀ (buffer : GoString) (fuel : Nat), 2 * r.length + 1 ≤ fuel →
      tokenCalls fuel { r := r, buffer := buffer, next := [] } = refTokensFrom r buffer := by
  induction r with
  | nil =>
    intro buffer fuel h
    obtain ⟨n, rfl⟩ : ∃ n, fuel = n + 1 := ⟨fuel - 1, by omega⟩
    by_cases hb : buffer = []
    · subst hb
      simp [tokenCalls_succ, TokenReader.NextToken, NextTokenLoop, refTokensFrom]
    · have : 0 < buffer.length := List.length_pos.mpr hb
      simp [tokenCalls_succ, TokenReader.NextToken, NextTokenLoop, refTokensFrom, hb, this]
  | cons b rest ih =>
    intro buffer fuel h
    simp only [List.length_cons] at h
    obtain ⟨n, rfl⟩ : ∃ n, fuel = n + 2 := ⟨fuel - 2, by omega⟩
    by_cases hd : isDelim b = true
    · have hcases := (isDelim_iff b).mp hd
      by_cases hw : b = 32 ∨ b = 10 ∨ b = 9
      · -- white space
        have hnext : (if (b == chr ';' || b == chr '=') = true then [b] else ([] : GoString)) = [] := by
          rcases hw with rfl | rfl | rfl <;> simp [chr]
        have href : refTokensFrom (b :: rest) buffer =
            (if buffer = [] then [] else [buffer]) ++ refTokensFrom rest [] := by
          rcases hw with rfl | rfl | rfl <;> simp [refTokensFrom, chr]
        rw [href]
        by_cases hb : buffer = []
        · subst hb
          have hcall : ({ r := b :: rest, buffer := [], next := [] } : TokenReader).NextToken =
              ({ r := rest, buffer := [], next := [] } : TokenReader).NextToken := by
            simp only [TokenReader.NextToken]
            exact NextTokenLoop_skip b rest hw
          rw [tokenCalls_congr _ _ _ hcall, ih [] (n + 2) (by omega)]
          simp
        · rw [tokenCalls_succ]
          simp only [TokenReader.NextToken]
          rw [NextTokenLoop_flush b rest buffer hd hb, hnext]
          simp only [and_true, hb, if_false]
          by_cases hr : rest = []
          · subst hr
            simp [refTokensFrom]
          · rw [if_neg hr, ih [] (n + 1) (by omega)]
            simp
      · -- one of the two punctuation bytes
        have hp : b = 59 ∨ b = 61 := by tauto
        have hnext : (if (b == chr ';' || b == chr '=') = true then [b] else ([] : GoString)) = [b] := by
          rcases hp with rfl | rfl <;> simp [chr]
        have href : refTokensFrom (b :: rest) buffer =
            (if buffer = [] then [] else [buffer]) ++ [[b]] ++ refTokensFrom rest [] := by
          rcases hp with rfl | rfl <;> simp [refTokensFrom, chr]
        rw [href]
        have hsecond : ∀ m, 2 * rest.length + 1 ≤ m →
            tokenCalls (m + 1) { r := rest, buffer := [], next := [b] } =
              [b] :: refTokensFrom rest [] := by
          intro m hm
          rw [tokenCalls_succ]
          simp only [TokenReader.NextToken]
          rw [NextTokenLoop_next rest [] [b] (by simp)]
          simp only [and_true]
          by_cases hr : rest = []
          · subst hr
            simp [refTokensFrom]
          · rw [if_neg hr, ih [] m hm]
        by_cases hb : buffer = []
        · subst hb
          rw [tokenCalls_succ]
          simp only [TokenReader.NextToken]
          rw [NextTokenLoop_punct b rest hp]
          simp only [and_true]
          by_cases hr : rest = []
          · subst hr
            simp [refTokensFrom]
          · rw [if_neg hr, ih [] (n + 1) (by omega)]
            simp
        · rw [tokenCalls_succ]
          simp only [TokenReader.NextToken]
          rw [NextTokenLoop_flush b rest buffer hd hb, hnext]
          have : ¬ (rest = [] ∧ [b] = ([] : GoString)) := by simp
          simp only [this, if_false, hb]
          rw [hsecond n (by omega)]
          simp
    · have hd1 : isDelim b = false := by simpa using hd
      have hcases : ¬ (b = 32 ∨ b = 59 ∨ b = 10 ∨ b = 9 ∨ b = 61) := fun hc => hd ((isDelim_iff b).mpr hc)
      have hcall : ({ r := b :: rest, buffer := buffer, next := [] } : TokenReader).NextToken =
          ({ r := rest, buffer := buffer ++ [b], next := [] } : TokenReader).NextToken := by
        simp only [TokenReader.NextToken]
        exact NextTokenLoop_byte b rest buffer hd1
      rw [tokenCalls_congr _ _ _ hcall, ih (buffer ++ [b]) (n + 2) (by omega)]
      have h1 : ¬ (b = chr ' ' ∨ b = chr '\n' ∨ b = chr '\t') := by
        simp only [chr]; intro hc; apply hcases; rcases hc with h | h | h <;> simp_all
      have h2 : ¬ (b = chr ';' ∨ b = chr '=') := by
        simp only [chr]; intro hc; apply hcases; rcases hc with h | h <;> simp_all
      simp [refTokensFrom, h1, h2]

theorem refTokensFrom_shape (r : List Nat) :
    ∀ run : GoString, (∀ b ∈ run, isDelim b = false) →
      ∀ t ∈ refTokensFrom r run,
        t ≠ [] ∧ (t = str ";" ∨ t = str "=" ∨ ∀ b ∈ t, isDelim b = false) := by
  induction r with
  | nil =>
    intro run hrun t ht
    by_cases hb : run = []
    · simp [refTokensFrom, hb] at ht
    · simp only [refTokensFrom, hb, if_false, List.mem_singleton] at ht
      subst ht
      exact ⟨hb, Or.inr (Or.inr hrun)⟩
  | cons b rest ih =>
    intro run hrun t ht
    have hrunmem : t ∈ (if run = [] then [] else [run]) →
        t ≠ [] ∧ (t = str ";" ∨ t = str "=" ∨ ∀ b ∈ t, isDelim b = false) := by
      intro hm
      by_cases hb : run = []
      · simp [hb] at hm
      · simp only [hb, if_false, List.mem_singleton] at hm
        subst hm
        exact ⟨hb, Or.inr (Or.inr hrun)⟩
    have hnil : ∀ x ∈ ([] : GoString), isDelim x = false := by simp
    by_cases h1 : b = chr ' ' ∨ b = chr '\n' ∨ b = chr '\t'
    · simp only [refTokensFrom, h1, if_true, List.mem_append] at ht
      rcases ht with ht | ht
      · exact hrunmem ht
      · exact ih [] hnil t ht
    · by_cases h2 : b = chr ';' ∨ b = chr '='
      · simp only [refTokensFrom, h1, h2, if_true, if_false, List.mem_append,
          List.mem_singleton] at ht
        rcases ht with (ht | ht) | ht
        · exact hrunmem ht
        · subst ht
          refine ⟨by simp, ?_⟩
          rcases h2 with rfl | rfl
          · exact Or.inl rfl
          · exact Or.inr (Or.inl rfl)
        · exact ih [] hnil t ht
      · simp only [refTokensFrom, h1, h2, if_false] at ht
        refine ih (run ++ [b]) ?_ t ht
        intro x hx
        rcases List.mem_append.mp hx with hx | hx
        · exact hrun x hx
        · have hxb : x = b := by simpa using hx
          subst hxb
          have hnd : ¬ (x = 32 ∨ x = 59 ∨ x = 10 ∨ x = 9 ∨ x = 61) := by
            simp only [chr] at h1 h2
            intro hc
            rcases hc with h | h | h | h | h
            · exact h1 (Or.inl h)
            · exact h2 (Or.inl h)
            · exact h1 (Or.inr (Or.inl h))
            · exact h1 (Or.inr (Or.inr h))
            · exact h2 (Or.inr h)
          cases hx : isDelim x with
          | false => rfl
          | true => exact absurd ((isDelim_iff x).mp hx) hnd

/-- C3. On every input the tokens returned by successive calls of `NextToken`,
until the input is exhausted, are the reference tokenization: the maximal runs
of bytes outside the delimiter set, in order, with each `;` and each `=` as a
token of its own at its position and nothing for space, newline and tab. No
token is empty, and each is `;`, or `=`, or free of delimiter bytes. -/
theorem NextToken_tokens_eq_reference (input : List Nat) :
    tokensOf input = refTokens input ∧
      ∀ t ∈ tokensOf input,
        t ≠ [] ∧ (t = str ";" ∨ t = str "=" ∨ ∀ b ∈ t, isDelim b = false) := by
  have h : tokensOf input = refTokens input :=
    tokenCalls_eq_ref input [] (2 * input.length + 1) (Nat.le_refl _)
  refine ⟨h, ?_⟩
  rw [h]
  exact refTokensFrom_shape input [] (by simp)

theorem NextTokenLoop_endsInToken (r : List Nat) :
    ∀ (buffer next : GoString),
      EndsInToken { r := r, buffer := buffer, next := next } →
      (NextTokenLoop r buffer next).2.1 = none ∧
        EndsInToken (NextTokenLoop r buffer next).2.2 := by
  induction r with
  | nil =>
    intro buffer next h
    have hb : buffer ≠ [] := h.2 rfl
    have hlen : 0 < buffer.length := List.length_pos.mpr hb
    by_cases hn : next = []
    · subst hn
      simpa [NextTokenLoop, hlen] using h
    · rw [NextTokenLoop_next _ _ _ hn]
      exact ⟨rfl, by simp [EndsInToken], fun _ => hb⟩
  | cons b rest ih =>
    intro buffer next h
    by_cases hn : next = []
    · subst hn
      have hlast := h.1 (by simp)
      have hrest : ∀ hne : rest ≠ [], isDelim (rest.getLast hne) = false := by
        intro hne
        have := hlast
        rwa [List.getLast_cons hne] at this
      by_cases hd : isDelim b = true
      · have hne : rest ≠ [] := by
          intro hnil
          subst hnil
          simp only [List.getLast_singleton] at hlast
          simp [hlast] at hd
        by_cases hb : buffer = []
        · subst hb
          have hstep : NextTokenLoop (b :: rest) [] [] =
              NextTokenLoop rest [] (if b == chr ';' || b == chr '=' then [b] else []) := by
            simp [NextTokenLoop, hd]
          rw [hstep]
          exact ih _ _ ⟨hrest, fun hnil => absurd hnil hne⟩
        · rw [NextTokenLoop_flush b rest buffer hd hb]
          exact ⟨rfl, hrest, fun hnil => absurd hnil hne⟩
      · have hd1 : isDelim b = false := by simpa using hd
        rw [NextTokenLoop_byte b rest buffer hd1]
        exact ih _ _ ⟨hrest, fun _ => by simp⟩
    · rw [NextTokenLoop_next _ _ _ hn]
      exact ⟨rfl, h.1, fun hnil => by simp at hnil⟩

theorem readerAfter_endsInToken (n : Nat) :
    ∀ rd : TokenReader, EndsInToken rd → EndsInToken (readerAfter n rd) := by
  induction n with
  | zero => intro rd h; exact h
  | succ n ih =>
    intro rd h
    exact ih _ (NextTokenLoop_endsInToken rd.r rd.buffer rd.next h).2

/-- On an input whose last byte is not a delimiter no call of `NextToken`,
however many calls came before it, reports an error: the end of the stream is
never signalled. -/
theorem NextToken_never_EOF (input : List Nat) (hne : input ≠ [])
    (hlast : isDelim (input.getLast hne) = false) (n : Nat) :
    (readerAfter n (NewTokenReader input)).NextToken.2.1 = none := by
  have h0 : EndsInToken (NewTokenReader input) :=
    ⟨fun _ => hlast, fun hnil => absurd hnil hne⟩
  have hn := readerAfter_endsInToken n _ h0
  exact (NextTokenLoop_endsInToken _ _ _ hn).1

theorem NextToken_never_EOF_witness :
    (readerAfter 5 (NewTokenReader (str "ab"))).NextToken.2.1 = none :=
  NextToken_never_EOF (str "ab") (by decide) (by decide) 5

/-- C4, at the input `ab`: the first call returns the pending token `ab`, and
the call after it returns `ab` once more, with no error, where the end of the
stream was due. -/
theorem NextToken_pending_token_repeats :
    (NewTokenReader (str "ab")).NextToken =
        (str "ab", none, { r := [], buffer := str "ab", next := [] }) ∧
      ({ r := [], buffer := str "ab", next := [] } : TokenReader).NextToken =
        (str "ab", none, { r := [], buffer := str "ab", next := [] }) := by
  decide

/-! ## The parser, one step at a time -/

theorem str_package_ne_message : str "package" ≠ str "message" := by decide

/-- A top-level token other than `package` and `message` is passed over. -/
theorem top_skip (fuel : Nat) (pb : Protobuf) (read read1 : TokenReader) (tok : GoString)
    (h : read.NextToken = (tok, none, read1))
    (hp : tok ≠ str "package") (hm : tok ≠ str "message") :
    ParseProtoFileLoop (fuel + 1) pb read = ParseProtoFileLoop fuel pb read1 := by
  simp only [ParseProtoFileLoop, h, hp, hm, if_false]

/-- The end of the stream at top level ends the parse. -/
theorem top_eof (fuel : Nat) (pb : Protobuf) (read read1 : TokenReader) (tok : GoString)
    (h : read.NextToken = (tok, some GoError.EOF, read1)) :
    ParseProtoFileLoop (fuel + 1) pb read = some (some pb, none) := by
  simp only [ParseProtoFileLoop, h, if_true]

/-- A package declaration at top level. -/
theorem top_package (fuel : Nat) (pb : Protobuf) (read r1 r2 r3 : TokenReader)
    (pkgname : GoString)
    (h1 : read.NextToken = (str "package", none, r1))
    (h2 : r1.NextToken = (pkgname, none, r2))
    (h3 : r2.NextToken = (str ";", none, r3)) :
    ParseProtoFileLoop (fuel + 1) pb read =
      ParseProtoFileLoop fuel { pb with Package := pkgname } r3 := by
  simp only [ParseProtoFileLoop, h1, h2, h3, if_true, ne_eq, not_true_eq_false, if_false]

/-- A message declaration at top level that parses. -/
theorem top_message (fuel : Nat) (pb : Protobuf) (read r1 r2 : TokenReader) (m : Message)
    (h1 : read.NextToken = (str "message", none, r1))
    (h2 : ParseMessage fuel r1 = some ((some m, none), r2)) :
    ParseProtoFileLoop (fuel + 1) pb read =
      ParseProtoFileLoop fuel { pb with Messages := pb.Messages ++ [m] } r2 := by
  have hne : str "message" ≠ str "package" := by decide
  simp only [ParseProtoFileLoop, h1, h2, hne, if_true, if_false]

/-- A message declaration at top level that fails. -/
theorem top_message_error (fuel : Nat) (pb : Protobuf) (read r1 r2 : TokenReader)
    (om : Option Message) (err : GoError)
    (h1 : read.NextToken = (str "message", none, r1))
    (h2 : ParseMessage fuel r1 = some ((om, some err), r2)) :
    ParseProtoFileLoop (fuel + 1) pb read = some (none, some err) := by
  have hne : str "message" ≠ str "package" := by decide
  simp only [ParseProtoFileLoop, h1, h2, hne, if_true, if_false]

/-- The header of a message: its name and the opening bracket. -/
theorem message_header (fuel : Nat) (r r1 r2 : TokenReader) (mesname : GoString)
    (h1 : r.NextToken = (mesname, none, r1))
    (h2 : r1.NextToken = (str "\x7b", none, r2)) :
    ParseMessage (fuel + 1) r = ParseMessageLoop fuel (Message.mk mesname [] []) r2 := by
  simp only [ParseMessage, h1, h2, ne_eq, not_true_eq_false, if_false]

/-- In a message body the token `}` ends the message. -/
theorem body_close (fuel : Nat) (m : Message) (r r1 : TokenReader)
    (h : r.NextToken = (str "\x7d", none, r1)) :
    ParseMessageLoop (fuel + 1) m r = some ((some m, none), r1) := by
  simp only [ParseMessageLoop, h, if_true]

/-- In a message body an attribute starts a field. -/
theorem body_field (fuel : Nat) (m : Message) (r r1 r2 : TokenReader) (tok : GoString)
    (f : Field)
    (h : r.NextToken = (tok, none, r1))
    (ht : tok = str "repeated" ∨ tok = str "required" ∨ tok = str "optional")
    (hf : Field.ParseField { Name := [], Number := 0, Typ := [], Attribute := tok } r1 =
      (f, none, r2)) :
    ParseMessageLoop (fuel + 1) m r =
      ParseMessageLoop fuel (Message.mk m.Name (m.Fields ++ [f]) m.SubMessages) r2 := by
  have hne : tok ≠ str "\x7d" := by
    rcases ht with rfl | rfl | rfl <;> decide
  simp only [ParseMessageLoop, h, hne, ht, hf, if_true, if_false]

/-- In a message body a field that fails makes the message fail. -/
theorem body_field_error (fuel : Nat) (m : Message) (r r1 r2 : TokenReader) (tok : GoString)
    (f : Field) (err : GoError)
    (h : r.NextToken = (tok, none, r1))
    (ht : tok = str "repeated" ∨ tok = str "required" ∨ tok = str "optional")
    (hf : Field.ParseField { Name := [], Number := 0, Typ := [], Attribute := tok } r1 =
      (f, some err, r2)) :
    ParseMessageLoop (fuel + 1) m r = some ((none, some err), r2) := by
  have hne : tok ≠ str "\x7d" := by
    rcases ht with rfl | rfl | rfl <;> decide
  simp only [ParseMessageLoop, h, hne, ht, hf, if_true, if_false]

/-- In a message body the token `message` starts a submessage. -/
theorem body_sub (fuel : Nat) (m subm : Message) (r r1 r2 : TokenReader)
    (h : r.NextToken = (str "message", none, r1))
    (hs : ParseMessage fuel r1 = some ((some subm, none), r2)) :
    ParseMessageLoop (fuel + 1) m r =
      ParseMessageLoop fuel (Message.mk m.Name m.Fields (m.SubMessages ++ [subm])) r2 := by
  have h1 : str "message" ≠ str "\x7d" := by decide
  have h2 : ¬ (str "message" = str "repeated" ∨ str "message" = str "required" ∨
      str "message" = str "optional") := by decide
  simp only [ParseMessageLoop, h, hs, h1, h2, if_true, if_false]

/-- In a message body a submessage that fails makes the message fail. -/
theorem body_sub_error (fuel : Nat) (m : Message) (r r1 r2 : TokenReader)
    (om : Option Message) (err : GoError)
    (h : r.NextToken = (str "message", none, r1))
    (hs : ParseMessage fuel r1 = some ((om, some err), r2)) :
    ParseMessageLoop (fuel + 1) m r = some ((none, some err), r2) := by
  have h1 : str "message" ≠ str "\x7d" := by decide
  have h2 : ¬ (str "message" = str "repeated" ∨ str "message" = str "required" ∨
      str "message" = str "optional") := by decide
  simp only [ParseMessageLoop, h, hs, h1, h2, if_true, if_false]

/-- In a message body any other token is an error. -/
theorem body_unrecognized (fuel : Nat) (m : Message) (r r1 : TokenReader) (tok : GoString)
    (h : r.NextToken = (tok, none, r1))
    (h1 : tok ≠ str "\x7d") (h2 : tok ≠ str "repeated") (h3 : tok ≠ str "required")
    (h4 : tok ≠ str "optional") (h5 : tok ≠ str "message") :
    ParseMessageLoop (fuel + 1) m r =
      some ((none, some (GoError.New (str "Unrecognized token: " ++ tok))), r1) := by
  simp only [ParseMessageLoop, h, h1, h2, h3, h4, h5, or_self, if_false]

/-! ## Fuel -/

/-- A result obtained with some fuel is obtained with one unit more. -/
theorem parseMessage_fuel_succ (fuel : Nat) :
    (∀ r x, ParseMessage fuel r = some x → ParseMessage (fuel + 1) r = some x) ∧
    (∀ m r x, ParseMessageLoop fuel m r = some x →
      ParseMessageLoop (fuel + 1) m r = some x) := by
  induction fuel with
  | zero =>
    constructor
    · intro r x h; simp [ParseMessage] at h
    · intro m r x h; simp [ParseMessageLoop] at h
  | succ n ih =>
    obtain ⟨ihm, ihl⟩ := ih
    constructor
    · intro r x h
      rcases h1 : r.NextToken with ⟨mesname, _ | err, r1⟩
      · rcases h2 : r1.NextToken with ⟨openBracket, _ | err, r2⟩
        · by_cases hb : openBracket = str "\x7b"
          · subst hb
            rw [message_header _ _ _ _ _ h1 h2] at h ⊢
            exact ihl _ _ _ h
          · simp only [ParseMessage, h1, h2, ne_eq, hb, not_false_eq_true, if_true] at h ⊢
            exact h
        · simp only [ParseMessage, h1, h2] at h ⊢
          exact h
      · simp only [ParseMessage, h1] at h ⊢
        exact h
    · intro m r x h
      rcases h1 : r.NextToken with ⟨tok, _ | err, r1⟩
      · by_cases hc : tok = str "\x7d"
        · subst hc
          rw [body_close _ _ _ _ h1] at h ⊢
          exact h
        · by_cases ha : tok = str "repeated" ∨ tok = str "required" ∨ tok = str "optional"
          · rcases hf : Field.ParseField
                { Name := [], Number := 0, Typ := [], Attribute := tok } r1 with ⟨f, _ | err, r2⟩
            · rw [body_field _ _ _ _ _ _ _ h1 ha hf] at h ⊢
              exact ihl _ _ _ h
            · rw [body_field_error _ _ _ _ _ _ _ _ h1 ha hf] at h ⊢
              exact h
          · by_cases hm : tok = str "message"
            · subst hm
              rcases hs : ParseMessage n r1 with _ | ⟨⟨om, oe⟩, r2⟩
              · simp only [ParseMessageLoop, h1, hc, ha, hs, if_true, if_false] at h
                exact absurd h (by simp)
              · have hs1 := ihm _ _ hs
                rcases oe with _ | err
                · rcases om with _ | subm
                  · simp only [ParseMessageLoop, h1, hc, ha, hs, hs1, if_true, if_false] at h ⊢
                    exact h
                  · rw [body_sub _ _ _ _ _ _ h1 hs] at h
                    rw [body_sub _ _ _ _ _ _ h1 hs1]
                    exact ihl _ _ _ h
                · rw [body_sub_error _ _ _ _ _ _ _ h1 hs] at h
                  rw [body_sub_error _ _ _ _ _ _ _ h1 hs1]
                  exact h
            · simp only [ParseMessageLoop, h1, hc, ha, hm, if_false] at h ⊢
              exact h
      · simp only [ParseMessageLoop, h1] at h ⊢
        exact h

/-- More fuel does not change a result of `ParseMessage`. -/
theorem ParseMessage_mono (fuel k : Nat) (r : TokenReader) (x : MessageResult)
    (h : ParseMessage fuel r = some x) : ParseMessage (fuel + k) r = some x := by
  induction k with
  | zero => exact h
  | succ k ih => exact (parseMessage_fuel_succ (fuel + k)).1 r x ih

/-- More fuel does not change a result of the loop of `ParseMessage`. -/
theorem ParseMessageLoop_mono (fuel k : Nat) (m : Message) (r : TokenReader)
    (x : MessageResult) (h : ParseMessageLoop fuel m r = some x) :
    ParseMessageLoop (fuel + k) m r = some x := by
  induction k with
  | zero => exact h
  | succ k ih => exact (parseMessage_fuel_succ (fuel + k)).2 m r x ih

/-- The function `ParseMessage` returns a message or an error, never neither. -/
theorem parseMessage_not_nil_nil (fuel : Nat) :
    (∀ r r1, ParseMessage fuel r ≠ some ((none, none), r1)) ∧
    (∀ m r r1, ParseMessageLoop fuel m r ≠ some ((none, none), r1)) := by
  induction fuel with
  | zero =>
    constructor
    · intro r r1 h; simp [ParseMessage] at h
    · intro m r r1 h; simp [ParseMessageLoop] at h
  | succ n ih =>
    obtain ⟨ihm, ihl⟩ := ih
    constructor
    · intro r r0 h
      rcases h1 : r.NextToken with ⟨mesname, _ | err, r1⟩
      · rcases h2 : r1.NextToken with ⟨openBracket, _ | err, r2⟩
        · by_cases hb : openBracket = str "\x7b"
          · subst hb
            rw [message_header _ _ _ _ _ h1 h2] at h
            exact ihl _ _ _ h
          · simp [ParseMessage, h1, h2, hb] at h
        · simp [ParseMessage, h1, h2] at h
      · simp [ParseMessage, h1] at h
    · intro m r r0 h
      rcases h1 : r.NextToken with ⟨tok, _ | err, r1⟩
      · by_cases hc : tok = str "\x7d"
        · subst hc
          rw [body_close _ _ _ _ h1] at h
          simp at h
        · by_cases ha : tok = str "repeated" ∨ tok = str "required" ∨ tok = str "optional"
          · rcases hf : Field.ParseField
                { Name := [], Number := 0, Typ := [], Attribute := tok } r1 with ⟨f, _ | err, r2⟩
            · rw [body_field _ _ _ _ _ _ _ h1 ha hf] at h
              exact ihl _ _ _ h
            · rw [body_field_error _ _ _ _ _ _ _ _ h1 ha hf] at h
              simp at h
          · by_cases hm : tok = str "message"
            · subst hm
              rcases hs : ParseMessage n r1 with _ | ⟨⟨om, oe⟩, r2⟩
              · simp [ParseMessageLoop, h1, hc, ha, hs] at h
              · rcases oe with _ | err
                · rcases om with _ | subm
                  · exact ihm _ _ hs
                  · rw [body_sub _ _ _ _ _ _ h1 hs] at h
                    exact ihl _ _ _ h
                · rw [body_sub_error _ _ _ _ _ _ _ h1 hs] at h
                  simp at h
            · simp [ParseMessageLoop, h1, hc, ha, hm] at h
      · simp [ParseMessageLoop, h1] at h

theorem parseProtoFileLoop_fuel_succ (fuel : Nat) :
    ∀ pb read x, ParseProtoFileLoop fuel pb read = some x →
      ParseProtoFileLoop (fuel + 1) pb read = some x := by
  induction fuel with
  | zero => intro pb read x h; simp [ParseProtoFileLoop] at h
  | succ n ih =>
    intro pb read x h
    rcases h1 : read.NextToken with ⟨tok, _ | err, r1⟩
    · by_cases hp : tok = str "package"
      · subst hp
        rcases h2 : r1.NextToken with ⟨pkgname, _ | err, r2⟩
        · rcases h3 : r2.NextToken with ⟨semi, _ | err, r3⟩
          · by_cases hs : semi = str ";"
            · subst hs
              rw [top_package _ _ _ _ _ _ _ h1 h2 h3] at h ⊢
              exact ih _ _ _ h
            · simp only [ParseProtoFileLoop, h1, h2, h3, ne_eq, hs, not_false_eq_true,
                if_true] at h ⊢
              exact h
          · simp only [ParseProtoFileLoop, h1, h2, h3, if_true] at h ⊢
            exact h
        · simp only [ParseProtoFileLoop, h1, h2, if_true] at h ⊢
          exact h
      · by_cases hm : tok = str "message"
        · subst hm
          rcases hs : ParseMessage n r1 with _ | ⟨⟨om, oe⟩, r2⟩
          · simp [ParseProtoFileLoop, h1, hp, hs] at h
          · have hs1 := (parseMessage_fuel_succ n).1 _ _ hs
            rcases oe with _ | err
            · rcases om with _ | message
              · exact absurd hs ((parseMessage_not_nil_nil n).1 _ _)
              · rw [top_message _ _ _ _ _ _ h1 hs] at h
                rw [top_message _ _ _ _ _ _ h1 hs1]
                exact ih _ _ _ h
            · rw [top_message_error _ _ _ _ _ _ _ h1 hs] at h
              rw [top_message_error _ _ _ _ _ _ _ h1 hs1]
              exact h
        · rw [top_skip _ _ _ _ _ h1 hp hm] at h ⊢
          exact ih _ _ _ h
    · simp only [ParseProtoFileLoop, h1] at h ⊢
      exact h

/-- More fuel does not change a result of the top-level loop. -/
theorem ParseProtoFileLoop_mono (fuel k : Nat) (pb : Protobuf) (read : TokenReader)
    (x : Option Protobuf × Option GoError) (h : ParseProtoFileLoop fuel pb read = some x) :
    ParseProtoFileLoop (fuel + k) pb read = some x := by
  induction k with
  | zero => exact h
  | succ k ih => exact parseProtoFileLoop_fuel_succ (fuel + k) pb read x ih

/-- More fuel does not change a result of `ParseProtoFile`. -/
theorem ParseProtoFile_mono (fuel k : Nat) (input : List Nat)
    (x : Option Protobuf × Option GoError) (h : ParseProtoFile fuel input = some x) :
    ParseProtoFile (fuel + k) input = some x :=
  ParseProtoFileLoop_mono fuel k _ _ x h

theorem parseProtoFileLoop_error_nil (fuel : Nat) :
    ∀ pb read res err, ParseProtoFileLoop fuel pb read = some (res, some err) → res = none := by
  induction fuel with
  | zero => intro pb read res err h; simp [ParseProtoFileLoop] at h
  | succ n ih =>
    intro pb read res err h
    rcases h1 : read.NextToken with ⟨tok, _ | e, r1⟩
    · by_cases hp : tok = str "package"
      · subst hp
        rcases h2 : r1.NextToken with ⟨pkgname, _ | e, r2⟩
        · rcases h3 : r2.NextToken with ⟨semi, _ | e, r3⟩
          · by_cases hs : semi = str ";"
            · subst hs
              rw [top_package _ _ _ _ _ _ _ h1 h2 h3] at h
              exact ih _ _ _ _ h
            · simp only [ParseProtoFileLoop, h1, h2, h3, ne_eq, hs, not_false_eq_true,
                if_true, Option.some.injEq, Prod.mk.injEq] at h
              exact h.1.symm
          · simp only [ParseProtoFileLoop, h1, h2, h3, if_true, Option.some.injEq,
              Prod.mk.injEq] at h
            exact h.1.symm
        · simp only [ParseProtoFileLoop, h1, h2, if_true, Option.some.injEq,
            Prod.mk.injEq] at h
          exact h.1.symm
      · by_cases hm : tok = str "message"
        · subst hm
          rcases hs : ParseMessage n r1 with _ | ⟨⟨om, oe⟩, r2⟩
          · simp [ParseProtoFileLoop, h1, hp, hs] at h
          · rcases oe with _ | e
            · rcases om with _ | message
              · exact absurd hs ((parseMessage_not_nil_nil n).1 _ _)
              · rw [top_message _ _ _ _ _ _ h1 hs] at h
                exact ih _ _ _ _ h
            · rw [top_message_error _ _ _ _ _ _ _ h1 hs] at h
              simp only [Option.some.injEq, Prod.mk.injEq] at h
              exact h.1.symm
        · rw [top_skip _ _ _ _ _ h1 hp hm] at h
          exact ih _ _ _ _ h
    · by_cases he : e = GoError.EOF
      · simp [ParseProtoFileLoop, h1, he] at h
      · simp only [ParseProtoFileLoop, h1, he, if_false, Option.some.injEq,
          Prod.mk.injEq] at h
        exact h.1.symm

/-- C5. Whenever `ParseProtoFile` returns an error it returns no `Protobuf`:
the package name and the messages parsed before the failure are not
returned. -/
theorem ParseProtoFile_error_returns_nil (fuel : Nat) (input : List Nat)
    (res : Option Protobuf) (err : GoError)
    (h : ParseProtoFile fuel input = some (res, some err)) : res = none :=
  parseProtoFileLoop_error_nil fuel _ _ res err h

/-! ## Parses that never return -/

/-- With the input exhausted and a token pending that is neither `package` nor
`message`, the top-level loop reads that token again and again. -/
theorem diverges_stuck (pb : Protobuf) (read : TokenReader) (hr : read.r = [])
    (hn : read.next = []) (hb : read.buffer ≠ [])
    (hp : read.buffer ≠ str "package") (hm : read.buffer ≠ str "message") :
    Diverges pb read := by
  intro fuel
  induction fuel with
  | zero => rfl
  | succ n ih => rw [top_skip n pb read read _ (NextToken_stuck read hr hn hb) hp hm]; exact ih

theorem diverges_package (pb : Protobuf) (read r1 r2 r3 : TokenReader) (pkgname : GoString)
    (h1 : read.NextToken = (str "package", none, r1))
    (h2 : r1.NextToken = (pkgname, none, r2))
    (h3 : r2.NextToken = (str ";", none, r3))
    (h : Diverges { pb with Package := pkgname } r3) : Diverges pb read := by
  intro fuel
  cases fuel with
  | zero => rfl
  | succ n => rw [top_package n pb read r1 r2 r3 pkgname h1 h2 h3]; exact h n

theorem diverges_message (pb : Protobuf) (read r1 r2 : TokenReader) (m : Message) (fuel0 : Nat)
    (h1 : read.NextToken = (str "message", none, r1))
    (h2 : ParseMessage fuel0 r1 = some ((some m, none), r2))
    (h : Diverges { pb with Messages := pb.Messages ++ [m] } r2) : Diverges pb read := by
  intro fuel
  cases fuel with
  | zero => rfl
  | succ n =>
    rcases hs : ParseMessage n r1 with _ | y
    · have hne : str "message" ≠ str "package" := by decide
      simp only [ParseProtoFileLoop, h1, hs, hne, if_true, if_false]
    · have e1 := ParseMessage_mono n fuel0 r1 y hs
      have e2 := ParseMessage_mono fuel0 n r1 _ h2
      rw [Nat.add_comm] at e2
      rw [e1] at e2
      have hy : y = ((some m, none), r2) := Option.some.inj e2
      subst hy
      rw [top_message n pb read r1 r2 m h1 hs]
      exact h n

/-- C1, on the input of the specification that ends at the closing brace:
`ParseProtoFile` does not return. The brace is the last token; the lexer keeps
returning it once the input is exhausted, and the top-level loop passes over
it for ever. -/
theorem ParseProtoFile_example_never_returns (fuel : Nat) :
    ParseProtoFile fuel
      (str "package demo; message Point \x7b required int32 x = 1; required int32 y = 2; \x7d")
      = none := by
  refine diverges_package _ _
    { r := str "demo; message Point \x7b required int32 x = 1; required int32 y = 2; \x7d",
      buffer := [], next := [] }
    { r := str " message Point \x7b required int32 x = 1; required int32 y = 2; \x7d",
      buffer := [], next := str ";" }
    { r := str " message Point \x7b required int32 x = 1; required int32 y = 2; \x7d",
      buffer := [], next := [] }
    (str "demo") (by decide) (by decide) (by decide) ?_ fuel
  refine diverges_message _ _
    { r := str "Point \x7b required int32 x = 1; required int32 y = 2; \x7d",
      buffer := [], next := [] }
    { r := [], buffer := str "\x7d", next := [] }
    (Message.mk (str "Point")
      [{ Name := str "x", Number := 1, Typ := str "int32", Attribute := str "required" },
       { Name := str "y", Number := 2, Typ := str "int32", Attribute := str "required" }] [])
    4 (by decide) rfl ?_
  exact diverges_stuck _ _ rfl rfl (by decide) (by decide) (by decide)

/-! ## Decimal numbers -/

theorem natDecFuel_spec (fuel : Nat) :
    ∀ n, n < fuel →
      natDecFuel fuel n ≠ [] ∧ (∀ b ∈ natDecFuel fuel n, 48 ≤ b ∧ b ≤ 57) ∧
      ∀ rest a, (natDecFuel fuel n ++ rest).foldl (fun acc c => acc * 10 + (c - chr '0')) a =
        rest.foldl (fun acc c => acc * 10 + (c - chr '0'))
          (a * 10 ^ (natDecFuel fuel n).length + n) := by
  induction fuel with
  | zero => intro n h; omega
  | succ k ih =>
    intro n h
    by_cases h10 : n < 10
    · have hdef : natDecFuel (k + 1) n = [48 + n] := by simp [natDecFuel, h10, chr]
      rw [hdef]
      refine ⟨by simp, ?_, ?_⟩
      · intro b hb
        have : b = 48 + n := by simpa using hb
        omega
      · intro rest a
        simp only [List.singleton_append, List.foldl_cons, List.length_singleton, pow_one]
        congr 1
        simp [chr]
    · have hdef : natDecFuel (k + 1) n = natDecFuel k (n / 10) ++ [48 + n % 10] := by
        simp [natDecFuel, h10, chr]
      have hlt : n / 10 < k := by omega
      obtain ⟨h1, h2, h3⟩ := ih (n / 10) hlt
      rw [hdef]
      refine ⟨by simp, ?_, ?_⟩
      · intro b hb
        rcases List.mem_append.mp hb with hb | hb
        · exact h2 b hb
        · have : b = 48 + n % 10 := by simpa using hb
          omega
      · intro rest a
        rw [List.append_assoc, h3]
        simp only [List.singleton_append, List.foldl_cons, List.length_append,
          List.length_singleton]
        congr 1
        have hsub : 48 + n % 10 - chr '0' = n % 10 := by simp [chr]
        rw [hsub, pow_succ]
        have := Nat.div_add_mod n 10
        nlinarith [Nat.div_add_mod n 10]

theorem foldl_digits_le (ds : List Nat) :
    ∀ a, a ≤ ds.foldl (fun acc c => acc * 10 + (c - chr '0')) a := by
  induction ds with
  | nil => intro a; exact le_refl a
  | cons d ds ih =>
    intro a
    simp only [List.foldl_cons]
    exact le_trans (by omega) (ih (a * 10 + (d - chr '0')))

/-- On digits the loop of `ParseUint` gives their value, or the largest
`uint64` when the value is out of the range of `uint64`. -/
theorem parseDigits_digits (ds : List Nat) :
    ∀ a, a < 2 ^ 64 → (∀ c ∈ ds, chr '0' ≤ c ∧ c ≤ chr '9') →
      parseDigits ds a =
        some (if ds.foldl (fun acc c => acc * 10 + (c - chr '0')) a < 2 ^ 64 then
          ds.foldl (fun acc c => acc * 10 + (c - chr '0')) a else 2 ^ 64 - 1) := by
  induction ds with
  | nil =>
    intro a ha _
    simp only [parseDigits, List.foldl_nil, if_pos ha]
  | cons d ds ih =>
    intro a _ h
    have hd := h d (by simp)
    by_cases hlt : a * 10 + (d - chr '0') < 2 ^ 64
    · have ih2 := ih (a * 10 + (d - chr '0')) hlt (fun c hc => h c (by simp [hc]))
      simp only [parseDigits, hd, and_self, if_true, hlt, ih2, List.foldl_cons]
    · have hge := foldl_digits_le ds (a * 10 + (d - chr '0'))
      have : ¬ ds.foldl (fun acc c => acc * 10 + (c - chr '0')) (a * 10 + (d - chr '0')) <
          2 ^ 64 := by omega
      simp only [parseDigits, hd, and_self, if_true, hlt, if_false, List.foldl_cons, this]

/-- When a byte is not a digit the loop of `ParseUint` gives the syntax error,
or the range error when the digits before that byte leave the range of
`uint64`. -/
theorem parseDigits_not_digits (ds : List Nat) :
    ∀ a, (¬ ∀ c ∈ ds, chr '0' ≤ c ∧ c ≤ chr '9') →
      parseDigits ds a = none ∨ parseDigits ds a = some (2 ^ 64 - 1) := by
  induction ds with
  | nil => intro a h; exact absurd (by simp) h
  | cons d ds ih =>
    intro a h
    by_cases hd : chr '0' ≤ d ∧ d ≤ chr '9'
    · by_cases hlt : a * 10 + (d - chr '0') < 2 ^ 64
      · have hrest : ¬ ∀ c ∈ ds, chr '0' ≤ c ∧ c ≤ chr '9' := by
          intro hc
          apply h
          intro c hcm
          rcases List.mem_cons.mp hcm with rfl | hcm
          · exact hd
          · exact hc c hcm
        simpa only [parseDigits, hd, and_self, if_true, hlt] using
          ih (a * 10 + (d - chr '0')) hrest
      · right
        simp only [parseDigits, hd, and_self, if_true, hlt, if_false]
    · left
      simp only [parseDigits, hd, if_false]

theorem natDec_spec (n : Nat) :
    natDec n ≠ [] ∧ (∀ b ∈ natDec n, 48 ≤ b ∧ b ≤ 57) ∧
      (natDec n).foldl (fun acc c => acc * 10 + (c - chr '0')) 0 = n := by
  obtain ⟨h1, h2, h3⟩ := natDecFuel_spec (n + 1) n (Nat.lt_succ_self n)
  refine ⟨h1, h2, ?_⟩
  have := h3 [] 0
  simpa [natDec] using this

theorem parseDigits_natDec (n : Nat) (h : n < 2 ^ 64) : parseDigits (natDec n) 0 = some n := by
  obtain ⟨_, h2, h3⟩ := natDec_spec n
  have hd : ∀ c ∈ natDec n, chr '0' ≤ c ∧ c ≤ chr '9' := by
    intro c hc
    have := h2 c hc
    simpa [chr] using this
  rw [parseDigits_digits (natDec n) 0 (by norm_num) hd, h3, if_pos h]

theorem natDec_head (n : Nat) (b : Nat) (hb : b < 48) : (natDec n).head? ≠ some b := by
  obtain ⟨h1, h2, _⟩ := natDec_spec n
  cases hnd : natDec n with
  | nil => exact absurd hnd h1
  | cons c cs =>
    have := h2 c (by rw [hnd]; simp)
    simp only [List.head?_cons, ne_eq, Option.some.injEq]
    omega

/-- Reading back a number rendered in decimal gives the number, for every value
in the range of `int`. -/
theorem Atoi_Itoa (n : Int) (hlo : - (2 : Int) ^ (intSize - 1) ≤ n)
    (hhi : n < (2 : Int) ^ (intSize - 1)) : Atoi (Itoa n) = (n, none) := by
  obtain ⟨h1, h2, _⟩ := natDec_spec n.natAbs
  have hp : (2 : Int) ^ (intSize - 1) = ((2 ^ (intSize - 1) : Nat) : Int) := by norm_cast
  have h63 : (2 : Nat) ^ (intSize - 1) = 9223372036854775808 := by norm_num [intSize]
  have hb : n.natAbs < 2 ^ 64 := by
    have : ((n.natAbs : Nat) : Int) ≤ ((2 ^ (intSize - 1) : Nat) : Int) := by
      rw [← hp]; omega
    have : n.natAbs ≤ 2 ^ (intSize - 1) := by exact_mod_cast this
    rw [h63] at this
    norm_num
    omega
  have h3 := parseDigits_natDec n.natAbs hb
  by_cases hneg : n < 0
  · have hI : Itoa n = 45 :: natDec n.natAbs := by simp [Itoa, hneg, chr]
    have hle : n.natAbs ≤ 2 ^ (intSize - 1) := by
      have : ((n.natAbs : Nat) : Int) ≤ ((2 ^ (intSize - 1) : Nat) : Int) := by
        rw [← hp]; omega
      exact_mod_cast this
    have hval : - ((n.natAbs : Nat) : Int) = n := by omega
    have habs : |n| = -n := abs_of_neg hneg
    simp [Atoi, hI, chr, h1, h3, hle, hval, habs]
  · have hI : Itoa n = natDec n.natAbs := by simp [Itoa, hneg]
    have hm : (natDec n.natAbs).head? ≠ some 45 := natDec_head _ 45 (by decide)
    have hpl : (natDec n.natAbs).head? ≠ some 43 := natDec_head _ 43 (by decide)
    have hlt : n.natAbs < 2 ^ (intSize - 1) := by
      have : ((n.natAbs : Nat) : Int) < ((2 ^ (intSize - 1) : Nat) : Int) := by
        rw [← hp]; omega
      exact_mod_cast this
    have hval : ((n.natAbs : Nat) : Int) = n := by omega
    have habs : |n| = n := abs_of_nonneg (by omega)
    simp [Atoi, hI, chr, h1, h3, hm, hpl, hlt, hval, habs]

theorem Word_Itoa (n : Int) : Word (Itoa n) := by
  obtain ⟨h1, h2, _⟩ := natDec_spec n.natAbs
  have hd : ∀ b ∈ natDec n.natAbs, isDelim b = false := by
    intro b hb
    have := h2 b hb
    cases hx : isDelim b with
    | false => rfl
    | true => have := (isDelim_iff b).mp hx; omega
  by_cases hneg : n < 0
  · have hI : Itoa n = 45 :: natDec n.natAbs := by simp [Itoa, hneg, chr]
    rw [hI]
    refine ⟨by simp, ?_⟩
    intro b hb
    rcases List.mem_cons.mp hb with rfl | hb
    · decide
    · exact hd b hb
  · have hI : Itoa n = natDec n.natAbs := by simp [Itoa, hneg]
    rw [hI]
    exact ⟨h1, hd⟩

/-! ## Parsing the canonical text -/

theorem NextTokenLoop_word_acc (w : GoString) :
    ∀ (buffer : GoString) (rest : List Nat), (∀ b ∈ w, isDelim b = false) →
      NextTokenLoop (w ++ rest) buffer [] = NextTokenLoop rest (buffer ++ w) [] := by
  induction w with
  | nil => intro buffer rest _; simp
  | cons b w ih =>
    intro buffer rest h
    have hb : isDelim b = false := h b (by simp)
    rw [List.cons_append, NextTokenLoop_byte b _ buffer hb, ih _ _ (fun x hx => h x (by simp [hx]))]
    simp

/-- A word followed by a space is the next token, and the space is consumed
with it. -/
theorem NextToken_word (w : GoString) (rest : List Nat) (hw : Word w) :
    ({ r := w ++ 32 :: rest, buffer := [], next := [] } : TokenReader).NextToken =
      (w, none, { r := rest, buffer := [], next := [] }) := by
  simp only [TokenReader.NextToken]
  rw [NextTokenLoop_word_acc w [] _ hw.2, List.nil_append,
    NextTokenLoop_flush 32 rest w (by decide) hw.1]
  simp [chr]

/-- A space before a token is passed over. -/
theorem NextToken_space (rest : List Nat) :
    ({ r := 32 :: rest, buffer := [], next := [] } : TokenReader).NextToken =
      ({ r := rest, buffer := [], next := [] } : TokenReader).NextToken := by
  simp only [TokenReader.NextToken]
  exact NextTokenLoop_skip 32 rest (Or.inl rfl)

/-- The bytes `;` and `=` are tokens of their own. -/
theorem NextToken_punct (b : Nat) (rest : List Nat) (h : b = 59 ∨ b = 61) :
    ({ r := b :: rest, buffer := [], next := [] } : TokenReader).NextToken =
      ([b], none, { r := rest, buffer := [], next := [] }) := by
  simp only [TokenReader.NextToken]
  exact NextTokenLoop_punct b rest h

theorem ParseMessageLoop_congr (fuel : Nat) (m : Message) (r r1 : TokenReader)
    (h : r.NextToken = r1.NextToken) :
    ParseMessageLoop fuel m r = ParseMessageLoop fuel m r1 := by
  cases fuel with
  | zero => rfl
  | succ n => simp only [ParseMessageLoop, h]

theorem ParseProtoFileLoop_congr (fuel : Nat) (pb : Protobuf) (r r1 : TokenReader)
    (h : r.NextToken = r1.NextToken) :
    ParseProtoFileLoop fuel pb r = ParseProtoFileLoop fuel pb r1 := by
  cases fuel with
  | zero => rfl
  | succ n => simp only [ParseProtoFileLoop, h]

theorem Message_eta (m : Message) : Message.mk m.Name m.Fields m.SubMessages = m := by
  cases m; rfl

/-- The method `ParseField` on the canonical text of a field. -/
theorem ParseField_render (f : Field) (attr : GoString) (rest : List Nat)
    (ht : Word f.Typ) (hn : Word f.Name)
    (hlo : - (2 : Int) ^ (intSize - 1) ≤ f.Number) (hhi : f.Number < (2 : Int) ^ (intSize - 1)) :
    Field.ParseField { Name := [], Number := 0, Typ := [], Attribute := attr }
        { r := renderFieldTail f ++ rest, buffer := [], next := [] } =
      ({ Name := f.Name, Number := f.Number, Typ := f.Typ, Attribute := attr }, none,
        { r := 32 :: rest, buffer := [], next := [] }) := by
  have e0 : renderFieldTail f ++ rest =
      f.Typ ++ 32 :: (f.Name ++ 32 :: 61 :: 32 :: (Itoa f.Number ++ 32 :: 59 :: 32 :: rest)) := by
    simp [renderFieldTail, str]
  have h1 := NextToken_word f.Typ
    (f.Name ++ 32 :: 61 :: 32 :: (Itoa f.Number ++ 32 :: 59 :: 32 :: rest)) ht
  have h2 := NextToken_word f.Name (61 :: 32 :: (Itoa f.Number ++ 32 :: 59 :: 32 :: rest)) hn
  have h3 := NextToken_punct 61 (32 :: (Itoa f.Number ++ 32 :: 59 :: 32 :: rest)) (Or.inr rfl)
  have h4 : (TokenReader.mk (32 :: (Itoa f.Number ++ 32 :: 59 :: 32 :: rest)) [] []).NextToken =
      (Itoa f.Number, none, { r := 59 :: 32 :: rest, buffer := [], next := [] }) := by
    rw [NextToken_space]
    exact NextToken_word _ _ (Word_Itoa f.Number)
  have h5 := NextToken_punct 59 (32 :: rest) (Or.inl rfl)
  have heq : ([61] : GoString) = str "=" := by decide
  have hsemi : ([59] : GoString) = str ";" := by decide
  rw [e0]
  simp only [Field.ParseField, h1, h2, h3, h4, h5, Atoi_Itoa f.Number hlo hhi, heq, hsemi,
    ne_eq, not_true_eq_false, if_false]

theorem Word_attribute (a : GoString)
    (h : a = str "repeated" ∨ a = str "required" ∨ a = str "optional") : Word a := by
  rcases h with rfl | rfl | rfl <;> decide

/-- The loop of `ParseMessage` on the canonical text of a body: the fields and
the messages of the body are appended, in order, to those collected before, and
the reader stands right after the text. -/
theorem ParseMessageLoop_render (b : Body) :
    ∀ (m : Message) (rest : List Nat) (fuel : Nat), b.WellFormed → b.size ≤ fuel →
      ParseMessageLoop fuel m { r := b.render ++ rest, buffer := [], next := [] } =
        some ((some (Message.mk m.Name (m.Fields ++ b.fields) (m.SubMessages ++ b.subs)),
          none), { r := rest, buffer := [], next := [] }) := by
  induction b with
  | close =>
    intro m rest fuel _ hfuel
    simp only [Body.size] at hfuel
    obtain ⟨n, rfl⟩ : ∃ n, fuel = n + 1 := ⟨fuel - 1, by omega⟩
    have e0 : Body.close.render ++ rest = str "\x7d" ++ 32 :: rest := by
      simp [Body.render, str]
    rw [e0, body_close n m _ _ (NextToken_word (str "\x7d") rest (by decide))]
    simp [Body.fields, Body.subs, Message_eta]
  | field f b ih =>
    intro m rest fuel hwf hfuel
    simp only [Body.size] at hfuel
    obtain ⟨n, rfl⟩ : ∃ n, fuel = n + 1 := ⟨fuel - 1, by omega⟩
    obtain ⟨⟨ht, hn, ha, hlo, hhi⟩, hb⟩ := hwf
    have e0 : (Body.field f b).render ++ rest =
        f.Attribute ++ 32 :: (renderFieldTail f ++ (b.render ++ rest)) := by
      simp [Body.render, str]
    have h1 := NextToken_word f.Attribute (renderFieldTail f ++ (b.render ++ rest))
      (Word_attribute _ ha)
    have h2 := ParseField_render f f.Attribute (b.render ++ rest) ht hn hlo hhi
    rw [e0, body_field n m _ _ _ f.Attribute _ h1 ha h2,
      ParseMessageLoop_congr n _ _ _ (NextToken_space (b.render ++ rest)),
      ih _ rest n hb (by omega)]
    simp [Body.fields, Body.subs, Message.Name, Message.Fields, Message.SubMessages]
  | sub name inner b ihi ihb =>
    intro m rest fuel hwf hfuel
    simp only [Body.size] at hfuel
    obtain ⟨n, rfl⟩ : ∃ n, fuel = n + 2 := ⟨fuel - 2, by omega⟩
    obtain ⟨hname, hinner, hb⟩ := hwf
    have e0 : (Body.sub name inner b).render ++ rest =
        str "message" ++ 32 :: (name ++ 32 :: (str "\x7b" ++ 32 ::
          (inner.render ++ (b.render ++ rest)))) := by
      simp [Body.render, str]
    have h1 := NextToken_word (str "message")
      (name ++ 32 :: (str "\x7b" ++ 32 :: (inner.render ++ (b.render ++ rest)))) (by decide)
    have h2 := NextToken_word name (str "\x7b" ++ 32 :: (inner.render ++ (b.render ++ rest))) hname
    have h3 := NextToken_word (str "\x7b") (inner.render ++ (b.render ++ rest)) (by decide)
    have h4 : ParseMessage (n + 1) { r := name ++ 32 :: (str "\x7b" ++ 32 ::
        (inner.render ++ (b.render ++ rest))), buffer := [], next := [] } =
        some ((some (Message.mk name inner.fields inner.subs), none),
          { r := b.render ++ rest, buffer := [], next := [] }) := by
      rw [message_header n _ _ _ name h2 h3, ihi _ _ n hinner (by omega)]
      simp [Message.Name, Message.Fields, Message.SubMessages]
    rw [e0, body_sub (n + 1) m _ _ _ _ h1 h4, ihb _ rest (n + 1) hb (by omega)]
    simp [Body.fields, Body.subs, Message.Name, Message.Fields, Message.SubMessages]

/-- The top-level loop on the canonical text of a list of declarations. -/
theorem ParseProtoFileLoop_renderDecls (ds : List Decl) :
    ∀ (pb : Protobuf) (fuel : Nat), (∀ d ∈ ds, Word d.1 ∧ d.2.WellFormed) →
      declsSize ds ≤ fuel →
      ParseProtoFileLoop fuel pb { r := renderDecls ds, buffer := [], next := [] } =
        some (some { pb with Messages := pb.Messages ++ ds.map Decl.toMessage }, none) := by
  induction ds with
  | nil =>
    intro pb fuel _ hfuel
    simp only [declsSize] at hfuel
    obtain ⟨n, rfl⟩ : ∃ n, fuel = n + 1 := ⟨fuel - 1, by omega⟩
    rw [top_eof n pb _ { r := [], buffer := [], next := [] } [] (by decide)]
    simp
  | cons d ds ih =>
    intro pb fuel hwf hfuel
    simp only [declsSize] at hfuel
    obtain ⟨n, rfl⟩ : ∃ n, fuel = n + 2 := ⟨fuel - 2, by omega⟩
    obtain ⟨hname, hbody⟩ := hwf d (by simp)
    have e0 : renderDecls (d :: ds) =
        str "message" ++ 32 :: (d.1 ++ 32 :: (str "\x7b" ++ 32 ::
          (d.2.render ++ renderDecls ds))) := by
      simp [renderDecls, str]
    have h1 := NextToken_word (str "message")
      (d.1 ++ 32 :: (str "\x7b" ++ 32 :: (d.2.render ++ renderDecls ds))) (by decide)
    have h2 := NextToken_word d.1 (str "\x7b" ++ 32 :: (d.2.render ++ renderDecls ds)) hname
    have h3 := NextToken_word (str "\x7b") (d.2.render ++ renderDecls ds) (by decide)
    have h4 : ParseMessage (n + 1) { r := d.1 ++ 32 :: (str "\x7b" ++ 32 ::
        (d.2.render ++ renderDecls ds)), buffer := [], next := [] } =
        some ((some d.toMessage, none), { r := renderDecls ds, buffer := [], next := [] }) := by
      rw [message_header n _ _ _ d.1 h2 h3, ParseMessageLoop_render d.2 _ _ n hbody (by omega)]
      simp [Message.Name, Message.Fields, Message.SubMessages, Decl.toMessage]
    rw [e0, top_message (n + 1) pb _ _ _ _ h1 h4,
      ih _ (n + 1) (fun x hx => hwf x (by simp [hx])) (by omega)]
    simp

theorem parseProtoFile_renderFile_aux (pkg : GoString) (ds : List Decl) (fuel : Nat)
    (hpkg : Word pkg) (hds : ∀ d ∈ ds, Word d.1 ∧ d.2.WellFormed)
    (hfuel : declsSize ds + 1 ≤ fuel) :
    ParseProtoFile fuel (renderFile pkg ds) =
      some (some { Package := pkg, Messages := ds.map Decl.toMessage }, none) := by
  obtain ⟨n, rfl⟩ : ∃ n, fuel = n + 1 := ⟨fuel - 1, by omega⟩
  have e0 : renderFile pkg ds =
      str "package" ++ 32 :: (pkg ++ 32 :: 59 :: 32 :: renderDecls ds) := by
    simp [renderFile, str]
  have h1 := NextToken_word (str "package") (pkg ++ 32 :: 59 :: 32 :: renderDecls ds) (by decide)
  have h2 := NextToken_word pkg (59 :: 32 :: renderDecls ds) hpkg
  have h3 := NextToken_punct 59 (32 :: renderDecls ds) (Or.inl rfl)
  have hsemi : ([59] : GoString) = str ";" := by decide
  rw [hsemi] at h3
  unfold ParseProtoFile NewTokenReader
  rw [e0, top_package n _ _ _ _ _ pkg h1 h2 h3,
    ParseProtoFileLoop_congr n _ _ _ (NextToken_space (renderDecls ds)),
    ParseProtoFileLoop_renderDecls ds _ n hds (by omega)]
  simp

/-- C2. Parsing undoes rendering. Take a `Protobuf` and any way `ds` of
writing its messages down, the fields and nested messages of each body in any
interleaving that keeps the order of the fields and the order of the
submessages. Let the package name, the message names, the field names and the
field types be words (non-empty, free of delimiter bytes), the attributes be
among `required`, `optional`, `repeated`, and the numbers be values of `int`.
On the canonical text (`package P ;`, then `message N \x7b ... \x7d` with
fields `ATTR TYPE NAME = NUMBER ;`, every token followed by one space) and
with enough fuel, `ParseProtoFile` returns that `Protobuf` and no error: the
messages in order, in each message the fields in order with their name,
number, type and attribute, and the submessages in order, at every depth. -/
theorem ParseProtoFile_renderFile (pb : Protobuf) (ds : List Decl) (fuel : Nat)
    (hpb : ds.map Decl.toMessage = pb.Messages)
    (hpkg : Word pb.Package) (hds : ∀ d ∈ ds, Word d.1 ∧ d.2.WellFormed)
    (hfuel : declsSize ds + 1 ≤ fuel) :
    ParseProtoFile fuel (renderFile pb.Package ds) = some (some pb, none) := by
  rw [parseProtoFile_renderFile_aux pb.Package ds fuel hpkg hds hfuel, hpb]

theorem fieldsThen_fields (fs : List Field) (b : Body) :
    (fieldsThen fs b).fields = fs ++ b.fields := by
  induction fs with
  | nil => rfl
  | cons f fs ih => simp [fieldsThen, Body.fields, ih]

theorem fieldsThen_subs (fs : List Field) (b : Body) : (fieldsThen fs b).subs = b.subs := by
  induction fs with
  | nil => rfl
  | cons f fs ih => simp [fieldsThen, Body.subs, ih]

theorem fieldsThen_wellFormed (fs : List Field) (b : Body) (hfs : ∀ f ∈ fs, f.Canonical)
    (hb : b.WellFormed) : (fieldsThen fs b).WellFormed := by
  induction fs with
  | nil => exact hb
  | cons f fs ih =>
    exact ⟨hfs f (by simp), ih (fun x hx => hfs x (by simp [hx]))⟩

mutual
/-- Writing a message down fields first keeps its fields and submessages. -/
theorem Message.body_spec : ∀ m : Message,
    m.body.fields = m.Fields ∧ m.body.subs = m.SubMessages
  | .mk mname fields subs => by
    have h := bodyOfSubs_spec subs
    simp only [Message.body, fieldsThen_fields, fieldsThen_subs, h.1, h.2, List.append_nil,
      Message.Fields, Message.SubMessages, and_self]
theorem bodyOfSubs_spec : ∀ ms : List Message,
    (bodyOfSubs ms).fields = [] ∧ (bodyOfSubs ms).subs = ms
  | [] => ⟨rfl, rfl⟩
  | m :: ms => by
    have h1 := Message.body_spec m
    have h2 := bodyOfSubs_spec ms
    simp only [bodyOfSubs, Body.fields, Body.subs, h1.1, h1.2, h2.1, h2.2, Message_eta,
      and_self]
end

mutual
theorem Message.body_wellFormed : ∀ m : Message, m.Canonical → m.body.WellFormed
  | .mk mname fields subs, h => by
    have hp : Word mname ∧ (∀ f ∈ fields, f.Canonical) ∧ Canonicals subs := by
      simpa [Message.Canonical] using h
    exact fieldsThen_wellFormed fields _ hp.2.1 (bodyOfSubs_wellFormed subs hp.2.2)
theorem bodyOfSubs_wellFormed : ∀ ms : List Message, Canonicals ms → (bodyOfSubs ms).WellFormed
  | [], _ => trivial
  | m :: ms, h => by
    have hp : m.Canonical ∧ Canonicals ms := by simpa [Canonicals] using h
    have hname : Word m.Name := by
      cases m with
      | mk mname fields subs =>
        have : Word mname ∧ (∀ f ∈ fields, f.Canonical) ∧ Canonicals subs := by
          simpa [Message.Canonical] using hp.1
        exact this.1
    exact ⟨hname, Message.body_wellFormed m hp.1, bodyOfSubs_wellFormed ms hp.2⟩
end

theorem Message.decl_toMessage (m : Message) : m.decl.toMessage = m := by
  have h := Message.body_spec m
  simp only [Message.decl, Decl.toMessage, h.1, h.2, Message_eta]

/-- Every `Protobuf` whose strings are canonical has a canonical text, its
messages written fields first, and parsing that text returns it. -/
theorem ParseProtoFile_canonical_text (pb : Protobuf) (fuel : Nat)
    (hpkg : Word pb.Package) (hms : Canonicals pb.Messages)
    (hfuel : declsSize (pb.Messages.map Message.decl) + 1 ≤ fuel) :
    ParseProtoFile fuel (renderFile pb.Package (pb.Messages.map Message.decl)) =
      some (some pb, none) := by
  have hds : ∀ d ∈ pb.Messages.map Message.decl, Word d.1 ∧ d.2.WellFormed := by
    generalize pb.Messages = ms at hms
    induction ms with
    | nil => intro d hd; simp at hd
    | cons m ms ih =>
      intro d hd
      have hp : m.Canonical ∧ Canonicals ms := by simpa [Canonicals] using hms
      rcases List.mem_cons.mp hd with rfl | hd
      · have hname : Word m.Name := by
          cases m with
          | mk mname fields subs =>
            have : Word mname ∧ (∀ f ∈ fields, f.Canonical) ∧ Canonicals subs := by
              simpa [Message.Canonical] using hp.1
            exact this.1
        exact ⟨hname, Message.body_wellFormed m hp.1⟩
      · exact ih hp.2 d hd
  have hmap : (pb.Messages.map Message.decl).map Decl.toMessage = pb.Messages := by
    rw [List.map_map]
    conv_rhs => rw [← List.map_id pb.Messages]
    exact List.map_congr_left (fun m _ => Message.decl_toMessage m)
  rw [parseProtoFile_renderFile_aux pb.Package _ fuel hpkg hds hfuel, hmap]

theorem ParseProtoFile_renderFile_witness :
    renderFile (str "demo")
        [(str "Point", Body.field ⟨str "x", 1, str "int32", str "required"⟩
          (Body.sub (str "In") (Body.field ⟨str "s", -7, str "string", str "repeated"⟩ Body.close)
            (Body.field ⟨str "y", 2, str "In", str "optional"⟩ Body.close)))] =
      str ("package demo ; message Point \x7b required int32 x = 1 ; message In \x7b " ++
        "repeated string s = -7 ; \x7d optional In y = 2 ; \x7d ") ∧
    ParseProtoFile 11 (renderFile (str "demo")
        [(str "Point", Body.field ⟨str "x", 1, str "int32", str "required"⟩
          (Body.sub (str "In") (Body.field ⟨str "s", -7, str "string", str "repeated"⟩ Body.close)
            (Body.field ⟨str "y", 2, str "In", str "optional"⟩ Body.close)))]) =
      some (some
        { Package := str "demo",
          Messages := [Message.mk (str "Point")
            [⟨str "x", 1, str "int32", str "required"⟩, ⟨str "y", 2, str "In", str "optional"⟩]
            [Message.mk (str "In") [⟨str "s", -7, str "string", str "repeated"⟩] []]] },
        none) := by
  refine ⟨by decide, ?_⟩
  refine ParseProtoFile_renderFile
    { Package := str "demo",
      Messages := [Message.mk (str "Point")
        [⟨str "x", 1, str "int32", str "required"⟩, ⟨str "y", 2, str "In", str "optional"⟩]
        [Message.mk (str "In") [⟨str "s", -7, str "string", str "repeated"⟩] []]] }
    _ 11 rfl (by decide) ?_ (by decide)
  intro d hd
  rw [List.mem_singleton] at hd
  subst hd
  refine ⟨by decide, ⟨by decide, by decide, by decide, by decide, by decide⟩, by decide, ?_, ?_⟩
  · exact ⟨⟨by decide, by decide, by decide, by decide, by decide⟩, trivial⟩
  · exact ⟨⟨by decide, by decide, by decide, by decide, by decide⟩, trivial⟩

/-- The same text followed by a newline parses to the syntax tree of the
example. -/
theorem ParseProtoFile_example_newline :
    ParseProtoFile 6
      (str "package demo; message Point \x7b required int32 x = 1; required int32 y = 2; \x7d\n")
      = some (some
          { Package := str "demo",
            Messages := [Message.mk (str "Point")
              [{ Name := str "x", Number := 1, Typ := str "int32", Attribute := str "required" },
               { Name := str "y", Number := 2, Typ := str "int32", Attribute := str "required" }]
              []] }, none) := rfl

theorem ParseProtoFile_error_returns_nil_witness :
    ParseProtoFile 4 (str "package demo; message Point \x7b required int32 x = 1 \x7d ") =
        some (none, some (GoError.New (str "expected a semicolon after field number"))) ∧
      (none : Option Protobuf) = none :=
  ⟨rfl, ParseProtoFile_error_returns_nil 4
    (str "package demo; message Point \x7b required int32 x = 1 \x7d ") none
    (GoError.New (str "expected a semicolon after field number")) rfl⟩

/-! ## Fields -/

theorem Atoi_eq (tok : GoString) :
    Atoi tok =
      if unsigned tok = [] then (0, some (GoError.NumSyntax tok))
      else
        match parseDigits (unsigned tok) 0 with
        | none => (0, some (GoError.NumSyntax tok))
        | some n =>
          if tok.head? = some (chr '-') then
            if n ≤ 2 ^ (intSize - 1) then (- (n : Int), none)
            else (- (2 ^ (intSize - 1) : Int), some (GoError.NumRange tok))
          else
            if n < 2 ^ (intSize - 1) then ((n : Int), none)
            else ((2 ^ (intSize - 1) : Int) - 1, some (GoError.NumRange tok)) := rfl

/-- The function `strconv.Atoi` accepts exactly the decimal integers whose value is a value
of `int`, and returns that value. -/
theorem Atoi_ok_iff (tok : GoString) :
    ((Atoi tok).2 = none ↔ IsDecimalInteger tok ∧ InIntRange (decimalValue tok)) ∧
      ((Atoi tok).2 = none → (Atoi tok).1 = decimalValue tok) := by
  have hp : (2 : Int) ^ (intSize - 1) = ((2 ^ (intSize - 1) : Nat) : Int) := by norm_cast
  have hpos : (0 : Int) < ((2 ^ (intSize - 1) : Nat) : Int) := by
    exact_mod_cast Nat.pow_pos (n := intSize - 1) (show 0 < 2 by decide)
  by_cases hne : unsigned tok = []
  · have hA : Atoi tok = (0, some (GoError.NumSyntax tok)) := by rw [Atoi_eq, if_pos hne]
    rw [hA]
    exact ⟨⟨fun h => by simp at h, fun h => absurd hne h.1.1⟩, fun h => by simp at h⟩
  · have h63 : (2 : Nat) ^ (intSize - 1) = 9223372036854775808 := by norm_num [intSize]
    have h64 : (2 : Nat) ^ 64 = 18446744073709551616 := by norm_num
    by_cases hall : ∀ c ∈ unsigned tok, chr '0' ≤ c ∧ c ≤ chr '9'
    · have hpd := parseDigits_digits (unsigned tok) 0 (by norm_num) hall
      generalize hv : (unsigned tok).foldl (fun acc c => acc * 10 + (c - chr '0')) 0 = v at hpd
      generalize hw : (if v < 2 ^ 64 then v else 2 ^ 64 - 1) = w at hpd
      have hw1 : w ≤ 2 ^ (intSize - 1) ↔ v ≤ 2 ^ (intSize - 1) := by
        rw [← hw, h63]; split_ifs <;> omega
      have hw2 : w < 2 ^ (intSize - 1) ↔ v < 2 ^ (intSize - 1) := by
        rw [← hw, h63]; split_ifs <;> omega
      have hw3 : v ≤ 2 ^ (intSize - 1) → w = v := by
        rw [← hw, h63]; intro _; split_ifs <;> omega
      by_cases hneg : tok.head? = some (chr '-')
      · have hdv : decimalValue tok = - (v : Int) := by
          simp only [decimalValue, hv, hneg, if_true]
        by_cases hr : v ≤ 2 ^ (intSize - 1)
        · have hA : Atoi tok = (- (v : Int), none) := by
            rw [Atoi_eq, if_neg hne, hpd, hw3 hr]
            simp only [if_pos hneg, if_pos hr]
          have hr1 : InIntRange (decimalValue tok) := by
            rw [hdv, InIntRange, hp]
            have : ((v : Nat) : Int) ≤ ((2 ^ (intSize - 1) : Nat) : Int) := by exact_mod_cast hr
            constructor <;> omega
          rw [hA]
          exact ⟨⟨fun _ => ⟨⟨hne, hall⟩, hr1⟩, fun _ => rfl⟩, fun _ => hdv.symm⟩
        · have hA : Atoi tok = (- (2 ^ (intSize - 1) : Int), some (GoError.NumRange tok)) := by
            rw [Atoi_eq, if_neg hne, hpd]
            simp only [if_pos hneg, if_neg (fun h => hr (hw1.mp h))]
          have hr1 : ¬ InIntRange (decimalValue tok) := by
            rw [hdv, InIntRange, hp]
            intro hc
            apply hr
            have : ((v : Nat) : Int) ≤ ((2 ^ (intSize - 1) : Nat) : Int) := by omega
            exact_mod_cast this
          rw [hA]
          exact ⟨⟨fun h => by simp at h, fun h => absurd h.2 hr1⟩, fun h => by simp at h⟩
      · have hdv : decimalValue tok = (v : Int) := by
          simp only [decimalValue, hv, hneg, if_false]
        by_cases hr : v < 2 ^ (intSize - 1)
        · have hA : Atoi tok = ((v : Int), none) := by
            rw [Atoi_eq, if_neg hne, hpd, hw3 (le_of_lt hr)]
            simp only [if_neg hneg, if_pos hr]
          have hr1 : InIntRange (decimalValue tok) := by
            rw [hdv, InIntRange, hp]
            have : ((v : Nat) : Int) < ((2 ^ (intSize - 1) : Nat) : Int) := by exact_mod_cast hr
            constructor <;> omega
          rw [hA]
          exact ⟨⟨fun _ => ⟨⟨hne, hall⟩, hr1⟩, fun _ => rfl⟩, fun _ => hdv.symm⟩
        · have hA : Atoi tok = ((2 ^ (intSize - 1) : Int) - 1, some (GoError.NumRange tok)) := by
            rw [Atoi_eq, if_neg hne, hpd]
            simp only [if_neg hneg, if_neg (fun h => hr (hw2.mp h))]
          have hr1 : ¬ InIntRange (decimalValue tok) := by
            rw [hdv, InIntRange, hp]
            intro hc
            apply hr
            exact_mod_cast hc.2
          rw [hA]
          exact ⟨⟨fun h => by simp at h, fun h => absurd h.2 hr1⟩, fun h => by simp at h⟩
    · have hE : (Atoi tok).2 ≠ none := by
        rw [Atoi_eq, if_neg hne]
        rcases parseDigits_not_digits (unsigned tok) 0 hall with hpd | hpd
        · rw [hpd]; simp
        · rw [hpd]
          have hn1 : ¬ (2 ^ 64 - 1 ≤ 2 ^ (intSize - 1)) := by rw [h63]; norm_num
          have hn2 : ¬ (2 ^ 64 - 1 < 2 ^ (intSize - 1)) := by rw [h63]; norm_num
          by_cases hneg : tok.head? = some (chr '-')
          · simp only [if_pos hneg, if_neg hn1]; simp
          · simp only [if_neg hneg, if_neg hn2]; simp
      exact ⟨⟨fun h => absurd h hE, fun h => absurd h.1.2 hall⟩, fun h => absurd h hE⟩

theorem nextTokens_succ (n : Nat) (r : TokenReader) :
    nextTokens (n + 1) r =
      match r.NextToken with
      | (_, some _, _) => none
      | (tok, none, r1) =>
        match nextTokens n r1 with
        | none => none
        | some (toks, r2) => some (tok :: toks, r2) := rfl

/-- What `ParseField` does, in terms of the next five tokens. -/
theorem parseField_spec (f : Field) (r : TokenReader) :
    ((f.ParseField r).2.1 = none ↔
      ∃ typ name num r5,
        nextTokens 5 r = some ([typ, name, str "=", num, str ";"], r5) ∧
          IsDecimalInteger num ∧ InIntRange (decimalValue num)) ∧
    ∀ typ name num r5,
      nextTokens 5 r = some ([typ, name, str "=", num, str ";"], r5) →
      IsDecimalInteger num → InIntRange (decimalValue num) →
      f.ParseField r =
        ({ f with Typ := typ, Name := name, Number := decimalValue num }, none, r5) := by
  rcases h1 : r.NextToken with ⟨t1, _ | e1, r1⟩
  swap
  · simp [Field.ParseField, nextTokens_succ, h1]
  rcases h2 : r1.NextToken with ⟨t2, _ | e2, r2⟩
  swap
  · simp [Field.ParseField, nextTokens_succ, h1, h2]
  rcases h3 : r2.NextToken with ⟨t3, _ | e3, r3⟩
  swap
  · simp [Field.ParseField, nextTokens_succ, h1, h2, h3]
  by_cases heq : t3 = str "="
  swap
  · have hP : (f.ParseField r).2.1 =
        some (GoError.New (str "expected equals sign after field name")) := by
      simp [Field.ParseField, h1, h2, h3, heq]
    have hN : ∀ typ name num r5,
        nextTokens 5 r ≠ some ([typ, name, str "=", num, str ";"], r5) := by
      intro typ name num r5 hc
      simp only [nextTokens_succ, h1, h2, h3] at hc
      rcases h4 : r3.NextToken with ⟨t4, _ | e4, r4⟩
      · rcases h5 : r4.NextToken with ⟨t5, _ | e5, r5⟩
        · simp [h4, h5, nextTokens] at hc
          exact heq hc.1.2.2.1
        · simp [h4, h5] at hc
      · simp [h4] at hc
    refine ⟨⟨fun h => by rw [hP] at h; simp at h, fun ⟨typ, name, num, r5, h, _⟩ =>
      absurd h (hN _ _ _ _)⟩, fun typ name num r5 h => absurd h (hN _ _ _ _)⟩
  subst heq
  rcases h4 : r3.NextToken with ⟨t4, _ | e4, r4⟩
  swap
  · simp [Field.ParseField, nextTokens_succ, h1, h2, h3, h4]
  rcases h5 : r4.NextToken with ⟨t5, _ | e5, r5⟩
  swap
  · have hP : (f.ParseField r).2.1 ≠ none := by
      simp only [Field.ParseField, h1, h2, h3, h4, h5, ne_eq, not_true_eq_false, if_false]
      rcases hA : Atoi t4 with ⟨v, _ | e⟩ <;> simp
    refine ⟨⟨fun h => absurd h hP, ?_⟩, ?_⟩
    · rintro ⟨typ, name, num, r5, h, _⟩
      simp [nextTokens_succ, h1, h2, h3, h4, h5] at h
    · intro typ name num r5 h
      simp [nextTokens_succ, h1, h2, h3, h4, h5] at h
  have hN : nextTokens 5 r = some ([t1, t2, str "=", t4, t5], r5) := by
    simp [nextTokens_succ, h1, h2, h3, h4, h5, nextTokens]
  obtain ⟨hAiff, hAval⟩ := Atoi_ok_iff t4
  rcases hA : Atoi t4 with ⟨v, _ | e⟩
  swap
  · have hP : (f.ParseField r).2.1 = some e := by
      simp [Field.ParseField, h1, h2, h3, h4, hA]
    have hbad : ¬ (IsDecimalInteger t4 ∧ InIntRange (decimalValue t4)) := by
      intro hc
      have := hAiff.mpr hc
      rw [hA] at this
      simp at this
    refine ⟨⟨fun h => by rw [hP] at h; simp at h, ?_⟩, ?_⟩
    · rintro ⟨typ, name, num, r6, h, hd, hr⟩
      rw [hN] at h
      simp only [Option.some.injEq, Prod.mk.injEq, List.cons.injEq, and_true, true_and] at h
      obtain ⟨⟨_, _, rfl, _⟩, _⟩ := h
      exact absurd ⟨hd, hr⟩ hbad
    · intro typ name num r6 h hd hr
      rw [hN] at h
      simp only [Option.some.injEq, Prod.mk.injEq, List.cons.injEq, and_true, true_and] at h
      obtain ⟨⟨_, _, rfl, _⟩, _⟩ := h
      exact absurd ⟨hd, hr⟩ hbad
  have hv : v = decimalValue t4 := by
    have := hAval (by rw [hA])
    rw [hA] at this
    exact this
  have hok : IsDecimalInteger t4 ∧ InIntRange (decimalValue t4) := hAiff.mp (by rw [hA])
  by_cases hsemi : t5 = str ";"
  · subst hsemi
    have hP : f.ParseField r =
        ({ f with Typ := t1, Name := t2, Number := decimalValue t4 }, none, r5) := by
      simp [Field.ParseField, h1, h2, h3, h4, h5, hA, hv]
    refine ⟨⟨fun _ => ⟨t1, t2, t4, r5, hN, hok.1, hok.2⟩, fun _ => by rw [hP]⟩, ?_⟩
    intro typ name num r6 h _ _
    rw [hN] at h
    simp only [Option.some.injEq, Prod.mk.injEq, List.cons.injEq, and_true, true_and] at h
    obtain ⟨⟨rfl, rfl, rfl⟩, rfl⟩ := h
    exact hP
  · have hP : (f.ParseField r).2.1 =
        some (GoError.New (str "expected a semicolon after field number")) := by
      simp [Field.ParseField, h1, h2, h3, h4, h5, hA, hsemi]
    have hN1 : ∀ typ name num r6,
        nextTokens 5 r ≠ some ([typ, name, str "=", num, str ";"], r6) := by
      intro typ name num r6 hc
      rw [hN] at hc
      simp only [Option.some.injEq, Prod.mk.injEq, List.cons.injEq, and_true, true_and] at hc
      exact hsemi hc.1.2.2.2
    refine ⟨⟨fun h => by rw [hP] at h; simp at h, fun ⟨typ, name, num, r6, h, _⟩ =>
      absurd h (hN1 _ _ _ _)⟩, fun typ name num r6 h => absurd h (hN1 _ _ _ _)⟩

/-- C6 as stated fails at the number 2^63: the five tokens are a type, a name,
`=`, a decimal integer and `;`, and `ParseField` returns the range error of
`strconv.Atoi`. -/
theorem ParseField_rejects_decimal_out_of_range :
    nextTokens 5 (NewTokenReader (str "int32 x = 9223372036854775808 ; ")) =
        some ([str "int32", str "x", str "=", str "9223372036854775808", str ";"],
          { r := str " ", buffer := [], next := [] }) ∧
      IsDecimalInteger (str "9223372036854775808") ∧
      (Field.ParseField { Name := [], Number := 0, Typ := [], Attribute := str "required" }
        (NewTokenReader (str "int32 x = 9223372036854775808 ; "))).2.1 =
        some (GoError.NumRange (str "9223372036854775808")) := by
  refine ⟨by decide, by decide, by decide⟩

/-! ## Message bodies -/

theorem nextTokens_cons (n : Nat) (r r2 : TokenReader) (t : GoString) (ts : List GoString)
    (h : nextTokens (n + 1) r = some (t :: ts, r2)) :
    ∃ r1, r.NextToken = (t, none, r1) ∧ nextTokens n r1 = some (ts, r2) := by
  rw [nextTokens_succ] at h
  rcases h1 : r.NextToken with ⟨t1, _ | e1, r1⟩
  · rcases hn : nextTokens n r1 with _ | ⟨toks, r3⟩
    · simp [h1, hn] at h
    · simp only [h1, hn, Option.some.injEq, Prod.mk.injEq, List.cons.injEq] at h
      obtain ⟨⟨rfl, rfl⟩, rfl⟩ := h
      exact ⟨r1, rfl, hn⟩
  · simp [h1] at h

theorem nextTokens_zero (r r2 : TokenReader) (ts : List GoString)
    (h : nextTokens 0 r = some (ts, r2)) : ts = [] ∧ r2 = r := by
  simp only [nextTokens, Option.some.injEq, Prod.mk.injEq] at h
  exact ⟨h.1.symm, h.2.symm⟩

/-! ## Top level -/

/-- Wherever the top-level loop stands (whatever it has parsed so far, before,
between or after declarations), if the reader first yields the tokens `junk`,
none of them `package` or `message`, and then continues as the reader `r`, the
parse returns what the parse from `r` returns; in particular if the parse from
`r` succeeds so does the other, with the same `Protobuf`. -/
theorem top_level_tokens_skipped (junk : List GoString) :
    ∀ (pb : Protobuf) (rj r : TokenReader) (fuel : Nat),
      (∀ j ∈ junk, j ≠ str "package" ∧ j ≠ str "message") →
      nextTokens junk.length rj = some (junk, r) →
      ParseProtoFileLoop (fuel + junk.length) pb rj = ParseProtoFileLoop fuel pb r ∧
      ∀ res, ParseProtoFileLoop fuel pb r = some (some res, none) →
        ParseProtoFileLoop (fuel + junk.length) pb rj = some (some res, none) := by
  induction junk with
  | nil =>
    intro pb rj r fuel _ h
    obtain ⟨_, rfl⟩ := nextTokens_zero _ _ _ h
    exact ⟨rfl, fun res hres => hres⟩
  | cons j js ih =>
    intro pb rj r fuel hj h
    obtain ⟨r1, h1, h⟩ := nextTokens_cons _ rj r j js h
    have hstep : ParseProtoFileLoop (fuel + (j :: js).length) pb rj =
        ParseProtoFileLoop (fuel + js.length) pb r1 :=
      top_skip (fuel + js.length) pb rj r1 j h1 (hj j (by simp)).1 (hj j (by simp)).2
    obtain ⟨ih1, ih2⟩ := ih pb r1 r fuel (fun x hx => hj x (by simp [hx])) h
    exact ⟨hstep.trans ih1, fun res hres => hstep.trans (ih2 res hres)⟩

theorem top_level_tokens_skipped_example :
    ParseProtoFileLoop (3 + 4) { Package := str "p", Messages := [] }
        (NewTokenReader (str "option = \x7d ; message M \x7b \x7d ")) =
      some (some { Package := str "p", Messages := [Message.mk (str "M") [] []] }, none) :=
  (top_level_tokens_skipped [str "option", str "=", str "\x7d", str ";"]
    { Package := str "p", Messages := [] }
    (NewTokenReader (str "option = \x7d ; message M \x7b \x7d "))
    { r := str " message M \x7b \x7d ", buffer := [], next := [] } 3
    (by decide) (by decide)).2 _ rfl

theorem nextTokens_renderWords (ws : List GoString) (post : List Nat)
    (hw : ∀ w ∈ ws, Word w) :
    nextTokens ws.length { r := renderWords ws ++ post, buffer := [], next := [] } =
      some (ws, { r := post, buffer := [], next := [] }) := by
  induction ws with
  | nil => rfl
  | cons w ws ih =>
    have e0 : renderWords (w :: ws) ++ post = w ++ 32 :: (renderWords ws ++ post) := by
      simp [renderWords, str]
    rw [e0, List.length_cons, nextTokens_succ,
      NextToken_word w _ (hw w (by simp))]
    simp only [ih (fun x hx => hw x (by simp [hx]))]

/-- Words other than `package` and `message` written in front of any input, or
in front of what is unread when the top-level loop stands at its head with
nothing buffered, leave the result of the parse as it is. -/
theorem top_level_words_skipped (junk : List GoString) (post : List Nat) (pb : Protobuf)
    (fuel : Nat) (hw : ∀ j ∈ junk, Word j ∧ j ≠ str "package" ∧ j ≠ str "message") :
    ParseProtoFileLoop (fuel + junk.length) pb
        { r := renderWords junk ++ post, buffer := [], next := [] } =
      ParseProtoFileLoop fuel pb { r := post, buffer := [], next := [] } ∧
    ParseProtoFile (fuel + junk.length) (renderWords junk ++ post) =
      ParseProtoFile fuel post := by
  have key : ∀ pb : Protobuf, ParseProtoFileLoop (fuel + junk.length) pb
        { r := renderWords junk ++ post, buffer := [], next := [] } =
      ParseProtoFileLoop fuel pb { r := post, buffer := [], next := [] } := by
    clear pb
    induction junk with
    | nil => intro pb; rfl
    | cons j js ih =>
      intro pb
      have e0 : renderWords (j :: js) ++ post = j ++ 32 :: (renderWords js ++ post) := by
        simp [renderWords, str]
      have hj := hw j (by simp)
      rw [e0]
      exact (top_skip (fuel + js.length) pb _ _ j (NextToken_word j _ hj.1) hj.2.1 hj.2.2).trans
        (ih (fun x hx => hw x (by simp [hx])) pb)
  exact ⟨key pb, key _⟩

/-- Tokens before, between and after the declarations of a text: the parse
returns what it returns without them. -/
theorem skipped_tokens_example :
    ParseProtoFile 14 (str ("syntax = proto2 ; package p ; import x ; message M \x7b \x7d " ++
        "option ; message N \x7b \x7d end ")) =
      some (some { Package := str "p",
                   Messages := [Message.mk (str "M") [] [], Message.mk (str "N") [] []] },
        none) ∧
    ParseProtoFile 12 (str "package p ; message M \x7b \x7d message N \x7b \x7d ") =
      some (some { Package := str "p",
                   Messages := [Message.mk (str "M") [] [], Message.mk (str "N") [] []] },
        none) :=
  ⟨rfl, rfl⟩

/-- C9 as stated fails when the input ends after the glued token: on
`message M\x7b` followed by a newline the lexer returns the single token
`M\x7b`, and `ParseProtoFile` fails with `io.EOF`, which is not the error
`expected opening bracket after message name`. -/
theorem glued_brace_at_end_of_input_EOF :
    tokensOf (str "message M\x7b\n") = [str "message", str "M\x7b"] ∧
      ParseProtoFile 2 (str "message M\x7b\n") = some (none, some GoError.EOF) ∧
      GoError.EOF ≠ GoError.New (str "expected opening bracket after message name") := by
  refine ⟨by decide, rfl, by decide⟩

/-! ## The generator -/

theorem makeGoName_cons (b : Nat) (rest : GoString) :
    makeGoName (b :: rest) = some (ToUpper [b] ++ rest) := by
  simp [makeGoName, sliceTo, sliceFrom]

theorem makeGoName_isSome (s : GoString) (h : s ≠ []) : (makeGoName s).isSome = true := by
  cases s with
  | nil => exact absurd rfl h
  | cons b rest => rw [makeGoName_cons]; rfl

theorem typeMap_length (typ t : GoString) (h : typeMap typ = some t) : 2 ≤ t.length := by
  unfold typeMap at h
  split_ifs at h <;> (simp only [Option.some.injEq] at h; subst h; decide)

theorem parseGoType_isSome (typ pre : GoString) (rep : Bool)
    (h : typeMap typ = none → typ ≠ []) : (parseGoType typ pre rep).isSome = true := by
  unfold parseGoType
  cases ht : typeMap typ with
  | none =>
    have hn := h ht
    cases typ with
    | nil => exact absurd rfl hn
    | cons b rest => simp [makeGoName_cons]
  | some t =>
    have hl := typeMap_length typ t ht
    by_cases hc : rep = true ∨ t.take 2 = str "[]" <;> simp [sliceTo, hl, hc]

theorem formatGoProtoField_isSome (f : Field) (pre : GoString) (stream : Bool)
    (h : f.Printable) : (formatGoProtoField f pre stream).isSome = true := by
  obtain ⟨hn, ha, ht⟩ := h
  have h1 := parseGoType_isSome f.Typ pre (decide (f.Attribute = str "repeated")) ht
  have h2 := makeGoName_isSome f.Name hn
  obtain ⟨t, ht1⟩ := Option.isSome_iff_exists.mp h1
  obtain ⟨n, hn1⟩ := Option.isSome_iff_exists.mp h2
  simp [formatGoProtoField, ht1, hn1, sliceTo, ha]

theorem printFieldLines_isSome (fs : List Field) (pre : GoString) (stream : Bool)
    (h : ∀ f ∈ fs, f.Printable) : (printFieldLines fs pre stream).isSome = true := by
  induction fs with
  | nil => rfl
  | cons f fs ih =>
    obtain ⟨l, hl⟩ := Option.isSome_iff_exists.mp
      (formatGoProtoField_isSome f pre stream (h f (by simp)))
    obtain ⟨r, hr⟩ := Option.isSome_iff_exists.mp (ih (fun x hx => h x (by simp [hx])))
    simp [printFieldLines, hl, hr]

theorem printMakeCalls_isSome (fs : List Field) (name : GoString)
    (h : ∀ f ∈ fs, f.Printable) : (printMakeCalls fs name).isSome = true := by
  induction fs with
  | nil => rfl
  | cons f fs ih =>
    obtain ⟨hn, _, ht⟩ := h f (by simp)
    obtain ⟨n, hn1⟩ := Option.isSome_iff_exists.mp (makeGoName_isSome f.Name hn)
    obtain ⟨t, ht1⟩ := Option.isSome_iff_exists.mp
      (parseGoType_isSome f.Typ (name ++ str "_") true ht)
    obtain ⟨r, hr⟩ := Option.isSome_iff_exists.mp (ih (fun x hx => h x (by simp [hx])))
    by_cases hrep : f.Attribute = str "repeated" <;> simp [printMakeCalls, hn1, ht1, hr, hrep]

theorem printCloseCalls_isSome (fs : List Field)
    (h : ∀ f ∈ fs, f.Printable) : (printCloseCalls fs).isSome = true := by
  induction fs with
  | nil => rfl
  | cons f fs ih =>
    obtain ⟨hn, _, _⟩ := h f (by simp)
    obtain ⟨n, hn1⟩ := Option.isSome_iff_exists.mp (makeGoName_isSome f.Name hn)
    obtain ⟨r, hr⟩ := Option.isSome_iff_exists.mp (ih (fun x hx => h x (by simp [hx])))
    by_cases hrep : f.Attribute = str "repeated" <;> simp [printCloseCalls, hn1, hr, hrep]

/-- What the generator writes for a message itself is the streaming type when
`stream` is set and the plain type when it is not. -/
theorem printMessageItself_eq (m : Message) (name : GoString) (stream : Bool)
    (h : ∀ f ∈ m.Fields, f.Printable) :
    printMessageItself m name stream = some (expectedType stream m name) := by
  obtain ⟨l, hl⟩ := Option.isSome_iff_exists.mp
    (printFieldLines_isSome m.Fields (name ++ str "_") stream h)
  obtain ⟨mk, hmk⟩ := Option.isSome_iff_exists.mp (printMakeCalls_isSome m.Fields name h)
  obtain ⟨cl, hcl⟩ := Option.isSome_iff_exists.mp (printCloseCalls_isSome m.Fields h)
  cases stream with
  | true =>
    simp [printMessageItself, printMessageConstructor, printGoStreamMethods,
      printInterfaceAssertion, expectedType, streamingType, hl, hmk, hcl, List.append_assoc]
    rfl
  | false =>
    simp [printMessageItself, printMessageConstructor, printInterfaceAssertion, expectedType,
      plainType, hl, List.append_assoc]
    rfl

mutual
/-- The function `printGoProtoMessage` writes the expected text of the message and of the
messages below it, when its flag is set exactly at depth 0. -/
theorem printGoProtoMessage_eq : ∀ (m : Message) (pre : GoString) (depth : Nat) (stream : Bool),
    m.Printable → stream = decide (depth = 0) →
    printGoProtoMessage m pre stream = some (expectedTree depth m pre)
  | .mk mname fields subs, pre, depth, stream, h, hs => by
    subst hs
    have hp : (∀ f ∈ fields, f.Printable) ∧ Printables subs := by
      simpa [Message.Printable] using h
    have h1 := printMessageItself_eq (.mk mname fields subs) (pre ++ mname)
      (decide (depth = 0)) hp.1
    have h2 := printSubMessages_eq subs (pre ++ mname ++ str "_") depth hp.2
    simp only [printGoProtoMessage, h1, h2, expectedTree, Option.bind_eq_bind,
      Option.some_bind, Option.pure_def]
/-- The loop over the submessages writes the expected text of messages at a
depth from 1 on. -/
theorem printSubMessages_eq : ∀ (ms : List Message) (pre : GoString) (depth : Nat),
    Printables ms → printSubMessages ms pre = some (expectedForest (depth + 1) ms pre)
  | [], _, _, _ => by simp [printSubMessages, expectedForest]
  | m :: ms, pre, depth, h => by
    have hp : m.Printable ∧ Printables ms := by simpa [Printables] using h
    have h1 := printGoProtoMessage_eq m pre (depth + 1) false hp.1 (by simp)
    have h2 := printSubMessages_eq ms pre depth hp.2
    simp only [printSubMessages, h1, h2, expectedForest, Option.bind_eq_bind,
      Option.some_bind, Option.pure_def]
end

theorem printTopMessages_eq (ms : List Message) (h : Printables ms) :
    printTopMessages ms = some (expectedForest 0 ms []) := by
  induction ms with
  | nil => simp [printTopMessages, expectedForest]
  | cons m ms ih =>
    have hp : m.Printable ∧ Printables ms := by simpa [Printables] using h
    have h1 := printGoProtoMessage_eq m [] 0 true hp.1 (by simp)
    simp only [printTopMessages, h1, ih hp.2, expectedForest, Option.bind_eq_bind,
      Option.some_bind, Option.pure_def]

theorem formatGoProtoField_printable (f : Field) (pre : GoString) (stream : Bool)
    (line : GoString) (h : formatGoProtoField f pre stream = some line) : f.Printable := by
  unfold formatGoProtoField at h
  cases ht : parseGoType f.Typ pre (decide (f.Attribute = str "repeated")) with
  | none => simp [ht] at h
  | some t =>
    cases hn : makeGoName f.Name with
    | none => simp [ht, hn] at h
    | some n =>
      cases ha : sliceTo f.Attribute 3 with
      | none => simp [ht, hn, ha] at h
      | some a3 =>
        refine ⟨?_, ?_, ?_⟩
        · intro hc
          rw [hc] at hn
          simp [makeGoName, sliceTo] at hn
        · unfold sliceTo at ha
          by_contra hc
          simp [hc] at ha
        · intro hm hc
          rw [hc] at hm
          unfold parseGoType at ht
          rw [hc, hm] at ht
          simp [makeGoName, sliceTo] at ht

theorem printFieldLines_printable (fs : List Field) (pre : GoString) (stream : Bool) :
    ∀ out, printFieldLines fs pre stream = some out → ∀ f ∈ fs, f.Printable := by
  induction fs with
  | nil => intro out _ f hf; simp at hf
  | cons g gs ih =>
    intro out h f hf
    unfold printFieldLines at h
    cases hl : formatGoProtoField g pre stream with
    | none => simp [hl] at h
    | some l =>
      cases hr : printFieldLines gs pre stream with
      | none => simp [hl, hr] at h
      | some r =>
        rcases List.mem_cons.mp hf with rfl | hf
        · exact formatGoProtoField_printable _ pre stream l hl
        · exact ih r hr f hf

theorem printMessageItself_printable (m : Message) (name : GoString) (stream : Bool)
    (out : GoString) (h : printMessageItself m name stream = some out) :
    ∀ f ∈ m.Fields, f.Printable := by
  unfold printMessageItself at h
  cases hl : printFieldLines m.Fields (name ++ str "_") stream with
  | none => simp [hl] at h
  | some l => exact printFieldLines_printable _ _ _ l hl

mutual
theorem printGoProtoMessage_printable : ∀ (m : Message) (pre : GoString) (stream : Bool)
    (out : GoString), printGoProtoMessage m pre stream = some out → m.Printable
  | .mk mname fields subs, pre, stream, out, h => by
    unfold printGoProtoMessage at h
    cases h1 : printMessageItself (.mk mname fields subs) (pre ++ mname) stream with
    | none => simp [h1] at h
    | some own =>
      cases h2 : printSubMessages subs (pre ++ mname ++ str "_") with
      | none => simp [h1, h2, -List.append_assoc] at h
      | some rest =>
        simp only [Message.Printable]
        exact ⟨printMessageItself_printable _ _ _ own h1,
          printSubMessages_printable subs _ rest h2⟩
theorem printSubMessages_printable : ∀ (ms : List Message) (pre : GoString) (out : GoString),
    printSubMessages ms pre = some out → Printables ms
  | [], _, _, _ => by simp [Printables]
  | m :: ms, pre, out, h => by
    unfold printSubMessages at h
    cases h1 : printGoProtoMessage m pre false with
    | none => simp [h1] at h
    | some a =>
      cases h2 : printSubMessages ms pre with
      | none => simp [h1, h2] at h
      | some b =>
        simp only [Printables]
        exact ⟨printGoProtoMessage_printable m pre false a h1,
          printSubMessages_printable ms pre b h2⟩
end

/-- The generator returns exactly on the syntax trees whose fields are all
printable; on every other tree it panics. -/
theorem PrintGoStreamProto_isSome_iff (pb : Protobuf) :
    (PrintGoStreamProto pb).isSome = true ↔ Printables pb.Messages := by
  constructor
  · intro h
    obtain ⟨out, hout⟩ := Option.isSome_iff_exists.mp h
    unfold PrintGoStreamProto at hout
    cases hw : printTopMessages pb.Messages with
    | none => simp [hw] at hout
    | some w =>
      clear hout h
      generalize pb.Messages = ms at hw
      induction ms generalizing w with
      | nil => simp [Printables]
      | cons m ms ih =>
        unfold printTopMessages at hw
        cases h1 : printGoProtoMessage m [] true with
        | none => simp [h1] at hw
        | some a =>
          cases h2 : printTopMessages ms with
          | none => simp [h1, h2] at hw
          | some b =>
            simp only [Printables]
            exact ⟨printGoProtoMessage_printable m [] true a h1, ih b h2⟩
  · intro h
    simp [PrintGoStreamProto, printTopMessages_eq pb.Messages h]

/-- On a syntax tree with a field of empty name, which the parser never
returns, the generator panics in `makeGoName` and renders no type at all. -/
theorem PrintGoStreamProto_panics_on_empty_field_name :
    PrintGoStreamProto
      { Package := str "p",
        Messages := [Message.mk (str "M") [⟨[], 1, str "int32", str "required"⟩] []] } =
      none := by
  decide

/-! ## Declarations and their names -/

theorem joinText_append (a b : List GoString) :
    joinText (a ++ b) = joinText a ++ joinText b := by
  induction a with
  | nil => rfl
  | cons t ts ih => simp [joinText, ih]

mutual
/-- The function `printGoProtoMessage` writes one type for each of the calls
it gives rise to, in their order. -/
theorem printGoProtoMessage_declared : ∀ (m : Message) (pre : GoString) (stream : Bool),
    m.Printable → printGoProtoMessage m pre stream =
      some (joinText ((declaredTree m pre stream).map
        (fun d => expectedType d.streaming d.mes d.name)))
  | .mk mname fields subs, pre, stream, h => by
    have hp : (∀ f ∈ fields, f.Printable) ∧ Printables subs := by
      simpa [Message.Printable] using h
    have h1 := printMessageItself_eq (.mk mname fields subs) (pre ++ mname) stream hp.1
    have h2 := printSubMessages_declared subs (pre ++ mname ++ str "_") hp.2
    simp only [printGoProtoMessage, h1, h2, declaredTree, List.map_cons, joinText,
      Option.bind_eq_bind, Option.some_bind, Option.pure_def]
/-- The loop over the submessages writes one type for each of the calls it
gives rise to, in their order. -/
theorem printSubMessages_declared : ∀ (ms : List Message) (pre : GoString),
    Printables ms → printSubMessages ms pre =
      some (joinText ((declaredForest ms pre).map
        (fun d => expectedType d.streaming d.mes d.name)))
  | [], _, _ => by simp [printSubMessages, declaredForest, joinText]
  | m :: ms, pre, h => by
    have hp : m.Printable ∧ Printables ms := by simpa [Printables] using h
    have h1 := printGoProtoMessage_declared m pre false hp.1
    have h2 := printSubMessages_declared ms pre hp.2
    simp only [printSubMessages, h1, h2, declaredForest, List.map_append, joinText_append,
      Option.bind_eq_bind, Option.some_bind, Option.pure_def]
end

theorem printTopMessages_declared (ms : List Message) (h : Printables ms) :
    printTopMessages ms = some (joinText ((declaredTop ms).map
      (fun d => expectedType d.streaming d.mes d.name))) := by
  induction ms with
  | nil => simp [printTopMessages, declaredTop, joinText]
  | cons m ms ih =>
    have hp : m.Printable ∧ Printables ms := by simpa [Printables] using h
    have h1 := printGoProtoMessage_declared m [] true hp.1
    simp only [printTopMessages, h1, ih hp.2, declaredTop, List.map_append, joinText_append,
      Option.bind_eq_bind, Option.some_bind, Option.pure_def]

theorem flatName_eq (ancestors : List GoString) (own : GoString) :
    flatName ancestors own = flatName ancestors [] ++ own := by
  induction ancestors with
  | nil => rfl
  | cons a as ih => rw [flatName, flatName, ih]; simp [List.append_assoc]

theorem flatName_snoc (ancestors : List GoString) (a : GoString) :
    flatName (ancestors ++ [a]) [] = flatName ancestors [] ++ a ++ str "_" := by
  induction ancestors with
  | nil => simp [flatName]
  | cons b bs ih => simp [flatName, ih, List.append_assoc]

mutual
theorem declaredTree_placed : ∀ (m : Message) (ancestors : List GoString),
    declaredTree m (flatName ancestors []) ancestors.isEmpty =
      (placedTree ancestors m).map
        (fun p => Declared.mk (flatName p.1 p.2.Name) p.2 p.1.isEmpty)
  | .mk mname fields subs, ancestors => by
    have h := declaredForest_placed subs (ancestors ++ [mname]) (by simp)
    rw [flatName_snoc] at h
    simp only [declaredTree, placedTree, List.map_cons, h, Message.Name]
    rw [← flatName_eq]
theorem declaredForest_placed : ∀ (ms : List Message) (ancestors : List GoString),
    ancestors ≠ [] → declaredForest ms (flatName ancestors []) =
      (placedForest ancestors ms).map
        (fun p => Declared.mk (flatName p.1 p.2.Name) p.2 p.1.isEmpty)
  | [], _, _ => by simp [declaredForest, placedForest]
  | m :: ms, ancestors, h => by
    have h1 := declaredTree_placed m ancestors
    have h2 := declaredForest_placed ms ancestors h
    have he : ancestors.isEmpty = false := by
      cases ancestors with
      | nil => exact absurd rfl h
      | cons a as => rfl
    rw [he] at h1
    simp only [declaredForest, placedForest, List.map_append, h1, h2]
end

theorem declaredTop_placed (ms : List Message) :
    declaredTop ms = (placedForest [] ms).map
      (fun p => Declared.mk (flatName p.1 p.2.Name) p.2 p.1.isEmpty) := by
  induction ms with
  | nil => simp [declaredTop, placedForest]
  | cons m ms ih =>
    have h1 := declaredTree_placed m []
    simp only [flatName, List.isEmpty_nil] at h1
    simp only [declaredTop, placedForest, List.map_append, h1, ih]

mutual
theorem placedTree_preorder : ∀ (m : Message) (ancestors : List GoString),
    (placedTree ancestors m).map Prod.snd = preorderTree m
  | .mk mname fields subs, ancestors => by
    simp only [placedTree, preorderTree, List.map_cons,
      placedForest_preorder subs (ancestors ++ [mname])]
theorem placedForest_preorder : ∀ (ms : List Message) (ancestors : List GoString),
    (placedForest ancestors ms).map Prod.snd = preorderForest ms
  | [], _ => by simp [placedForest, preorderForest]
  | m :: ms, ancestors => by
    simp only [placedForest, preorderForest, List.map_append, placedTree_preorder m ancestors,
      placedForest_preorder ms ancestors]
end


/-- The generator returns exactly on the syntax trees on which it does not
panic, and what it then writes is, for each message of the tree in depth-first
pre-order, the type of the message (declaration, constructor, methods and
assertion) under the name made of the names of its ancestors, outermost first
and as they are written, each followed by an underscore, and then its own
name: `printGoProtoMessage` capitalizes no letter of a message name. -/
theorem declared_names_as_written (pb : Protobuf) (out : GoString × GoString) :
    PrintGoStreamProto pb = some out ↔
      Printables pb.Messages ∧
      out = (str "package " ++ pb.Package ++ str "\n\n",
        joinText ((placedForest [] pb.Messages).map
          (fun p => expectedType p.1.isEmpty p.2 (flatName p.1 p.2.Name)))) := by
  have key : Printables pb.Messages → PrintGoStreamProto pb =
      some (str "package " ++ pb.Package ++ str "\n\n",
        joinText ((placedForest [] pb.Messages).map
          (fun p => expectedType p.1.isEmpty p.2 (flatName p.1 p.2.Name)))) := by
    intro h
    simp [PrintGoStreamProto, printTopMessages_declared pb.Messages h, declaredTop_placed,
      List.map_map, Function.comp_def]
  constructor
  · intro h
    have hp : Printables pb.Messages :=
      (PrintGoStreamProto_isSome_iff pb).mp (by rw [h]; rfl)
    rw [key hp] at h
    exact ⟨hp, (Option.some.inj h).symm⟩
  · rintro ⟨hp, rfl⟩
    exact key hp

theorem Message.All_self (P : Message → Prop) (m : Message) (h : m.All P) : P m := by
  cases m with
  | mk n fs ss => exact (by simpa [Message.All] using h : P (.mk n fs ss) ∧ _).1

theorem AllMessages_mem (P : Message → Prop) (ms : List Message) (h : AllMessages P ms) :
    ∀ m ∈ ms, m.All P := by
  induction ms with
  | nil => simp
  | cons a as ih =>
    have hp : a.All P ∧ AllMessages P as := by simpa [AllMessages] using h
    intro m hm
    rcases List.mem_cons.mp hm with rfl | hm
    · exact hp.1
    · exact ih hp.2 m hm

theorem declaredTree_names (m : Message) (pre : GoString) (s t : Bool) :
    (declaredTree m pre s).map Declared.name = (declaredTree m pre t).map Declared.name := by
  cases m with
  | mk n fs ss => simp [declaredTree]

theorem declaredTop_names (ms : List Message) :
    (declaredTop ms).map Declared.name = (declaredForest ms []).map Declared.name := by
  induction ms with
  | nil => rfl
  | cons m ms ih =>
    simp only [declaredTop, declaredForest, List.map_append, ih, declaredTree_names m [] true false]

mutual
/-- Every name declared for a tree starts with the prefix and the name of its
root; what follows is empty or starts with an underscore. -/
theorem declaredTree_name_shape : ∀ (m : Message) (pre : GoString) (s : Bool),
    ∀ d ∈ declaredTree m pre s, ∃ z, d.name = pre ++ (m.Name ++ z) ∧
      (z = [] ∨ ∃ y, z = chr '_' :: y)
  | .mk n fs ss, pre, s => by
    intro d hd
    simp only [declaredTree, List.mem_cons] at hd
    rcases hd with rfl | hd
    · exact ⟨[], by simp [Message.Name], Or.inl rfl⟩
    · obtain ⟨m2, _, z, hz, _⟩ := declaredForest_name_shape ss (pre ++ n ++ str "_") d hd
      refine ⟨chr '_' :: (m2.Name ++ z), ?_, Or.inr ⟨_, rfl⟩⟩
      rw [hz]
      have hu : str "_" = [chr '_'] := by decide
      simp [Message.Name, hu, List.append_assoc]
/-- Every name declared for sibling trees starts with the prefix and the name
of one of the roots; what follows is empty or starts with an underscore. -/
theorem declaredForest_name_shape : ∀ (ms : List Message) (pre : GoString),
    ∀ d ∈ declaredForest ms pre, ∃ m ∈ ms, ∃ z, d.name = pre ++ (m.Name ++ z) ∧
      (z = [] ∨ ∃ y, z = chr '_' :: y)
  | [], _ => by simp [declaredForest]
  | m :: ms, pre => by
    intro d hd
    simp only [declaredForest, List.mem_append] at hd
    rcases hd with hd | hd
    · obtain ⟨z, hz⟩ := declaredTree_name_shape m pre false d hd
      exact ⟨m, by simp, z, hz⟩
    · obtain ⟨m2, hm2, z, hz⟩ := declaredForest_name_shape ms pre d hd
      exact ⟨m2, by simp [hm2], z, hz⟩
end

/-- Two names without underscore, each followed by nothing or by an underscore
and more, give the same text only when they are the same name. -/
theorem name_of_flat_eq : ∀ (n n2 x x2 : GoString), chr '_' ∉ n → chr '_' ∉ n2 →
    (x = [] ∨ ∃ y, x = chr '_' :: y) → (x2 = [] ∨ ∃ y, x2 = chr '_' :: y) →
    n ++ x = n2 ++ x2 → n = n2
  | [], [], _, _, _, _, _, _, _ => rfl
  | [], c :: n2, x, x2, _, h2, hx, _, h => by
    rcases hx with rfl | ⟨y, rfl⟩
    · simp at h
    · simp only [List.nil_append, List.cons_append, List.cons.injEq] at h
      exact absurd (by simp [← h.1]) h2
  | c :: n, [], x, x2, h1, _, _, hx2, h => by
    rcases hx2 with rfl | ⟨y, rfl⟩
    · simp at h
    · simp only [List.nil_append, List.cons_append, List.cons.injEq] at h
      exact absurd (by simp [h.1]) h1
  | c :: n, c2 :: n2, x, x2, h1, h2, hx, hx2, h => by
    simp only [List.cons_append, List.cons.injEq] at h
    have ih := name_of_flat_eq n n2 x x2 (fun hm => h1 (List.mem_cons_of_mem _ hm))
      (fun hm => h2 (List.mem_cons_of_mem _ hm)) hx hx2 h.2
    rw [h.1, ih]

mutual
theorem declaredTree_nodup : ∀ (m : Message) (pre : GoString) (s : Bool),
    m.All Message.DistinctSubNames → m.All Message.NoUnderscore →
    ((declaredTree m pre s).map Declared.name).Nodup
  | .mk n fs ss, pre, s, hd, hu => by
    have hd1 : (Message.mk n fs ss).DistinctSubNames ∧ AllMessages Message.DistinctSubNames ss := by
      simpa [Message.All] using hd
    have hu1 : (Message.mk n fs ss).NoUnderscore ∧ AllMessages Message.NoUnderscore ss := by
      simpa [Message.All] using hu
    have ih := declaredForest_nodup ss (pre ++ n ++ str "_") hd1.1 hd1.2 hu1.2
    simp only [declaredTree, List.map_cons, List.nodup_cons]
    refine ⟨?_, ih⟩
    intro hmem
    obtain ⟨d, hdm, hdn⟩ := List.mem_map.mp hmem
    obtain ⟨m2, _, z, hz, _⟩ := declaredForest_name_shape ss (pre ++ n ++ str "_") d hdm
    have hl := congrArg List.length (hdn.symm.trans hz)
    have hu : (str "_").length = 1 := by decide
    simp only [List.length_append, hu] at hl
    omega
theorem declaredForest_nodup : ∀ (ms : List Message) (pre : GoString),
    (ms.map Message.Name).Nodup → AllMessages Message.DistinctSubNames ms →
    AllMessages Message.NoUnderscore ms →
    ((declaredForest ms pre).map Declared.name).Nodup
  | [], _, _, _, _ => by simp [declaredForest]
  | m :: ms, pre, hn, hd, hu => by
    have hn1 : m.Name ∉ ms.map Message.Name ∧ (ms.map Message.Name).Nodup := by
      simpa using hn
    have hd1 : m.All Message.DistinctSubNames ∧ AllMessages Message.DistinctSubNames ms := by
      simpa [AllMessages] using hd
    have hu1 : m.All Message.NoUnderscore ∧ AllMessages Message.NoUnderscore ms := by
      simpa [AllMessages] using hu
    have ih1 := declaredTree_nodup m pre false hd1.1 hu1.1
    have ih2 := declaredForest_nodup ms pre hn1.2 hd1.2 hu1.2
    simp only [declaredForest, List.map_append]
    refine List.Nodup.append ih1 ih2 ?_
    intro a ha1 ha2
    obtain ⟨d1, hd1m, hd1n⟩ := List.mem_map.mp ha1
    obtain ⟨d2, hd2m, hd2n⟩ := List.mem_map.mp ha2
    obtain ⟨z1, hz1, hs1⟩ := declaredTree_name_shape m pre false d1 hd1m
    obtain ⟨m2, hm2, z2, hz2, hs2⟩ := declaredForest_name_shape ms pre d2 hd2m
    have he : pre ++ (m.Name ++ z1) = pre ++ (m2.Name ++ z2) := by
      rw [← hz1, ← hz2, hd1n, hd2n]
    have he2 := List.append_cancel_left he
    have hm := name_of_flat_eq m.Name m2.Name z1 z2
      (Message.All_self _ m hu1.1)
      (Message.All_self _ m2 (AllMessages_mem _ ms hu1.2 m2 hm2)) hs1 hs2 he2
    exact hn1.1 (List.mem_map.mpr ⟨m2, hm2, hm.symm⟩)
end

mutual
theorem declaredTree_printable : ∀ (m : Message) (pre : GoString) (s : Bool), m.Printable →
    ∀ d ∈ declaredTree m pre s, ∀ f ∈ d.mes.Fields, f.Printable
  | .mk n fs ss, pre, s, h => by
    have hp : (∀ f ∈ fs, f.Printable) ∧ Printables ss := by
      simpa [Message.Printable] using h
    intro d hd
    simp only [declaredTree, List.mem_cons] at hd
    rcases hd with rfl | hd
    · exact hp.1
    · exact declaredForest_printable ss (pre ++ n ++ str "_") hp.2 d hd
theorem declaredForest_printable : ∀ (ms : List Message) (pre : GoString), Printables ms →
    ∀ d ∈ declaredForest ms pre, ∀ f ∈ d.mes.Fields, f.Printable
  | [], _, _ => by simp [declaredForest]
  | m :: ms, pre, h => by
    have hp : m.Printable ∧ Printables ms := by simpa [Printables] using h
    intro d hd
    simp only [declaredForest, List.mem_append] at hd
    rcases hd with hd | hd
    · exact declaredTree_printable m pre false hp.1 d hd
    · exact declaredForest_printable ms pre hp.2 d hd
end

theorem typeMap_table (typ T : GoString) :
    typeMap typ = some T ↔ (typ, T) ∈ primitiveTable := by
  unfold typeMap primitiveTable
  constructor
  · intro h
    split_ifs at h with h1 h2 h3 h4 h5 h6 h7 <;>
      (simp only [Option.some.injEq] at h; subst h; subst_vars; decide)
  · intro h
    simp only [List.mem_cons, Prod.mk.injEq, List.mem_singleton, List.not_mem_nil,
      or_false] at h
    rcases h with ⟨rfl, rfl⟩ | ⟨rfl, rfl⟩ | ⟨rfl, rfl⟩ | ⟨rfl, rfl⟩ | ⟨rfl, rfl⟩ | ⟨rfl, rfl⟩ |
      ⟨rfl, rfl⟩ <;> decide

theorem typeMap_none (typ : GoString) : typeMap typ = none ↔ typ ∉ primitiveKeywords := by
  unfold typeMap primitiveKeywords primitiveTable
  simp only [List.map_cons, List.map_nil, List.mem_cons, List.mem_singleton, List.not_mem_nil,
    or_false, not_or]
  constructor
  · intro h
    split_ifs at h with h1 h2 h3 h4 h5 h6 h7
    exact ⟨h1, h2, h3, h4, h5, h6, h7⟩
  · rintro ⟨h1, h2, h3, h4, h5, h6, h7⟩
    simp [h1, h2, h3, h4, h5, h6, h7]

theorem makeGoName_capitalize (s : GoString) (h : s ≠ []) :
    makeGoName s = some (capitalize s) := by
  cases s with
  | nil => exact absurd rfl h
  | cons b rest => rw [makeGoName_cons]; rfl

/-- The function `formatGoProtoField` puts the member type between the
capitalized name and the tag. -/
theorem formatGoProtoField_eq (f : Field) (pre : GoString) (stream : Bool) :
    formatGoProtoField f pre stream =
      (fieldGoType f pre stream).bind (fun typ =>
        (makeGoName f.Name).bind (fun name =>
          (sliceTo f.Attribute 3).bind (fun a3 =>
            some (name ++ str " " ++ typ ++ str " " ++
              (str "\x60protobuf:\"" ++ f.Typ ++ str "," ++ Itoa f.Number ++ str "," ++ a3 ++
                str ",name=" ++ f.Name ++ str "\"\x60"))))) := by
  unfold formatGoProtoField fieldGoType
  cases parseGoType f.Typ pre (decide (f.Attribute = str "repeated")) <;> rfl

theorem parseGoType_table (typ T pre : GoString) (rep : Bool) (h : (typ, T) ∈ primitiveTable) :
    parseGoType typ pre rep =
      some (if rep then T else if typ = str "bytes" then str "[]byte" else str "*" ++ T) := by
  have ht := (typeMap_table typ T).mpr h
  unfold primitiveTable at h
  simp only [List.mem_cons, Prod.mk.injEq, List.mem_singleton, List.not_mem_nil,
    or_false] at h
  unfold parseGoType
  rw [ht]
  cases rep <;>
  rcases h with ⟨rfl, rfl⟩ | ⟨rfl, rfl⟩ | ⟨rfl, rfl⟩ | ⟨rfl, rfl⟩ | ⟨rfl, rfl⟩ | ⟨rfl, rfl⟩ |
      ⟨rfl, rfl⟩ <;> rfl

theorem parseGoType_reference (typ pre : GoString) (rep : Bool)
    (h : typ ∉ primitiveKeywords) (hne : typ ≠ []) :
    parseGoType typ pre rep = some (str "*" ++ pre ++ capitalize typ) := by
  unfold parseGoType
  rw [(typeMap_none typ).mpr h, makeGoName_capitalize typ hne]
  rfl

/-- C14 fails on the file `message M \x7b optional inner x = 1; message inner
\x7b \x7d \x7d`: the field `x` of `M` has the type of the direct submessage
`inner`; it is rendered with the type `*M_Inner`, and the submessage is
declared as `M_inner`. -/
theorem reference_differs_from_declared_name :
    ParseProtoFile 8
        (str "package p; message M \x7b optional inner x = 1; message inner \x7b \x7d \x7d ") =
      some (some
        { Package := str "p",
          Messages := [Message.mk (str "M") [⟨str "x", 1, str "inner", str "optional"⟩]
            [Message.mk (str "inner") [] []]] }, none) ∧
    PrintGoStreamProto
        { Package := str "p",
          Messages := [Message.mk (str "M") [⟨str "x", 1, str "inner", str "optional"⟩]
            [Message.mk (str "inner") [] []]] } =
      some (str "package p\n\n",
        streamingType (str "M")
            (str "\tX *M_Inner \x60protobuf:\"inner,1,opt,name=x\"\x60\n") [] [] ++
          plainType (str "M_inner") []) ∧
    fieldGoType ⟨str "x", 1, str "inner", str "optional"⟩ (str "M_") true =
      some (str "*M_Inner") ∧
    (declaredTop [Message.mk (str "M") [⟨str "x", 1, str "inner", str "optional"⟩]
        [Message.mk (str "inner") [] []]]).map Declared.name = [str "M", str "M_inner"] ∧
    str "M_Inner" ≠ str "M_inner" := by
  refine ⟨rfl, ?_, by decide, by decide, by decide⟩
  have n1 : ([] : GoString) ++ str "M" = str "M" := by decide
  have n2 : str "M" ++ str "_" = str "M_" := by decide
  have n3 : str "M_" ++ str "inner" = str "M_inner" := by decide
  have n4 : str "M_inner" ++ str "_" = str "M_inner_" := by decide
  have n7 : str "package " ++ str "p" ++ str "\n\n" = str "package p\n\n" := by decide
  have e1 : printFieldLines [⟨str "x", 1, str "inner", str "optional"⟩] (str "M_") true =
      some (str "\tX *M_Inner \x60protobuf:\"inner,1,opt,name=x\"\x60\n") := by decide
  have e2 : printMakeCalls [⟨str "x", 1, str "inner", str "optional"⟩] (str "M") =
      some [] := by decide
  have e3 : printCloseCalls [⟨str "x", 1, str "inner", str "optional"⟩] = some [] := by
    decide
  have e4 : printFieldLines [] (str "M_inner_") false = some [] := rfl
  have e := printTopMessages_eq
    [Message.mk (str "M") [⟨str "x", 1, str "inner", str "optional"⟩]
      [Message.mk (str "inner") [] []]]
    (by simp only [Printables, Message.Printable]; decide)
  simp only [PrintGoStreamProto, e, expectedForest, expectedTree, expectedType,
    Message.Fields, n1, n2, n3, n4, n7, e1, e2, e3, e4,
    Option.getD_some, Nat.add_eq_zero, one_ne_zero, and_false, decide_False, decide_True,
    Bool.false_eq_true, if_false, if_true, zero_add, List.append_nil, Option.bind_eq_bind,
    Option.some_bind, Option.pure_def]

theorem sliceTo_attribute (a : GoString)
    (h : a = str "repeated" ∨ a = str "required" ∨ a = str "optional") :
    sliceTo a 3 = some (attributeCode a) := by
  rcases h with rfl | rfl | rfl <;> decide

/-- C15, as amended. For a field with attribute required, optional or
repeated, the generator writes a member line exactly when the name is not
empty and the member type is rendered, and the line is then the name with its
initial letter capitalized, the member type, and the tag, separated by single
spaces; the tag carries, in this order, the type of the field, its number in
decimal, the three-letter code of the attribute, and `name=` with the name of
the field, all as stored. -/
theorem member_line_and_tag (f : Field) (pre : GoString) (stream : Bool)
    (hattr : f.Attribute = str "repeated" ∨ f.Attribute = str "required" ∨
      f.Attribute = str "optional") (line : GoString) :
    formatGoProtoField f pre stream = some line ↔
      f.Name ≠ [] ∧ ∃ typ, fieldGoType f pre stream = some typ ∧
        line = capitalize f.Name ++ str " " ++ typ ++ str " " ++ fieldTag f := by
  rw [formatGoProtoField_eq, sliceTo_attribute f.Attribute hattr]
  cases ht : fieldGoType f pre stream with
  | none => simp
  | some typ =>
    by_cases hn : f.Name = []
    · simp [hn, makeGoName, sliceTo]
    · rw [makeGoName_capitalize f.Name hn]
      simp only [Option.some_bind, Option.some.injEq, ne_eq, hn, not_false_eq_true, true_and,
        exists_eq_left', fieldTag]
      exact eq_comm

theorem member_line_and_tag_witness :
    formatGoProtoField ⟨str "xs", 7, str "Inner", str "repeated"⟩ (str "A_") true =
      some (str "Xs chan *A_Inner \x60protobuf:\"Inner,7,rep,name=xs\"\x60") :=
  (member_line_and_tag ⟨str "xs", 7, str "Inner", str "repeated"⟩ (str "A_") true
    (by decide) _).mpr ⟨by decide, str "chan *A_Inner", by decide, by decide⟩

/-- C15 as stated fails on the field `required int32 x = 1`: the first item of
the tag that the generator writes is the type `int32`, not the name `x`. -/
theorem tag_starts_with_the_type :
    formatGoProtoField ⟨str "x", 1, str "int32", str "required"⟩ [] true =
      some (str "X *int32 \x60protobuf:\"int32,1,req,name=x\"\x60") ∧
    capitalize (str "x") ++ str " " ++ str "*int32" ++ str " " ++
        claimedTag ⟨str "x", 1, str "int32", str "required"⟩ =
      str "X *int32 \x60protobuf:\"x,1,req,name=x\"\x60" ∧
    str "X *int32 \x60protobuf:\"int32,1,req,name=x\"\x60" ≠
      str "X *int32 \x60protobuf:\"x,1,req,name=x\"\x60" := by
  decide


/-- Where capitalizing the name of a direct submessage changes nothing, the
reference to it is `*` and the name under which it is declared. -/
theorem reference_matches_capitalized_name (mname pre : GoString) (sub : Message) (f : Field)
    (rep s : Bool) (hf : f.Typ = sub.Name) (hprim : f.Typ ∉ primitiveKeywords)
    (hne : f.Typ ≠ []) (hcap : capitalize sub.Name = sub.Name) :
    ∃ d ∈ declaredTree sub (pre ++ mname ++ str "_") s,
      parseGoType f.Typ (pre ++ mname ++ str "_") rep = some (str "*" ++ d.name) := by
  cases sub with
  | mk n fs ss =>
    refine ⟨⟨pre ++ mname ++ str "_" ++ n, .mk n fs ss, s⟩, by simp [declaredTree], ?_⟩
    rw [parseGoType_reference f.Typ _ rep hprim hne, hf]
    simp only [Message.Name] at hcap ⊢
    rw [hcap]
    simp [List.append_assoc]

/-! ## The methods and the constructor of a type -/

theorem printCloseCalls_of_names (fs : List Field)
    (h : ∀ f ∈ fs, f.Attribute = str "repeated" → f.Name ≠ []) :
    printCloseCalls fs = some (closeStatements fs) := by
  induction fs with
  | nil => rfl
  | cons f fs ih =>
    have ih2 := ih (fun g hg => h g (List.mem_cons_of_mem _ hg))
    unfold printCloseCalls
    by_cases hr : f.Attribute = str "repeated"
    · have hn := h f (List.mem_cons_self _ _) hr
      rw [if_pos hr, makeGoName_capitalize f.Name hn, ih2]
      simp [closeStatements, joinText, hr]
    · rw [if_neg hr, ih2]
      simp [closeStatements, hr]

theorem printCloseCalls_names (fs : List Field) :
    ∀ out, printCloseCalls fs = some out →
      ∀ f ∈ fs, f.Attribute = str "repeated" → f.Name ≠ [] := by
  induction fs with
  | nil => intro out _ f hf; simp at hf
  | cons g gs ih =>
    intro out h f hf hrep
    unfold printCloseCalls at h
    cases hrest : printCloseCalls gs with
    | none =>
      by_cases hr : g.Attribute = str "repeated"
      · cases hm : makeGoName g.Name <;> simp [hr, hm, hrest] at h
      · simp [hr, hrest] at h
    | some rest =>
      rcases List.mem_cons.mp hf with rfl | hf
      · intro hn
        simp [hrep, hn, makeGoName, sliceTo] at h
      · exact ih rest hrest f hf hrep

theorem printCloseCalls_eq (fs : List Field) (out : GoString) :
    printCloseCalls fs = some out ↔
      (∀ f ∈ fs, f.Attribute = str "repeated" → f.Name ≠ []) ∧ out = closeStatements fs := by
  constructor
  · intro h
    have hn := printCloseCalls_names fs out h
    rw [printCloseCalls_of_names fs hn] at h
    exact ⟨hn, (Option.some.inj h).symm⟩
  · rintro ⟨hn, rfl⟩
    exact printCloseCalls_of_names fs hn

theorem printMakeCalls_of_printable (fs : List Field) (name : GoString)
    (h : ∀ f ∈ fs, f.Attribute = str "repeated" →
      f.Name ≠ [] ∧ (parseGoType f.Typ (name ++ str "_") true).isSome = true) :
    printMakeCalls fs name = some (makeEntries fs name) := by
  induction fs with
  | nil => rfl
  | cons f fs ih =>
    have ih2 := ih (fun g hg => h g (List.mem_cons_of_mem _ hg))
    unfold printMakeCalls
    by_cases hr : f.Attribute = str "repeated"
    · obtain ⟨hn, ht⟩ := h f (List.mem_cons_self _ _) hr
      obtain ⟨t, ht1⟩ := Option.isSome_iff_exists.mp ht
      rw [if_pos hr, makeGoName_capitalize f.Name hn, ht1, ih2]
      simp [makeEntries, joinText, hr, elementType, ht1]
    · rw [if_neg hr, ih2]
      simp [makeEntries, hr]

theorem printMakeCalls_printable (fs : List Field) (name : GoString) :
    ∀ out, printMakeCalls fs name = some out →
      ∀ f ∈ fs, f.Attribute = str "repeated" →
        f.Name ≠ [] ∧ (parseGoType f.Typ (name ++ str "_") true).isSome = true := by
  induction fs with
  | nil => intro out _ f hf; simp at hf
  | cons g gs ih =>
    intro out h f hf hrep
    unfold printMakeCalls at h
    cases hrest : printMakeCalls gs name with
    | none =>
      by_cases hr : g.Attribute = str "repeated"
      · cases hm : makeGoName g.Name <;>
          cases hp : parseGoType g.Typ (name ++ str "_") true <;>
          simp [hr, hm, hp, hrest] at h
      · simp [hr, hrest] at h
    | some rest =>
      rcases List.mem_cons.mp hf with rfl | hf
      · constructor
        · intro hn
          simp [hrep, hn, makeGoName, sliceTo] at h
        · cases hp : parseGoType f.Typ (name ++ str "_") true with
          | none =>
            cases hm : makeGoName f.Name <;> simp [hrep, hm, hp] at h
          | some t => rfl
      · exact ih rest hrest f hf hrep

theorem fieldGoType_repeated (f : Field) (pre : GoString) (hr : f.Attribute = str "repeated") :
    fieldGoType f pre true = (parseGoType f.Typ pre true).map (fun t => str "chan " ++ t) := by
  unfold fieldGoType
  cases h : parseGoType f.Typ pre true <;> simp [hr, h]

/-- When the members of a message have been written, every repeated field of
it has a name that is not empty and an element type. -/
theorem printFieldLines_repeated (fs : List Field) (pre : GoString) (stream : Bool)
    (lines : GoString) (h : printFieldLines fs pre stream = some lines) :
    ∀ f ∈ fs, f.Attribute = str "repeated" →
      f.Name ≠ [] ∧ (parseGoType f.Typ pre true).isSome = true := by
  intro f hf _
  obtain ⟨hn, _, ht⟩ := printFieldLines_printable fs pre stream lines h f hf
  exact ⟨hn, parseGoType_isSome f.Typ pre true ht⟩

/-- C16. The method `Close` that `printGoStreamMethods` writes, after the
methods `Errors` and `Closed`, has as its body one `close(m.<Name>)`, the name
with its initial letter capitalized, for each repeated field of the message,
in the order of the fields, and none for another field, then `close(m.errors)`,
then `close(m.closeCh)`, then `return nil`. It is written whenever the members
of the struct have been written, which `printGoProtoMessage` does first, and
whatever is written is this text. What `printGoProtoMessage` writes for a
message with its flag set, as it is for every top-level message, is the
streaming type with these statements in its method `Close`. -/
theorem Close_closes_repeated_fields_then_errors_then_closeCh (m : Message)
    (name : GoString) :
    (∀ lines, printFieldLines m.Fields (name ++ str "_") true = some lines →
      printGoStreamMethods m name = some
        (str "func (m *" ++ name ++ str ") Errors() chan error \x7b return m.errors \x7d\n\n" ++
          str "func (m *" ++ name ++
            str ") Closed() <-chan struct\x7b\x7d \x7b return m.closeCh \x7d\n\n" ++
          closeMethod name m.Fields)) ∧
    (∀ out, printGoStreamMethods m name = some out → out =
        str "func (m *" ++ name ++ str ") Errors() chan error \x7b return m.errors \x7d\n\n" ++
          str "func (m *" ++ name ++
            str ") Closed() <-chan struct\x7b\x7d \x7b return m.closeCh \x7d\n\n" ++
          closeMethod name m.Fields) ∧
    (∀ lines, printFieldLines m.Fields (name ++ str "_") true = some lines →
      printMessageItself m name true = some
        (streamingType name lines (makeEntries m.Fields name) (closeStatements m.Fields))) := by
  refine ⟨?_, ?_, ?_⟩
  · intro lines hl
    have hn : ∀ f ∈ m.Fields, f.Attribute = str "repeated" → f.Name ≠ [] :=
      fun f hf hr => (printFieldLines_repeated _ _ _ lines hl f hf hr).1
    simp [printGoStreamMethods, printCloseCalls_of_names m.Fields hn, closeMethod,
      List.append_assoc]
  rotate_left
  · intro lines hl
    have hp := printFieldLines_repeated _ _ _ lines hl
    rw [printMessageItself_eq m name true (printFieldLines_printable _ _ _ lines hl)]
    simp only [expectedType, if_true, hl, printMakeCalls_of_printable m.Fields name hp,
      printCloseCalls_of_names m.Fields (fun f hf hr => (hp f hf hr).1), Option.getD_some]
  · intro out h
    unfold printGoStreamMethods at h
    cases hc : printCloseCalls m.Fields with
    | none => simp [hc] at h
    | some c =>
      obtain ⟨_, rfl⟩ := (printCloseCalls_eq m.Fields c).mp hc
      simp [hc, closeMethod, List.append_assoc] at h ⊢
      exact h.symm

/-- C17. The constructor that `printMessageConstructor` writes for a
streaming type returns the literal that allocates `errors` with
`make(chan error, 1)`, `closeCh` with `make(chan struct\x7b\x7d)` and, for each
repeated field in the order of the fields and for no other field, the member
with `make(chan T)`; it is written whenever the members of the struct have
been written, and whatever is written is this text. For a plain type the
literal is empty. The element type `T` of a repeated field is the one that
follows `chan ` in its member type. What `printGoProtoMessage` writes for a
message with its flag not set is the plain type, whose constructor has the
empty literal. -/
theorem constructor_allocates_every_channel (m : Message) (name : GoString) :
    (∀ lines, printFieldLines m.Fields (name ++ str "_") true = some lines →
      printMessageConstructor m name true = some (streamingConstructor name m.Fields)) ∧
    (∀ out, printMessageConstructor m name true = some out →
      out = streamingConstructor name m.Fields) ∧
    printMessageConstructor m name false = some (plainConstructor name) ∧
    (∀ f ∈ m.Fields, f.Attribute = str "repeated" → ∀ typ,
      fieldGoType f (name ++ str "_") true = some typ →
        typ = str "chan " ++ elementType f (name ++ str "_")) ∧
    (∀ lines, printFieldLines m.Fields (name ++ str "_") false = some lines →
      printMessageItself m name false = some (plainType name lines)) := by
  refine ⟨?_, ?_, ?_, ?_, ?_⟩
  rotate_right
  · intro lines hl
    rw [printMessageItself_eq m name false (printFieldLines_printable _ _ _ lines hl)]
    simp only [expectedType, Bool.false_eq_true, if_false, hl, Option.getD_some]
  · intro lines hl
    have hp := printFieldLines_repeated _ _ _ lines hl
    simp [printMessageConstructor, printMakeCalls_of_printable m.Fields name hp,
      streamingConstructor, List.append_assoc]
  · intro out h
    unfold printMessageConstructor at h
    cases hc : printMakeCalls m.Fields name with
    | none => simp [hc] at h
    | some c =>
      have hp := printMakeCalls_printable m.Fields name c hc
      rw [printMakeCalls_of_printable m.Fields name hp] at hc
      obtain rfl := Option.some.inj hc
      simp [printMakeCalls_of_printable m.Fields name hp, streamingConstructor,
        List.append_assoc] at h ⊢
      exact h.symm
  · simp [printMessageConstructor, plainConstructor, List.append_assoc]
  · intro f _ hr typ ht
    rw [fieldGoType_repeated f _ hr] at ht
    cases hp : parseGoType f.Typ (name ++ str "_") true with
    | none => simp [hp] at ht
    | some t =>
      simp only [hp, Option.map_some', Option.some.injEq] at ht
      simp [← ht, elementType, hp]


theorem Close_closes_repeated_fields_then_errors_then_closeCh_witness :
    printGoStreamMethods
        (Message.mk (str "A") [⟨str "xs", 1, str "int32", str "repeated"⟩,
          ⟨str "y", 2, str "bool", str "optional"⟩,
          ⟨str "zs", 3, str "string", str "repeated"⟩] []) (str "A") =
      some (str "func (m *" ++ str "A" ++
          str ") Errors() chan error \x7b return m.errors \x7d\n\n" ++
        str "func (m *" ++ str "A" ++
          str ") Closed() <-chan struct\x7b\x7d \x7b return m.closeCh \x7d\n\n" ++
        (str "func (m *" ++ str "A" ++ str ") Close() error \x7b\n" ++
          str "\tclose(m.Xs)\n\tclose(m.Zs)\n" ++
          str "\tclose(m.errors)\n" ++
          str "\tclose(m.closeCh)\n" ++
          str "\treturn nil\n" ++
          str "\x7d\n\n")) := by
  have h := (Close_closes_repeated_fields_then_errors_then_closeCh
    (Message.mk (str "A") [⟨str "xs", 1, str "int32", str "repeated"⟩,
      ⟨str "y", 2, str "bool", str "optional"⟩,
      ⟨str "zs", 3, str "string", str "repeated"⟩] []) (str "A")).1 _ rfl
  have c : closeStatements [⟨str "xs", 1, str "int32", str "repeated"⟩,
      ⟨str "y", 2, str "bool", str "optional"⟩,
      ⟨str "zs", 3, str "string", str "repeated"⟩] = str "\tclose(m.Xs)\n\tclose(m.Zs)\n" := by
    decide
  rw [h]
  simp only [closeMethod, Message.Fields, c]

theorem constructor_allocates_every_channel_witness :
    printMessageConstructor
        (Message.mk (str "A") [⟨str "xs", 1, str "int32", str "repeated"⟩,
          ⟨str "y", 2, str "bool", str "optional"⟩,
          ⟨str "zs", 3, str "Inner", str "repeated"⟩] []) (str "A") true =
      some (str "func New" ++ str "A" ++ str "() *" ++ str "A" ++ str " \x7b\n" ++
        str "\treturn &" ++ str "A" ++ str "\x7b\n" ++
        (str "\t\terrors: make(chan error, 1),\n" ++
          str "\t\tcloseCh: make(chan struct\x7b\x7d),\n" ++
          str "\t\tXs: make(chan int32),\n\t\tZs: make(chan *A_Inner),\n") ++
        str "\t\x7d\n\x7d\n") ∧
    fieldGoType ⟨str "zs", 3, str "Inner", str "repeated"⟩ (str "A" ++ str "_") true =
      some (str "chan *A_Inner") := by
  have h := (constructor_allocates_every_channel
    (Message.mk (str "A") [⟨str "xs", 1, str "int32", str "repeated"⟩,
      ⟨str "y", 2, str "bool", str "optional"⟩,
      ⟨str "zs", 3, str "Inner", str "repeated"⟩] []) (str "A")).1 _ rfl
  have c : makeEntries [⟨str "xs", 1, str "int32", str "repeated"⟩,
      ⟨str "y", 2, str "bool", str "optional"⟩,
      ⟨str "zs", 3, str "Inner", str "repeated"⟩] (str "A") =
      str "\t\tXs: make(chan int32),\n\t\tZs: make(chan *A_Inner),\n" := by
    decide
  refine ⟨?_, by decide⟩
  rw [h]
  simp only [streamingConstructor, Message.Fields, c]

/-! ## What the parser leaves in the syntax tree -/

/-- A token that `NextToken` returns without an error is not empty. -/
theorem NextTokenLoop_token_ne_nil : ∀ (r : List Nat) (buffer next tok : GoString)
    (rd : TokenReader), NextTokenLoop r buffer next = (tok, none, rd) → tok ≠ []
  | [], buffer, next, tok, rd, h => by
    unfold NextTokenLoop at h
    by_cases hn : next = []
    · by_cases hb : buffer.length > 0
      · simp only [hn, ne_eq, not_true_eq_false, if_false, hb, if_true, Prod.mk.injEq] at h
        rw [← h.1]
        exact List.ne_nil_of_length_pos hb
      · simp [hn, hb] at h
    · simp only [ne_eq, hn, not_false_eq_true, if_true, Prod.mk.injEq] at h
      rw [← h.1]
      exact hn
  | b :: rest, buffer, next, tok, rd, h => by
    unfold NextTokenLoop at h
    by_cases hn : next = []
    · by_cases hd : isDelim b = true
      · by_cases hb : buffer.length > 0
        · simp only [hn, ne_eq, not_true_eq_false, if_false, hd, if_true, hb,
            Prod.mk.injEq] at h
          rw [← h.1]
          exact List.ne_nil_of_length_pos hb
        · simp only [hn, ne_eq, not_true_eq_false, if_false, hd, if_true, hb] at h
          exact NextTokenLoop_token_ne_nil rest buffer _ tok rd h
      · simp only [hn, ne_eq, not_true_eq_false, if_false, hd, Bool.false_eq_true] at h
        exact NextTokenLoop_token_ne_nil rest (buffer ++ [b]) _ tok rd h
    · simp only [ne_eq, hn, not_false_eq_true, if_true, Prod.mk.injEq] at h
      rw [← h.1]
      exact hn

theorem NextToken_token_ne_nil (rd rd1 : TokenReader) (tok : GoString)
    (h : rd.NextToken = (tok, none, rd1)) : tok ≠ [] :=
  NextTokenLoop_token_ne_nil rd.r rd.buffer rd.next tok rd1 h

theorem Atoi_inIntRange (tok : GoString) (v : Int) (h : Atoi tok = (v, none)) :
    InIntRange v := by
  have h2 : (Atoi tok).2 = none := by rw [h]
  have hv := (Atoi_ok_iff tok).2 h2
  have hr := ((Atoi_ok_iff tok).1.mp h2).2
  rw [h] at hv
  simp only at hv
  rw [hv]
  exact hr

/-- A field that `ParseField` returns without an error keeps its attribute,
and has a type and a name that are not empty and a number that is a value of
`int`. -/
theorem ParseField_parsed (f0 f : Field) (r r5 : TokenReader)
    (h : f0.ParseField r = (f, none, r5)) :
    f.Attribute = f0.Attribute ∧ InIntRange f.Number ∧ f.Name ≠ [] ∧ f.Typ ≠ [] := by
  unfold Field.ParseField at h
  rcases h1 : r.NextToken with ⟨t1, _ | e1, r1⟩
  swap
  · simp [h1] at h
  rcases h2 : r1.NextToken with ⟨t2, _ | e2, r2⟩
  swap
  · simp [h1, h2] at h
  rcases h3 : r2.NextToken with ⟨t3, _ | e3, r3⟩
  swap
  · simp [h1, h2, h3] at h
  by_cases heq : t3 = str "="
  swap
  · simp [h1, h2, h3, heq] at h
  rcases h4 : r3.NextToken with ⟨t4, _ | e4, r4⟩
  swap
  · simp [h1, h2, h3, heq, h4] at h
  rcases hA : Atoi t4 with ⟨v, _ | e⟩
  swap
  · simp [h1, h2, h3, heq, h4, hA] at h
  rcases h5 : r4.NextToken with ⟨t5, _ | e5, r6⟩
  swap
  · simp [h1, h2, h3, heq, h4, hA, h5] at h
  by_cases hs : t5 = str ";"
  swap
  · simp [h1, h2, h3, heq, h4, hA, h5, hs] at h
  simp only [h1, h2, h3, heq, h4, hA, h5, hs, ne_eq, not_true_eq_false, if_false,
    Prod.mk.injEq] at h
  obtain ⟨hf, _⟩ := h
  subst hf
  exact ⟨rfl, Atoi_inIntRange t4 v hA, NextToken_token_ne_nil r1 r2 t2 h2,
    NextToken_token_ne_nil r r1 t1 h1⟩

theorem Message.All_iff (P : Message → Prop) (m : Message) :
    m.All P ↔ P m ∧ AllMessages P m.SubMessages := by
  cases m with
  | mk n fs ss => simp [Message.All, Message.SubMessages]

theorem AllMessages_append (P : Message → Prop) (ms : List Message) (m : Message) :
    AllMessages P (ms ++ [m]) ↔ AllMessages P ms ∧ m.All P := by
  induction ms with
  | nil => simp [AllMessages]
  | cons a as ih => simp [AllMessages, ih, and_assoc]

theorem AllMessages_mono (P Q : Message → Prop) (hpq : ∀ m, P m → Q m) :
    ∀ ms, AllMessages P ms → AllMessages Q ms
  | [], _ => by simp [AllMessages]
  | .mk n fs ss :: ms, h => by
    have hp : (P (.mk n fs ss) ∧ AllMessages P ss) ∧ AllMessages P ms := by
      simpa [AllMessages, Message.All] using h
    have h1 := AllMessages_mono P Q hpq ss hp.1.2
    have h2 := AllMessages_mono P Q hpq ms hp.2
    simp only [AllMessages, Message.All]
    exact ⟨⟨hpq _ hp.1.1, h1⟩, h2⟩

/-- Every message that `ParseMessage` returns has parsed fields only, at every
depth. -/
theorem parseMessage_parsed (fuel : Nat) :
    (∀ r m r1, ParseMessage fuel r = some ((some m, none), r1) →
      m.All (fun m => ∀ f ∈ m.Fields, f.Parsed)) ∧
    (∀ m0 r m r1, (∀ f ∈ m0.Fields, f.Parsed) →
      AllMessages (fun m => ∀ f ∈ m.Fields, f.Parsed) m0.SubMessages →
      ParseMessageLoop fuel m0 r = some ((some m, none), r1) →
      m.All (fun m => ∀ f ∈ m.Fields, f.Parsed)) := by
  induction fuel with
  | zero =>
    constructor
    · intro r m r1 h; simp [ParseMessage] at h
    · intro m0 r m r1 _ _ h; simp [ParseMessageLoop] at h
  | succ n ih =>
    obtain ⟨ihm, ihl⟩ := ih
    constructor
    · intro r m r0 h
      rcases h1 : r.NextToken with ⟨mesname, _ | err, r1⟩
      · rcases h2 : r1.NextToken with ⟨openBracket, _ | err, r2⟩
        · by_cases hb : openBracket = str "\x7b"
          · subst hb
            rw [message_header _ _ _ _ _ h1 h2] at h
            exact ihl _ _ _ _ (by simp [Message.Fields])
              (by simp [Message.SubMessages, AllMessages]) h
          · simp [ParseMessage, h1, h2, hb] at h
        · simp [ParseMessage, h1, h2] at h
      · simp [ParseMessage, h1] at h
    · intro m0 r m r0 hf0 hs0 h
      rcases h1 : r.NextToken with ⟨tok, _ | err, r1⟩
      · by_cases hc : tok = str "\x7d"
        · subst hc
          rw [body_close _ _ _ _ h1] at h
          simp only [Option.some.injEq, Prod.mk.injEq, and_true] at h
          obtain ⟨h, _⟩ := h
          subst h
          exact (Message.All_iff _ m0).mpr ⟨hf0, hs0⟩
        · by_cases ha : tok = str "repeated" ∨ tok = str "required" ∨ tok = str "optional"
          · rcases hf : Field.ParseField
                { Name := [], Number := 0, Typ := [], Attribute := tok } r1 with ⟨f, _ | err, r2⟩
            · rw [body_field _ _ _ _ _ _ _ h1 ha hf] at h
              obtain ⟨p1, p2, p3, p4⟩ := ParseField_parsed _ _ _ _ hf
              refine ihl _ _ _ _ ?_ ?_ h
              · intro g hg
                simp only [Message.Fields, List.mem_append, List.mem_singleton] at hg
                rcases hg with hg | rfl
                · exact hf0 g hg
                · exact ⟨by rw [p1]; exact ha, p2, p3, p4⟩
              · simpa [Message.SubMessages] using hs0
            · rw [body_field_error _ _ _ _ _ _ _ _ h1 ha hf] at h
              simp at h
          · by_cases hm : tok = str "message"
            · subst hm
              rcases hs : ParseMessage n r1 with _ | ⟨⟨om, oe⟩, r2⟩
              · simp [ParseMessageLoop, h1, hc, ha, hs] at h
              · rcases oe with _ | err
                · rcases om with _ | subm
                  · simp [ParseMessageLoop, h1, hc, ha, hs] at h
                  · rw [body_sub _ _ _ _ _ _ h1 hs] at h
                    refine ihl _ _ _ _ ?_ ?_ h
                    · simpa [Message.Fields] using hf0
                    · simp only [Message.SubMessages]
                      exact (AllMessages_append _ _ _).mpr ⟨hs0, ihm _ _ _ hs⟩
                · rw [body_sub_error _ _ _ _ _ _ _ h1 hs] at h
                  simp at h
            · simp [ParseMessageLoop, h1, hc, ha, hm] at h
      · simp [ParseMessageLoop, h1] at h

theorem ParseProtoFileLoop_parsed (fuel : Nat) :
    ∀ (pb0 : Protobuf) (read : TokenReader) (pb : Protobuf),
      AllMessages (fun m => ∀ f ∈ m.Fields, f.Parsed) pb0.Messages →
      ParseProtoFileLoop fuel pb0 read = some (some pb, none) →
      AllMessages (fun m => ∀ f ∈ m.Fields, f.Parsed) pb.Messages := by
  induction fuel with
  | zero => intro pb0 read pb _ h; simp [ParseProtoFileLoop] at h
  | succ n ih =>
    intro pb0 read pb h0 h
    rcases h1 : read.NextToken with ⟨tok, _ | err, r1⟩
    · by_cases hp : tok = str "package"
      · subst hp
        rcases h2 : r1.NextToken with ⟨pkgname, _ | err, r2⟩
        · rcases h3 : r2.NextToken with ⟨semi, _ | err, r3⟩
          · by_cases hs : semi = str ";"
            · subst hs
              rw [top_package _ _ _ _ _ _ _ h1 h2 h3] at h
              exact ih { pb0 with Package := pkgname } _ _ h0 h
            · simp [ParseProtoFileLoop, h1, h2, h3, hs] at h
          · simp [ParseProtoFileLoop, h1, h2, h3] at h
        · simp [ParseProtoFileLoop, h1, h2] at h
      · by_cases hm : tok = str "message"
        · subst hm
          rcases hs : ParseMessage n r1 with _ | ⟨⟨om, oe⟩, r2⟩
          · simp [ParseProtoFileLoop, h1, hp, hs] at h
          · rcases oe with _ | err
            · rcases om with _ | m
              · simp [ParseProtoFileLoop, h1, hp, hs] at h
              · rw [top_message _ _ _ _ _ _ h1 hs] at h
                refine ih _ _ _ ?_ h
                exact (AllMessages_append _ _ _).mpr ⟨h0, (parseMessage_parsed n).1 _ _ _ hs⟩
            · simp [ParseProtoFileLoop, h1, hp, hs] at h
        · rw [top_skip _ _ _ _ _ h1 hp hm] at h
          exact ih _ _ _ h0 h
    · by_cases he : err = GoError.EOF
      · simp only [ParseProtoFileLoop, h1, he, if_true, Option.some.injEq, Prod.mk.injEq,
          and_true] at h
        rw [← h]
        exact h0
      · simp [ParseProtoFileLoop, h1, he] at h

/-- Every field of a syntax tree that `ParseProtoFile` returns is a parsed
field. -/
theorem ParseProtoFile_parsed (fuel : Nat) (r : List Nat) (pb : Protobuf)
    (h : ParseProtoFile fuel r = some (some pb, none)) :
    AllMessages (fun m => ∀ f ∈ m.Fields, f.Parsed) pb.Messages :=
  ParseProtoFileLoop_parsed fuel _ _ pb (by simp [AllMessages]) h


/-- C19, as amended. In every syntax tree that `ParseProtoFile` returns
without an error, every field, at every nesting depth, has an attribute that
is one of required, optional and repeated, and a number that is a value of
`int`; the number may be zero or negative. -/
theorem parsed_field_attribute_and_number (fuel : Nat) (r : List Nat) (pb : Protobuf)
    (h : ParseProtoFile fuel r = some (some pb, none)) :
    AllMessages (fun m => ∀ f ∈ m.Fields,
      (f.Attribute = str "required" ∨ f.Attribute = str "optional" ∨
        f.Attribute = str "repeated") ∧ InIntRange f.Number) pb.Messages := by
  refine AllMessages_mono _ _ ?_ _ (ParseProtoFile_parsed fuel r pb h)
  intro m hm f hf
  obtain ⟨ha, hn, _, _⟩ := hm f hf
  rcases ha with ha | ha | ha
  · exact ⟨Or.inr (Or.inr ha), hn⟩
  · exact ⟨Or.inl ha, hn⟩
  · exact ⟨Or.inr (Or.inl ha), hn⟩

theorem parsed_field_attribute_and_number_witness :
    AllMessages (fun m => ∀ f ∈ m.Fields,
      (f.Attribute = str "required" ∨ f.Attribute = str "optional" ∨
        f.Attribute = str "repeated") ∧ InIntRange f.Number)
      [Message.mk (str "M") [⟨str "x", 1, str "int32", str "required"⟩]
        [Message.mk (str "In") [⟨str "ys", 2, str "bool", str "repeated"⟩] []]] :=
  parsed_field_attribute_and_number 9
    (str ("package p; message M \x7b required int32 x = 1; " ++
      "message In \x7b repeated bool ys = 2; \x7d \x7d "))
    { Package := str "p",
      Messages := [Message.mk (str "M") [⟨str "x", 1, str "int32", str "required"⟩]
        [Message.mk (str "In") [⟨str "ys", 2, str "bool", str "repeated"⟩] []]] } rfl

/-- C19 as stated fails on the file `message M \x7b required int32 x = 0;
optional int32 y = -5; \x7d`: it parses without an error, and the numbers of
its fields are 0 and -5. -/
theorem field_number_zero_or_negative_is_parsed :
    ParseProtoFile 6
        (str "message M \x7b required int32 x = 0; optional int32 y = -5; \x7d ") =
      some (some
        { Package := [],
          Messages := [Message.mk (str "M") [⟨str "x", 0, str "int32", str "required"⟩,
            ⟨str "y", -5, str "int32", str "optional"⟩] []] }, none) ∧
    ∀ f ∈ (Message.mk (str "M") [⟨str "x", 0, str "int32", str "required"⟩,
        ⟨str "y", -5, str "int32", str "optional"⟩] []).Fields, ¬ 1 ≤ f.Number := by
  refine ⟨rfl, ?_⟩
  decide

theorem Field.Parsed.printable (f : Field) (h : f.Parsed) : f.Printable := by
  obtain ⟨ha, _, hn, ht⟩ := h
  refine ⟨hn, ?_, fun _ => ht⟩
  rcases ha with ha | ha | ha <;> (rw [ha]; decide)

mutual
theorem Message.printable_of_parsed : ∀ (m : Message),
    m.All (fun m => ∀ f ∈ m.Fields, f.Parsed) → m.Printable
  | .mk n fs ss, h => by
    have hp : (∀ f ∈ fs, f.Parsed) ∧ AllMessages (fun m => ∀ f ∈ m.Fields, f.Parsed) ss := by
      simpa [Message.All, Message.Fields] using h
    simp only [Message.Printable]
    exact ⟨fun f hf => (hp.1 f hf).printable, printables_of_parsed ss hp.2⟩
theorem printables_of_parsed : ∀ (ms : List Message),
    AllMessages (fun m => ∀ f ∈ m.Fields, f.Parsed) ms → Printables ms
  | [], _ => by simp [Printables]
  | m :: ms, h => by
    have hp : m.All (fun m => ∀ f ∈ m.Fields, f.Parsed) ∧
        AllMessages (fun m => ∀ f ∈ m.Fields, f.Parsed) ms := by
      simpa [AllMessages] using h
    simp only [Printables]
    exact ⟨Message.printable_of_parsed m hp.1, printables_of_parsed ms hp.2⟩
end

/-- C20. For every `Protobuf` that `ParseProtoFile` returns without an error
the generator returns; for every field of it, at every depth, the slicings
`s[:1]` of `makeGoName` on the name and on a type outside the table,
`f.Attribute[:3]` and `t[:2]` on the table value of the type are in range.
This is so because every token that the lexer returns without an error is not
empty, every field of the tree has as its attribute one of the three words and
as its name and type tokens of the lexer, and every value of the table has two
bytes at least. -/
theorem generator_does_not_panic_on_parsed (fuel : Nat) (r : List Nat) (pb : Protobuf)
    (h : ParseProtoFile fuel r = some (some pb, none)) :
    (PrintGoStreamProto pb).isSome = true ∧
    AllMessages (fun m => ∀ f ∈ m.Fields,
      (sliceTo f.Name 1).isSome = true ∧ (makeGoName f.Name).isSome = true ∧
      (sliceTo f.Attribute 3).isSome = true ∧
      (typeMap f.Typ = none →
        (sliceTo f.Typ 1).isSome = true ∧ (makeGoName f.Typ).isSome = true) ∧
      (∀ t, typeMap f.Typ = some t → (sliceTo t 2).isSome = true)) pb.Messages ∧
    (∀ (rd rd1 : TokenReader) (tok : GoString), rd.NextToken = (tok, none, rd1) → tok ≠ []) ∧
    AllMessages (fun m => ∀ f ∈ m.Fields,
      (f.Attribute = str "repeated" ∨ f.Attribute = str "required" ∨
        f.Attribute = str "optional") ∧ f.Name ≠ [] ∧ f.Typ ≠ []) pb.Messages ∧
    (∀ typ t, typeMap typ = some t → 2 ≤ t.length) := by
  have hp := ParseProtoFile_parsed fuel r pb h
  refine ⟨?_, ?_, fun rd rd1 tok => NextToken_token_ne_nil rd rd1 tok, ?_, typeMap_length⟩
  · exact (PrintGoStreamProto_isSome_iff pb).mpr (printables_of_parsed _ hp)
  · refine AllMessages_mono _ _ ?_ _ hp
    intro m hm f hf
    obtain ⟨ha, _, hn, ht⟩ := hm f hf
    have hn1 : 1 ≤ f.Name.length := List.length_pos.mpr hn
    have ht1 : 1 ≤ f.Typ.length := List.length_pos.mpr ht
    refine ⟨by simp [sliceTo, hn1], makeGoName_isSome f.Name hn, ?_,
      fun _ => ⟨by simp [sliceTo, ht1], makeGoName_isSome f.Typ ht⟩, ?_⟩
    · rcases ha with ha | ha | ha <;> (rw [ha]; decide)
    · intro t htm
      have := typeMap_length f.Typ t htm
      simp [sliceTo, this]
  · refine AllMessages_mono _ _ ?_ _ hp
    intro m hm f hf
    obtain ⟨ha, _, hn, ht⟩ := hm f hf
    exact ⟨ha, hn, ht⟩

theorem generator_does_not_panic_on_parsed_witness :
    ParseProtoFile 9
        (str ("package p; message M \x7b required int32 x = 1; " ++
          "message In \x7b repeated bool ys = 2; \x7d \x7d ")) =
      some (some
        { Package := str "p",
          Messages := [Message.mk (str "M") [⟨str "x", 1, str "int32", str "required"⟩]
            [Message.mk (str "In") [⟨str "ys", 2, str "bool", str "repeated"⟩] []]] },
        none) ∧
    (PrintGoStreamProto
        { Package := str "p",
          Messages := [Message.mk (str "M") [⟨str "x", 1, str "int32", str "required"⟩]
            [Message.mk (str "In") [⟨str "ys", 2, str "bool", str "repeated"⟩] []]] }).isSome =
      true :=
  ⟨rfl, (generator_does_not_panic_on_parsed 9
    (str ("package p; message M \x7b required int32 x = 1; " ++
      "message In \x7b repeated bool ys = 2; \x7d \x7d "))
    { Package := str "p",
      Messages := [Message.mk (str "M") [⟨str "x", 1, str "int32", str "required"⟩]
        [Message.mk (str "In") [⟨str "ys", 2, str "bool", str "repeated"⟩] []]] } rfl).1⟩

/-! ## The generator on the trees of the parser -/

theorem expectedType_starts_with_name (streaming : Bool) (m : Message) (name : GoString) :
    ∃ rest, expectedType streaming m name =
      str "type " ++ name ++ str " struct \x7b\n" ++ rest := by
  cases streaming with
  | true =>
    simp only [expectedType, if_true, streamingType, List.append_assoc]
    exact ⟨_, rfl⟩
  | false =>
    simp only [expectedType, Bool.false_eq_true, if_false, plainType, List.append_assoc]
    exact ⟨_, rfl⟩

/-- C12, as amended. Take a `Protobuf` whose top-level messages have pairwise
distinct names, in which the direct submessages of each message have pairwise
distinct names, and in which no message name at any depth contains an
underscore. What `PrintGoStreamProto` writes, when it returns, is one type for
each entry of the list `declaredTop`, in order, the type of an entry being the
text that `printGoProtoMessage` writes for the message of the entry under the
name of the entry, which starts with `type`, the name and `struct`; it returns
on every tree of the parser; and the names of the entries are pairwise
different. -/
theorem flattened_names_are_distinct (pb : Protobuf)
    (htop : (pb.Messages.map Message.Name).Nodup)
    (hsub : AllMessages Message.DistinctSubNames pb.Messages)
    (hund : AllMessages Message.NoUnderscore pb.Messages) :
    ((declaredTop pb.Messages).map Declared.name).Nodup ∧
    (∀ out, PrintGoStreamProto pb = some out ↔
      Printables pb.Messages ∧
      out = (str "package " ++ pb.Package ++ str "\n\n",
        joinText ((declaredTop pb.Messages).map
          (fun d => expectedType d.streaming d.mes d.name)))) ∧
    (∀ fuel r, ParseProtoFile fuel r = some (some pb, none) →
      PrintGoStreamProto pb = some (str "package " ++ pb.Package ++ str "\n\n",
        joinText ((declaredTop pb.Messages).map
          (fun d => expectedType d.streaming d.mes d.name)))) ∧
    (∀ d ∈ declaredTop pb.Messages, ∀ lines,
      printFieldLines d.mes.Fields (d.name ++ str "_") d.streaming = some lines →
        printMessageItself d.mes d.name d.streaming =
          some (expectedType d.streaming d.mes d.name) ∧
        ∃ rest, expectedType d.streaming d.mes d.name =
          str "type " ++ d.name ++ str " struct \x7b\n" ++ rest) := by
  have key : Printables pb.Messages → PrintGoStreamProto pb =
      some (str "package " ++ pb.Package ++ str "\n\n",
        joinText ((declaredTop pb.Messages).map
          (fun d => expectedType d.streaming d.mes d.name))) := by
    intro h
    simp [PrintGoStreamProto, printTopMessages_declared pb.Messages h]
  refine ⟨?_, ?_, ?_, ?_⟩
  · rw [declaredTop_names]
    exact declaredForest_nodup pb.Messages [] htop hsub hund
  · intro out
    constructor
    · intro h
      have hp : Printables pb.Messages :=
        (PrintGoStreamProto_isSome_iff pb).mp (by rw [h]; rfl)
      rw [key hp] at h
      exact ⟨hp, (Option.some.inj h).symm⟩
    · rintro ⟨hp, rfl⟩
      exact key hp
  · intro fuel r h
    exact key (printables_of_parsed _ (ParseProtoFile_parsed fuel r pb h))
  · intro d _ lines hl
    exact ⟨printMessageItself_eq d.mes d.name d.streaming
      (printFieldLines_printable _ _ _ lines hl), expectedType_starts_with_name _ _ _⟩

theorem flattened_names_are_distinct_witness :
    ((declaredTop [Message.mk (str "A") [] [Message.mk (str "B") [] []],
        Message.mk (str "C") [] [Message.mk (str "B") [] []]]).map Declared.name).Nodup ∧
    PrintGoStreamProto
        { Package := str "p",
          Messages := [Message.mk (str "A") [] [Message.mk (str "B") [] []],
            Message.mk (str "C") [] [Message.mk (str "B") [] []]] } =
      some (str "package p\n\n",
        streamingType (str "A") [] [] [] ++ (plainType (str "A_B") [] ++
          (streamingType (str "C") [] [] [] ++ plainType (str "C_B") []))) := by
  have h := flattened_names_are_distinct
    { Package := str "p",
      Messages := [Message.mk (str "A") [] [Message.mk (str "B") [] []],
        Message.mk (str "C") [] [Message.mk (str "B") [] []]] }
    (by decide)
    (by simp only [AllMessages, Message.All, Message.DistinctSubNames, Message.SubMessages]
        decide)
    (by simp only [AllMessages, Message.All, Message.NoUnderscore, Message.Name]; decide)
  refine ⟨h.1, ?_⟩
  have hp := h.2.2.1 9
    (str "package p; message A \x7b message B \x7b \x7d \x7d message C \x7b message B \x7b \x7d \x7d ")
    rfl
  have n1 : ([] : GoString) ++ str "A" = str "A" := by decide
  have n2 : str "A" ++ str "_" = str "A_" := by decide
  have n3 : str "A_" ++ str "B" = str "A_B" := by decide
  have n4 : ([] : GoString) ++ str "C" = str "C" := by decide
  have n5 : str "C" ++ str "_" = str "C_" := by decide
  have n6 : str "C_" ++ str "B" = str "C_B" := by decide
  have n7 : str "package " ++ str "p" ++ str "\n\n" = str "package p\n\n" := by decide
  rw [hp]
  simp only [declaredTop, declaredTree, declaredForest,
    List.map_cons, List.map_nil, List.nil_append, List.cons_append, List.append_nil,
    joinText, expectedType, Message.Fields, n1, n2, n3, n4, n5, n6, n7, printFieldLines,
    printMakeCalls, printCloseCalls, Option.getD_some, Bool.false_eq_true, if_false,
    if_true]

/-- C12 as stated fails on the file `message A \x7b message B \x7b \x7d \x7d
message A_B \x7b \x7d`: the top-level names `A` and `A_B` are distinct, `B` is
the only submessage of `A`, and the type `A_B` is declared twice, once for the
submessage `B` of `A` and once for the top-level message `A_B`. -/
theorem underscore_in_name_collides :
    ParseProtoFile 8
        (str "package p; message A \x7b message B \x7b \x7d \x7d message A_B \x7b \x7d ") =
      some (some
        { Package := str "p",
          Messages := [Message.mk (str "A") [] [Message.mk (str "B") [] []],
            Message.mk (str "A_B") [] []] }, none) ∧
    ([Message.mk (str "A") [] [Message.mk (str "B") [] []],
        Message.mk (str "A_B") [] []].map Message.Name).Nodup ∧
    AllMessages Message.DistinctSubNames
      [Message.mk (str "A") [] [Message.mk (str "B") [] []], Message.mk (str "A_B") [] []] ∧
    (declaredTop [Message.mk (str "A") [] [Message.mk (str "B") [] []],
        Message.mk (str "A_B") [] []]).map Declared.name =
      [str "A", str "A_B", str "A_B"] ∧
    PrintGoStreamProto
        { Package := str "p",
          Messages := [Message.mk (str "A") [] [Message.mk (str "B") [] []],
            Message.mk (str "A_B") [] []] } =
      some (str "package p\n\n",
        streamingType (str "A") [] [] [] ++ (plainType (str "A_B") [] ++
          streamingType (str "A_B") [] [] [])) := by
  refine ⟨rfl, by decide, ?_, by decide, ?_⟩
  · simp only [AllMessages, Message.All, Message.DistinctSubNames, Message.SubMessages]
    decide
  · have n1 : ([] : GoString) ++ str "A" = str "A" := by decide
    have n2 : str "A" ++ str "_" = str "A_" := by decide
    have n3 : str "A_" ++ str "B" = str "A_B" := by decide
    have n4 : ([] : GoString) ++ str "A_B" = str "A_B" := by decide
    have n7 : str "package " ++ str "p" ++ str "\n\n" = str "package p\n\n" := by decide
    have e := printTopMessages_declared
      [Message.mk (str "A") [] [Message.mk (str "B") [] []], Message.mk (str "A_B") [] []]
      (by simp only [Printables, Message.Printable]; decide)
    simp only [PrintGoStreamProto, e, declaredTop, declaredTree, declaredForest,
      List.map_cons, List.map_nil, List.nil_append, List.cons_append, List.append_nil,
      joinText, expectedType, Message.Fields, n1, n2, n3, n4, n7, printFieldLines,
      printMakeCalls, printCloseCalls, Option.getD_some, Bool.false_eq_true, if_false,
      if_true, Option.bind_eq_bind, Option.some_bind, Option.pure_def]


theorem fieldGoType_reference (f : Field) (pre : GoString) (stream : Bool)
    (h : f.Typ ∉ primitiveKeywords) (hne : f.Typ ≠ []) :
    fieldGoType f pre stream = some (
      (if f.Attribute = str "repeated" then (if stream then str "chan " else str "[]")
        else []) ++ (str "*" ++ pre ++ capitalize f.Typ)) := by
  unfold fieldGoType
  rw [parseGoType_reference f.Typ pre _ h hne]
  rfl

/-- C13. For a field whose type is one of the seven primitive keywords, with
table value `T`, the member type is `chan T` in a streaming type and `[]T` in
a plain type when the field is repeated, and otherwise `*T`, except for
`bytes`, which stays `[]byte`. For every field of a `Protobuf` that
`ParseProtoFile` returns whose type is any other string, the member type is
rendered, and it is the pointer type `*` with the prefix and the type, its
initial letter capitalized (the element type of the channel or slice when the
field is repeated); so it is for every field whose type is not empty. The
member type is what `formatGoProtoField` puts between the capitalized name and
the tag of the member. -/
theorem member_type_follows_table (f : Field) (pre : GoString) (stream : Bool) :
    (∀ T, (f.Typ, T) ∈ primitiveTable →
      fieldGoType f pre stream = some (
        if f.Attribute = str "repeated" then
          (if stream then str "chan " ++ T else str "[]" ++ T)
        else if f.Typ = str "bytes" then str "[]byte" else str "*" ++ T)) ∧
    (f.Typ ∉ primitiveKeywords → f.Typ ≠ [] →
      fieldGoType f pre stream = some (
        (if f.Attribute = str "repeated" then (if stream then str "chan " else str "[]")
          else []) ++ (str "*" ++ pre ++ capitalize f.Typ))) ∧
    (∀ fuel r pb, ParseProtoFile fuel r = some (some pb, none) →
      AllMessages (fun m => ∀ g ∈ m.Fields, g.Typ ∉ primitiveKeywords →
        fieldGoType g pre stream = some (
          (if g.Attribute = str "repeated" then (if stream then str "chan " else str "[]")
            else []) ++ (str "*" ++ pre ++ capitalize g.Typ))) pb.Messages) ∧
    formatGoProtoField f pre stream =
      (fieldGoType f pre stream).bind (fun typ =>
        (makeGoName f.Name).bind (fun name =>
          (sliceTo f.Attribute 3).bind (fun a3 =>
            some (name ++ str " " ++ typ ++ str " " ++
              (str "\x60protobuf:\"" ++ f.Typ ++ str "," ++ Itoa f.Number ++ str "," ++ a3 ++
                str ",name=" ++ f.Name ++ str "\"\x60"))))) := by
  refine ⟨?_, fieldGoType_reference f pre stream, ?_, formatGoProtoField_eq f pre stream⟩
  · intro T hT
    unfold fieldGoType
    rw [parseGoType_table f.Typ T pre _ hT]
    by_cases hr : f.Attribute = str "repeated" <;> cases stream <;> simp [hr]
  · intro fuel r pb h
    refine AllMessages_mono _ _ ?_ _ (ParseProtoFile_parsed fuel r pb h)
    intro m hm g hg hprim
    exact fieldGoType_reference g pre stream hprim (hm g hg).2.2.2

theorem member_type_follows_table_witness :
    fieldGoType ⟨str "xs", 1, str "bytes", str "repeated"⟩ (str "A_") true =
        some (str "chan []byte") ∧
      fieldGoType ⟨str "y", 2, str "inner", str "optional"⟩ (str "A_") false =
        some (str "*A_Inner") ∧
      AllMessages (fun m => ∀ g ∈ m.Fields, g.Typ ∉ primitiveKeywords →
        fieldGoType g (str "A_") false = some (
          (if g.Attribute = str "repeated" then (if false then str "chan " else str "[]")
            else []) ++ (str "*" ++ str "A_" ++ capitalize g.Typ)))
        [Message.mk (str "A") [⟨str "y", 2, str "inner", str "optional"⟩] []] :=
  ⟨((member_type_follows_table ⟨str "xs", 1, str "bytes", str "repeated"⟩ (str "A_") true).1
      (str "[]byte") (by decide)).trans (by decide),
    ((member_type_follows_table ⟨str "y", 2, str "inner", str "optional"⟩ (str "A_")
      false).2.1 (by decide) (by decide)).trans (by decide),
    (member_type_follows_table ⟨str "y", 2, str "inner", str "optional"⟩ (str "A_")
      false).2.2.1 6 (str "package p; message A \x7b optional inner y = 2; \x7d ")
      { Package := str "p",
        Messages := [Message.mk (str "A") [⟨str "y", 2, str "inner", str "optional"⟩] []] }
      rfl⟩

/-- C11 fails on the file `package p; message a \x7b message b \x7b \x7d \x7d`:
the type of the message `b` inside the message `a` is written under the name
`a_b`, the name of the claim is `A_b`. -/
theorem ancestor_name_is_not_capitalized :
    ParseProtoFile 6 (str "package p; message a \x7b message b \x7b \x7d \x7d ") =
      some (some
        { Package := str "p",
          Messages := [Message.mk (str "a") [] [Message.mk (str "b") [] []]] }, none) ∧
    PrintGoStreamProto
        { Package := str "p",
          Messages := [Message.mk (str "a") [] [Message.mk (str "b") [] []]] } =
      some (str "package p\n\n",
        streamingType (str "a") [] [] [] ++ plainType (str "a_b") []) ∧
    claimedName [str "a"] (str "b") = str "A_b" ∧
    plainType (str "a_b") [] ≠ plainType (str "A_b") [] := by
  refine ⟨rfl, ?_, by decide, ?_⟩
  · have n1 : ([] : GoString) ++ str "a" = str "a" := by decide
    have n2 : str "a" ++ str "_" = str "a_" := by decide
    have n3 : str "a_" ++ str "b" = str "a_b" := by decide
    have n7 : str "package " ++ str "p" ++ str "\n\n" = str "package p\n\n" := by decide
    have e := printTopMessages_eq [Message.mk (str "a") [] [Message.mk (str "b") [] []]]
      (by simp only [Printables, Message.Printable]; decide)
    simp only [PrintGoStreamProto, e, expectedForest, expectedTree, expectedType,
      Message.Fields, n1, n2, n3, n7, printFieldLines, printMakeCalls, printCloseCalls,
      Option.getD_some, Nat.add_eq_zero, one_ne_zero, and_false, decide_False, decide_True,
      Bool.false_eq_true, if_false, if_true, zero_add, List.append_nil, Option.bind_eq_bind,
      Option.some_bind, Option.pure_def]
  · intro h
    have h2 := congrArg (fun l => l.take 8) h
    revert h2
    decide

/-! ## Failures at a place of a text -/

/-- The loop of `ParseMessage` on the canonical text of items: it goes on,
after them, with their fields and messages appended to those collected
before. -/
theorem ParseMessageLoop_renderItems (items : List Item) :
    ∀ (m : Message) (rest : List Nat) (fuel : Nat) (x : MessageResult),
      (∀ i ∈ items, i.WellFormed) →
      ParseMessageLoop fuel
        (Message.mk m.Name (m.Fields ++ itemsFields items) (m.SubMessages ++ itemsSubs items))
        { r := rest, buffer := [], next := [] } = some x →
      ParseMessageLoop (fuel + itemsSize items) m
        { r := renderItems items ++ rest, buffer := [], next := [] } = some x := by
  induction items with
  | nil =>
    intro m rest fuel x _ h
    simpa [itemsFields, itemsSubs, itemsSize, renderItems, Message_eta] using h
  | cons i items ih =>
    intro m rest fuel x hwf h
    have hi := hwf i (by simp)
    have hrest : ∀ j ∈ items, j.WellFormed := fun j hj => hwf j (by simp [hj])
    cases i with
    | field f =>
      obtain ⟨ht, hn, ha, hlo, hhi⟩ := hi
      have e0 : renderItems (Item.field f :: items) ++ rest =
          f.Attribute ++ 32 :: (renderFieldTail f ++ (renderItems items ++ rest)) := by
        simp [renderItems, Item.render, str]
      have h1 := NextToken_word f.Attribute (renderFieldTail f ++ (renderItems items ++ rest))
        (Word_attribute _ ha)
      have h2 := ParseField_render f f.Attribute (renderItems items ++ rest) ht hn hlo hhi
      have hfuel : fuel + itemsSize (Item.field f :: items) = (fuel + itemsSize items) + 1 := by
        simp only [itemsSize, Item.size]; omega
      rw [e0, hfuel, body_field _ m _ _ _ f.Attribute _ h1 ha h2,
        ParseMessageLoop_congr _ _ _ _ (NextToken_space (renderItems items ++ rest))]
      refine ih _ rest fuel x hrest ?_
      simpa [itemsFields, itemsSubs, Message.Name, Message.Fields, Message.SubMessages,
        List.append_assoc] using h
    | sub name inner =>
      obtain ⟨hname, hinner⟩ := hi
      have e0 : renderItems (Item.sub name inner :: items) ++ rest =
          str "message" ++ 32 :: (name ++ 32 :: (str "\x7b" ++ 32 ::
            (inner.render ++ (renderItems items ++ rest)))) := by
        simp [renderItems, Item.render, str]
      have h1 := NextToken_word (str "message")
        (name ++ 32 :: (str "\x7b" ++ 32 :: (inner.render ++ (renderItems items ++ rest))))
        (by decide)
      have h2 := NextToken_word name
        (str "\x7b" ++ 32 :: (inner.render ++ (renderItems items ++ rest))) hname
      have h3 := NextToken_word (str "\x7b") (inner.render ++ (renderItems items ++ rest))
        (by decide)
      have hfuel : fuel + itemsSize (Item.sub name inner :: items) =
          (fuel + itemsSize items + inner.size + 1) + 1 := by
        simp only [itemsSize, Item.size]; omega
      have h4 : ParseMessage (fuel + itemsSize items + inner.size + 1)
          { r := name ++ 32 :: (str "\x7b" ++ 32 ::
            (inner.render ++ (renderItems items ++ rest))), buffer := [], next := [] } =
          some ((some (Message.mk name inner.fields inner.subs), none),
            { r := renderItems items ++ rest, buffer := [], next := [] }) := by
        rw [message_header _ _ _ _ name h2 h3,
          ParseMessageLoop_render inner _ _ _ hinner (by omega)]
        simp [Message.Name, Message.Fields, Message.SubMessages]
      rw [e0, hfuel, body_sub _ m _ _ _ _ h1 h4]
      have hgo := ih (Message.mk m.Name m.Fields
        (m.SubMessages ++ [Message.mk name inner.fields inner.subs])) rest fuel x hrest
        (by simpa [itemsFields, itemsSubs, Message.Name, Message.Fields, Message.SubMessages,
          List.append_assoc] using h)
      have := ParseMessageLoop_mono _ (inner.size + 1) _ _ x hgo
      rw [show fuel + itemsSize items + (inner.size + 1) =
        fuel + itemsSize items + inner.size + 1 by omega] at this
      exact this

/-- An error of the loop of `ParseMessage` at a place in a body is the error
of the loops of all open declarations around it. -/
theorem ParseMessageLoop_fails_in_frames (frs : List Frame) :
    ∀ (tail : List Nat) (e : GoError) (k : Nat), (∀ fr ∈ frs, fr.WellFormed) →
      (∀ m, ∃ r2, ParseMessageLoop k m { r := tail, buffer := [], next := [] } =
        some ((none, some e), r2)) →
      ∀ m, ∃ r2, ParseMessageLoop (k + framesSize frs) m
        { r := renderFrames frs ++ tail, buffer := [], next := [] } =
          some ((none, some e), r2) := by
  induction frs with
  | nil => intro tail e k _ h m; simpa [framesSize, renderFrames] using h m
  | cons fr frs ih =>
    intro tail e k hwf h m
    obtain ⟨hname, hitems⟩ := hwf fr (by simp)
    have hrest : ∀ x ∈ frs, x.WellFormed := fun x hx => hwf x (by simp [hx])
    obtain ⟨r2, hr2⟩ := ih tail e k hrest h
      (Message.mk fr.1 ([] ++ itemsFields fr.2) ([] ++ itemsSubs fr.2))
    have e0 : renderFrames (fr :: frs) ++ tail =
        str "message" ++ 32 :: (fr.1 ++ 32 :: (str "\x7b" ++ 32 ::
          (renderItems fr.2 ++ (renderFrames frs ++ tail)))) := by
      simp [renderFrames, str]
    have h1 := NextToken_word (str "message")
      (fr.1 ++ 32 :: (str "\x7b" ++ 32 :: (renderItems fr.2 ++ (renderFrames frs ++ tail))))
      (by decide)
    have h2 := NextToken_word fr.1
      (str "\x7b" ++ 32 :: (renderItems fr.2 ++ (renderFrames frs ++ tail))) hname
    have h3 := NextToken_word (str "\x7b") (renderItems fr.2 ++ (renderFrames frs ++ tail))
      (by decide)
    have hfuel : k + framesSize (fr :: frs) = (k + framesSize frs + itemsSize fr.2 + 1) + 1 := by
      simp only [framesSize]; omega
    refine ⟨r2, ?_⟩
    rw [e0, hfuel]
    refine body_sub_error _ m _ _ r2 none e h1 ?_
    rw [message_header _ _ _ _ fr.1 h2 h3]
    exact ParseMessageLoop_renderItems fr.2 (Message.mk fr.1 [] []) _ _ _ hitems hr2

/-- An error of the loop of `ParseMessage` at a place in a body is the error
of `ParseMessage` for the outermost open declaration. -/
theorem ParseMessage_fails_in_frames (fr : Frame) (frs : List Frame) (tail : List Nat)
    (e : GoError) (k : Nat) (hwf : ∀ x ∈ fr :: frs, x.WellFormed)
    (h : ∀ m, ∃ r2, ParseMessageLoop k m { r := tail, buffer := [], next := [] } =
      some ((none, some e), r2)) :
    ∃ r2, ParseMessage (k + framesSize (fr :: frs))
      { r := fr.1 ++ str " " ++ str "\x7b " ++ renderItems fr.2 ++ (renderFrames frs ++ tail),
        buffer := [], next := [] } = some ((none, some e), r2) := by
  obtain ⟨hname, hitems⟩ := hwf fr (by simp)
  have hrest : ∀ x ∈ frs, x.WellFormed := fun x hx => hwf x (by simp [hx])
  obtain ⟨r2, hr2⟩ := ParseMessageLoop_fails_in_frames frs tail e k hrest h
    (Message.mk fr.1 ([] ++ itemsFields fr.2) ([] ++ itemsSubs fr.2))
  have e0 : fr.1 ++ str " " ++ str "\x7b " ++ renderItems fr.2 ++ (renderFrames frs ++ tail) =
      fr.1 ++ 32 :: (str "\x7b" ++ 32 :: (renderItems fr.2 ++ (renderFrames frs ++ tail))) := by
    simp [str]
  have h2 := NextToken_word fr.1
    (str "\x7b" ++ 32 :: (renderItems fr.2 ++ (renderFrames frs ++ tail))) hname
  have h3 := NextToken_word (str "\x7b") (renderItems fr.2 ++ (renderFrames frs ++ tail))
    (by decide)
  have hfuel : k + framesSize (fr :: frs) = (k + framesSize frs + itemsSize fr.2 + 1) + 1 := by
    simp only [framesSize]; omega
  refine ⟨r2, ?_⟩
  rw [e0, hfuel, message_header _ _ _ _ fr.1 h2 h3]
  have := ParseMessageLoop_renderItems fr.2 (Message.mk fr.1 [] []) _ _ _ hitems hr2
  exact ParseMessageLoop_mono _ 1 _ _ _ this

/-- The top-level loop on the canonical text of declarations goes on, after
them, with their messages appended. -/
theorem ParseProtoFileLoop_renderDecls_then (ds : List Decl) :
    ∀ (pb : Protobuf) (rest : List Nat) (fuel : Nat) (x : Option Protobuf × Option GoError),
      (∀ d ∈ ds, Word d.1 ∧ d.2.WellFormed) →
      ParseProtoFileLoop fuel { pb with Messages := pb.Messages ++ ds.map Decl.toMessage }
        { r := rest, buffer := [], next := [] } = some x →
      ParseProtoFileLoop (fuel + declsSize ds) pb
        { r := renderDecls ds ++ rest, buffer := [], next := [] } = some x := by
  induction ds with
  | nil =>
    intro pb rest fuel x _ h
    have h' : ParseProtoFileLoop fuel pb { r := rest, buffer := [], next := [] } = some x := by
      simpa using h
    simpa [declsSize, renderDecls] using ParseProtoFileLoop_mono fuel 1 _ _ x h'
  | cons d ds ih =>
    intro pb rest fuel x hwf h
    obtain ⟨hname, hbody⟩ := hwf d (by simp)
    have e0 : renderDecls (d :: ds) ++ rest =
        str "message" ++ 32 :: (d.1 ++ 32 :: (str "\x7b" ++ 32 ::
          (d.2.render ++ (renderDecls ds ++ rest)))) := by
      simp [renderDecls, str]
    have h1 := NextToken_word (str "message")
      (d.1 ++ 32 :: (str "\x7b" ++ 32 :: (d.2.render ++ (renderDecls ds ++ rest)))) (by decide)
    have h2 := NextToken_word d.1 (str "\x7b" ++ 32 :: (d.2.render ++ (renderDecls ds ++ rest)))
      hname
    have h3 := NextToken_word (str "\x7b") (d.2.render ++ (renderDecls ds ++ rest)) (by decide)
    have hfuel : fuel + declsSize (d :: ds) = (fuel + declsSize ds + d.2.size + 1) + 1 := by
      simp only [declsSize]; omega
    have h4 : ParseMessage (fuel + declsSize ds + d.2.size + 1)
        { r := d.1 ++ 32 :: (str "\x7b" ++ 32 :: (d.2.render ++ (renderDecls ds ++ rest))),
          buffer := [], next := [] } =
        some ((some d.toMessage, none),
          { r := renderDecls ds ++ rest, buffer := [], next := [] }) := by
      rw [message_header _ _ _ _ d.1 h2 h3, ParseMessageLoop_render d.2 _ _ _ hbody (by omega)]
      simp [Message.Name, Message.Fields, Message.SubMessages, Decl.toMessage]
    rw [e0, hfuel, top_message _ pb _ _ _ _ h1 h4]
    have hgo := ih { pb with Messages := pb.Messages ++ [d.toMessage] } rest fuel x
      (fun y hy => hwf y (by simp [hy])) (by simpa [List.append_assoc] using h)
    have := ParseProtoFileLoop_mono _ (d.2.size + 1) _ _ x hgo
    rw [show fuel + declsSize ds + (d.2.size + 1) = fuel + declsSize ds + d.2.size + 1 by
      omega] at this
    exact this

/-- The top-level loop on the canonical text of a package declaration goes on
after it. -/
theorem ParseProtoFileLoop_renderPackage (pkg : Option GoString) (pb : Protobuf)
    (rest : List Nat) (fuel : Nat) (x : Option Protobuf × Option GoError)
    (hpkg : ∀ name, pkg = some name → Word name)
    (h : ∀ pb1 : Protobuf, pb1.Messages = pb.Messages →
      ParseProtoFileLoop fuel pb1 { r := rest, buffer := [], next := [] } = some x) :
    ParseProtoFileLoop (fuel + 1) pb
      { r := renderPackage pkg ++ rest, buffer := [], next := [] } = some x := by
  cases pkg with
  | none => simpa [renderPackage] using ParseProtoFileLoop_mono fuel 1 _ _ x (h pb rfl)
  | some name =>
    have hw := hpkg name rfl
    have e0 : renderPackage (some name) ++ rest =
        str "package" ++ 32 :: (name ++ 32 :: 59 :: 32 :: rest) := by
      simp [renderPackage, str]
    have h1 := NextToken_word (str "package") (name ++ 32 :: 59 :: 32 :: rest) (by decide)
    have h2 := NextToken_word name (59 :: 32 :: rest) hw
    have h3 := NextToken_punct 59 (32 :: rest) (Or.inl rfl)
    have hsemi : ([59] : GoString) = str ";" := by decide
    rw [hsemi] at h3
    rw [e0, top_package _ _ _ _ _ _ name h1 h2 h3,
      ParseProtoFileLoop_congr _ _ _ _ (NextToken_space rest)]
    exact h _ rfl


/-- An error of the loop of `ParseMessage` at a place in a body makes
`ParseProtoFile` fail with that error. -/
theorem FailsWith_in_body (p : Place) (tail : List Nat) (e : GoError) (k : Nat)
    (hwf : p.WellFormed) (hne : p.frames ≠ [])
    (h : ∀ m, ∃ r2, ParseMessageLoop k m { r := tail, buffer := [], next := [] } =
      some ((none, some e), r2)) :
    FailsWith (p.render ++ tail) e := by
  obtain ⟨hpkg, hds, hfrs⟩ := hwf
  obtain ⟨fr, frs, hfr⟩ : ∃ fr frs, p.frames = fr :: frs := by
    cases hp : p.frames with
    | nil => exact absurd hp hne
    | cons fr frs => exact ⟨fr, frs, rfl⟩
  rw [hfr] at hfrs
  obtain ⟨r2, hr2⟩ := ParseMessage_fails_in_frames fr frs tail e k hfrs h
  have hname := (hfrs fr (by simp)).1
  have htop : ∀ pb : Protobuf, ParseProtoFileLoop (k + framesSize (fr :: frs) + 1) pb
      { r := renderFrames (fr :: frs) ++ tail, buffer := [], next := [] } =
      some (none, some e) := by
    intro pb
    have e0 : renderFrames (fr :: frs) ++ tail =
        str "message" ++ 32 :: (fr.1 ++ str " " ++ str "\x7b " ++ renderItems fr.2 ++
          (renderFrames frs ++ tail)) := by
      simp [renderFrames, str]
    have h1 := NextToken_word (str "message") (fr.1 ++ str " " ++ str "\x7b " ++
      renderItems fr.2 ++ (renderFrames frs ++ tail)) (by decide)
    rw [e0]
    exact top_message_error _ pb _ _ r2 none e h1 hr2
  have hfile : ParseProtoFile (k + framesSize (fr :: frs) + 1 + declsSize p.decls + 1)
      (p.render ++ tail) = some (none, some e) := by
    unfold ParseProtoFile NewTokenReader
    have e1 : p.render ++ tail =
        renderPackage p.pkg ++ (renderDecls p.decls ++ (renderFrames (fr :: frs) ++ tail)) := by
      simp [Place.render, hfr, List.append_assoc]
    rw [e1]
    refine ParseProtoFileLoop_renderPackage p.pkg _ _ _ _ hpkg ?_
    intro pb1 _
    exact ParseProtoFileLoop_renderDecls_then p.decls pb1 _ _ _ hds (htop _)
  refine ⟨k + framesSize (fr :: frs) + 1 + declsSize p.decls + 1, fun fuel hfuel => ?_⟩
  obtain ⟨j, rfl⟩ := Nat.exists_eq_add_of_le hfuel
  exact ParseProtoFile_mono _ j _ _ hfile

/-- An error of `ParseMessage` at a place where a declaration may start makes
`ParseProtoFile` fail with that error. -/
theorem FailsWith_at_declaration (p : Place) (after : List Nat) (e : GoError) (k : Nat)
    (r2 : TokenReader) (hwf : p.WellFormed)
    (h : ParseMessage k { r := after, buffer := [], next := [] } = some ((none, some e), r2)) :
    FailsWith (p.render ++ (str "message " ++ after)) e := by
  have e0 : str "message " ++ after = str "message" ++ 32 :: after := by simp [str]
  have h1 := NextToken_word (str "message") after (by decide)
  by_cases hne : p.frames = []
  · obtain ⟨hpkg, hds, _⟩ := hwf
    have hfile : ParseProtoFile (k + 1 + declsSize p.decls + 1)
        (p.render ++ (str "message " ++ after)) = some (none, some e) := by
      unfold ParseProtoFile NewTokenReader
      have e1 : p.render ++ (str "message " ++ after) =
          renderPackage p.pkg ++ (renderDecls p.decls ++ (str "message" ++ 32 :: after)) := by
        simp [Place.render, hne, renderFrames, List.append_assoc, str]
      rw [e1]
      refine ParseProtoFileLoop_renderPackage p.pkg _ _ _ _ hpkg ?_
      intro pb1 _
      exact ParseProtoFileLoop_renderDecls_then p.decls pb1 _ _ _ hds
        (top_message_error _ _ _ _ r2 none e h1 h)
    refine ⟨k + 1 + declsSize p.decls + 1, fun fuel hfuel => ?_⟩
    obtain ⟨j, rfl⟩ := Nat.exists_eq_add_of_le hfuel
    exact ParseProtoFile_mono _ j _ _ hfile
  · refine FailsWith_in_body p _ e (k + 1) hwf hne ?_
    intro m
    rw [e0]
    exact ⟨r2, body_sub_error _ m _ _ r2 none e h1 h⟩

/-- An error of the loop of `ParseMessage` at a place in a body makes
`ParseMessage` fail with that error, for every open declaration. -/
theorem MessageFailsWith_in_body (fr : Frame) (frs : List Frame) (tail : List Nat)
    (e : GoError) (k : Nat) (hwf : ∀ x ∈ fr :: frs, x.WellFormed)
    (h : ∀ m, ∃ r2, ParseMessageLoop k m { r := tail, buffer := [], next := [] } =
      some ((none, some e), r2)) :
    MessageFailsWith
      (fr.1 ++ str " " ++ str "\x7b " ++ renderItems fr.2 ++ (renderFrames frs ++ tail)) e := by
  obtain ⟨r2, hr2⟩ := ParseMessage_fails_in_frames fr frs tail e k hwf h
  refine ⟨k + framesSize (fr :: frs), r2, fun fuel hfuel => ?_⟩
  obtain ⟨j, rfl⟩ := Nat.exists_eq_add_of_le hfuel
  exact ParseMessage_mono _ j _ _ hr2

/-! ## Fields, bodies and declarations at any place of a text -/

/-- C6, as amended. `ParseField` succeeds if and only if the next five tokens
are a type, a name, the literal `=`, a decimal integer whose value is a value
of `int`, and the literal `;`; the field then carries exactly the type, the
name and the value of the number. In every other case it returns an error.
That error makes the parse fail wherever the field stands: at every place in
the body of a message, at any nesting depth and after any fields and nested
messages already read there, when the attribute is followed by a text on which
`ParseField` returns an error, `ParseProtoFile` returns no `Protobuf` and that
error, and so does `ParseMessage`, with no message, for every declaration that
is open at the place. -/
theorem ParseField_succeeds_iff_five_tokens (f : Field) (r : TokenReader) :
    ((f.ParseField r).2.1 = none ↔
      ∃ typ name num r5,
        nextTokens 5 r = some ([typ, name, str "=", num, str ";"], r5) ∧
          IsDecimalInteger num ∧ InIntRange (decimalValue num)) ∧
    (∀ typ name num r5,
      nextTokens 5 r = some ([typ, name, str "=", num, str ";"], r5) →
      IsDecimalInteger num → InIntRange (decimalValue num) →
      f.ParseField r =
        ({ f with Typ := typ, Name := name, Number := decimalValue num }, none, r5)) ∧
    (∀ (attr : GoString) (tail : List Nat) (e : GoError),
      (attr = str "repeated" ∨ attr = str "required" ∨ attr = str "optional") →
      (Field.ParseField { Name := [], Number := 0, Typ := [], Attribute := attr }
        { r := tail, buffer := [], next := [] }).2.1 = some e →
      (∀ p : Place, p.WellFormed → p.frames ≠ [] →
        FailsWith (p.render ++ (attr ++ str " " ++ tail)) e) ∧
      (∀ (fr : Frame) (frs : List Frame), (∀ x ∈ fr :: frs, x.WellFormed) →
        MessageFailsWith (fr.1 ++ str " " ++ str "\x7b " ++ renderItems fr.2 ++
          (renderFrames frs ++ (attr ++ str " " ++ tail))) e)) := by
  refine ⟨(parseField_spec f r).1, (parseField_spec f r).2, ?_⟩
  intro attr tail e ha hf
  have hloop : ∀ m, ∃ r2, ParseMessageLoop 1 m
      { r := attr ++ str " " ++ tail, buffer := [], next := [] } =
      some ((none, some e), r2) := by
    intro m
    rcases hpf : Field.ParseField { Name := [], Number := 0, Typ := [], Attribute := attr }
      { r := tail, buffer := [], next := [] } with ⟨f1, oe, r2⟩
    rw [hpf] at hf
    simp only at hf
    subst hf
    have e0 : attr ++ str " " ++ tail = attr ++ 32 :: tail := by simp [str]
    rw [e0]
    exact ⟨r2, body_field_error 0 m _ _ r2 attr f1 e
      (NextToken_word attr tail (Word_attribute _ ha)) ha hpf⟩
  exact ⟨fun p hwf hne => FailsWith_in_body p _ e 1 hwf hne hloop,
    fun fr frs hwf => MessageFailsWith_in_body fr frs _ e 1 hwf hloop⟩

theorem ParseField_succeeds_iff_five_tokens_witness :
    Field.ParseField { Name := [], Number := 0, Typ := [], Attribute := str "required" }
        (NewTokenReader (str "int32 x = -12; \x7d ")) =
      ({ Name := str "x", Number := -12, Typ := str "int32", Attribute := str "required" },
        none, { r := str " \x7d ", buffer := [], next := [] }) ∧
    FailsWith (str ("package p ; message A \x7b required int32 x = 1 ; message B \x7b " ++
        "\x7d message C \x7b repeated bool zs = 3 ; optional bool y 2 ; \x7d \x7d "))
      (GoError.New (str "expected equals sign after field name")) := by
  refine ⟨(ParseField_succeeds_iff_five_tokens
    { Name := [], Number := 0, Typ := [], Attribute := str "required" }
    (NewTokenReader (str "int32 x = -12; \x7d "))).2.1
    (str "int32") (str "x") (str "-12") { r := str " \x7d ", buffer := [], next := [] }
    (by decide) (by decide) (by decide), ?_⟩
  have h := ((ParseField_succeeds_iff_five_tokens
    { Name := [], Number := 0, Typ := [], Attribute := [] } (NewTokenReader [])).2.2
    (str "optional") (str "bool y 2 ; \x7d \x7d ")
    (GoError.New (str "expected equals sign after field name"))
    (by decide) (by decide)).1
    { pkg := some (str "p"), decls := [],
      frames := [(str "A", [Item.field ⟨str "x", 1, str "int32", str "required"⟩,
          Item.sub (str "B") Body.close]),
        (str "C", [Item.field ⟨str "zs", 3, str "bool", str "repeated"⟩])] }
    ⟨by intro name hn; cases hn; decide, by intro d hd; simp at hd, by
      intro fr hfr
      simp only [List.mem_cons, List.mem_singleton, List.not_mem_nil, or_false] at hfr
      rcases hfr with rfl | rfl
      · refine ⟨by decide, ?_⟩
        intro i hi
        simp only [List.mem_cons, List.mem_singleton, List.not_mem_nil, or_false] at hi
        rcases hi with rfl | rfl
        · exact ⟨by decide, by decide, by decide, by decide, by decide⟩
        · exact ⟨by decide, trivial⟩
      · refine ⟨by decide, ?_⟩
        intro i hi
        simp only [List.mem_cons, List.mem_singleton, List.not_mem_nil, or_false] at hi
        subst hi
        exact ⟨by decide, by decide, by decide, by decide, by decide⟩⟩
    (by simp)
  have t : Place.render
      { pkg := some (str "p"), decls := [],
        frames := [(str "A", [Item.field ⟨str "x", 1, str "int32", str "required"⟩,
            Item.sub (str "B") Body.close]),
          (str "C", [Item.field ⟨str "zs", 3, str "bool", str "repeated"⟩])] } ++
        (str "optional" ++ str " " ++ str "bool y 2 ; \x7d \x7d ") =
      str ("package p ; message A \x7b required int32 x = 1 ; message B \x7b " ++
        "\x7d message C \x7b repeated bool zs = 3 ; optional bool y 2 ; \x7d \x7d ") := by
    decide
  rw [t] at h
  exact h


/-- C7. In a message body, where an item may start, a token other than `}`,
`repeated`, `required`, `optional` and `message` makes the loop of
`ParseMessage` return the error `Unrecognized token: ` followed by the token,
with no message, whatever it has collected; the token `}` makes it return the
message under construction. At every place in the body of a message, at any
nesting depth and after any fields and nested messages already read there, a
text whose first token is such a token makes `ParseProtoFile` return no
`Protobuf` and that error, and makes `ParseMessage` return it, with no
message, for every declaration that is open at the place. On the text of a
name, `\x7b`, the items of a body and `}`, `ParseMessage` returns the message
with that name, the fields of the body in order and the messages of the body
in order. -/
theorem ParseMessage_unrecognized_token :
    (∀ fuel m r r1 tok,
      r.NextToken = (tok, none, r1) →
      tok ≠ str "\x7d" → tok ≠ str "repeated" → tok ≠ str "required" →
      tok ≠ str "optional" → tok ≠ str "message" →
      ParseMessageLoop (fuel + 1) m r =
        some ((none, some (GoError.New (str "Unrecognized token: " ++ tok))), r1)) ∧
    (∀ fuel m r r1,
      r.NextToken = (str "\x7d", none, r1) →
      ParseMessageLoop (fuel + 1) m r = some ((some m, none), r1)) ∧
    (∀ (bad : GoString) (tail : List Nat) (r1 : TokenReader),
      (TokenReader.mk tail [] []).NextToken = (bad, none, r1) →
      bad ≠ str "\x7d" → bad ≠ str "repeated" → bad ≠ str "required" →
      bad ≠ str "optional" → bad ≠ str "message" →
      (∀ p : Place, p.WellFormed → p.frames ≠ [] →
        FailsWith (p.render ++ tail) (GoError.New (str "Unrecognized token: " ++ bad))) ∧
      (∀ (fr : Frame) (frs : List Frame), (∀ x ∈ fr :: frs, x.WellFormed) →
        MessageFailsWith (fr.1 ++ str " " ++ str "\x7b " ++ renderItems fr.2 ++
          (renderFrames frs ++ tail)) (GoError.New (str "Unrecognized token: " ++ bad)))) ∧
    (∀ (name : GoString) (b : Body) (rest : List Nat) (fuel : Nat),
      Word name → b.WellFormed → b.size + 1 ≤ fuel →
      ParseMessage fuel
          { r := name ++ str " " ++ str "\x7b " ++ b.render ++ rest, buffer := [], next := [] } =
        some ((some (Message.mk name b.fields b.subs), none),
          { r := rest, buffer := [], next := [] })) := by
  refine ⟨?_, ?_, ?_, ?_⟩
  · intro fuel m r r1 tok h h1 h2 h3 h4 h5
    exact body_unrecognized fuel m r r1 tok h h1 h2 h3 h4 h5
  · intro fuel m r r1 h
    exact body_close fuel m r r1 h
  · intro bad tail r1 h h1 h2 h3 h4 h5
    have hloop : ∀ m, ∃ r2, ParseMessageLoop 1 m { r := tail, buffer := [], next := [] } =
        some ((none, some (GoError.New (str "Unrecognized token: " ++ bad))), r2) :=
      fun m => ⟨r1, body_unrecognized 0 m _ r1 bad h h1 h2 h3 h4 h5⟩
    exact ⟨fun p hwf hne => FailsWith_in_body p _ _ 1 hwf hne hloop,
      fun fr frs hwf => MessageFailsWith_in_body fr frs _ _ 1 hwf hloop⟩
  · intro name b rest fuel hname hb hfuel
    obtain ⟨n, rfl⟩ : ∃ n, fuel = n + 1 := ⟨fuel - 1, by omega⟩
    have e0 : name ++ str " " ++ str "\x7b " ++ b.render ++ rest =
        name ++ 32 :: (str "\x7b" ++ 32 :: (b.render ++ rest)) := by
      simp [str]
    have h2 := NextToken_word name (str "\x7b" ++ 32 :: (b.render ++ rest)) hname
    have h3 := NextToken_word (str "\x7b") (b.render ++ rest) (by decide)
    rw [e0, message_header n _ _ _ name h2 h3, ParseMessageLoop_render b _ _ n hb (by omega)]
    simp [Message.Name, Message.Fields, Message.SubMessages]

theorem ParseMessage_unrecognized_token_witness :
    FailsWith (str ("message A \x7b required int32 x = 1 ; message B \x7b " ++
        "optional bool y = 2 ; enum \x7d \x7d "))
      (GoError.New (str "Unrecognized token: enum")) ∧
    ParseMessage 7 (NewTokenReader
        (str "A \x7b required int32 x = 1 ; message B \x7b \x7d optional bool y = 2 ; \x7d ")) =
      some ((some (Message.mk (str "A") [⟨str "x", 1, str "int32", str "required"⟩,
          ⟨str "y", 2, str "bool", str "optional"⟩] [Message.mk (str "B") [] []]), none),
        { r := [], buffer := [], next := [] }) := by
  constructor
  · have h := (ParseMessage_unrecognized_token.2.2.1 (str "enum") (str "enum \x7d \x7d ")
      { r := str "\x7d \x7d ", buffer := [], next := [] }
      (by decide) (by decide) (by decide) (by decide) (by decide) (by decide)).1
      { pkg := none, decls := [],
        frames := [(str "A", [Item.field ⟨str "x", 1, str "int32", str "required"⟩]),
          (str "B", [Item.field ⟨str "y", 2, str "bool", str "optional"⟩])] }
      ⟨(fun name hn => by cases hn), by intro d hd; simp at hd, by
        intro fr hfr
        simp only [List.mem_cons, List.mem_singleton, List.not_mem_nil, or_false] at hfr
        rcases hfr with rfl | rfl
        · refine ⟨by decide, ?_⟩
          intro i hi
          simp only [List.mem_cons, List.mem_singleton, List.not_mem_nil, or_false] at hi
          subst hi
          exact ⟨by decide, by decide, by decide, by decide, by decide⟩
        · refine ⟨by decide, ?_⟩
          intro i hi
          simp only [List.mem_cons, List.mem_singleton, List.not_mem_nil, or_false] at hi
          subst hi
          exact ⟨by decide, by decide, by decide, by decide, by decide⟩⟩
      (by simp)
    have t0 : str "Unrecognized token: " ++ str "enum" = str "Unrecognized token: enum" := by
      decide
    have t : Place.render
        { pkg := none, decls := [],
          frames := [(str "A", [Item.field ⟨str "x", 1, str "int32", str "required"⟩]),
            (str "B", [Item.field ⟨str "y", 2, str "bool", str "optional"⟩])] } ++
          str "enum \x7d \x7d " =
        str ("message A \x7b required int32 x = 1 ; message B \x7b " ++
          "optional bool y = 2 ; enum \x7d \x7d ") := by
      decide
    rw [t, t0] at h
    exact h
  · have h := ParseMessage_unrecognized_token.2.2.2 (str "A")
      (Body.field ⟨str "x", 1, str "int32", str "required"⟩
        (Body.sub (str "B") Body.close
          (Body.field ⟨str "y", 2, str "bool", str "optional"⟩ Body.close))) [] 7
      (by decide)
      ⟨⟨by decide, by decide, by decide, by decide, by decide⟩, by decide, trivial,
        ⟨by decide, by decide, by decide, by decide, by decide⟩, trivial⟩
      (by decide)
    have t : str "A" ++ str " " ++ str "\x7b " ++
        (Body.field ⟨str "x", 1, str "int32", str "required"⟩
          (Body.sub (str "B") Body.close
            (Body.field ⟨str "y", 2, str "bool", str "optional"⟩ Body.close))).render ++ [] =
        str "A \x7b required int32 x = 1 ; message B \x7b \x7d optional bool y = 2 ; \x7d " := by
      decide
    rw [t] at h
    exact h


theorem diverges_skip (pb : Protobuf) (read r1 : TokenReader) (tok : GoString)
    (h1 : read.NextToken = (tok, none, r1)) (hp : tok ≠ str "package")
    (hm : tok ≠ str "message") (h : Diverges pb r1) : Diverges pb read := by
  intro fuel
  cases fuel with
  | zero => rfl
  | succ n => rw [top_skip n pb read r1 tok h1 hp hm]; exact h n

/-- C8 fails on the input `message M \x7b \x7d end`, the input `message M \x7b
\x7d ` with the token `end` inserted after the declaration: on the first
`ParseProtoFile` returns the message `M`, on the second it does not return,
whatever the fuel. The inserted token is the last of the input and no
delimiter follows it; the lexer returns it again and again, and the top-level
loop passes over it for ever. With a delimiter behind it the token is passed
over and the result is the same. -/
theorem trailing_token_never_returns :
    ParseProtoFile 4 (str "message M \x7b \x7d ") =
      some (some { Package := [], Messages := [Message.mk (str "M") [] []] }, none) ∧
    (∀ fuel, ParseProtoFile fuel (str "message M \x7b \x7d end") = none) ∧
    ParseProtoFile 5 (str "message M \x7b \x7d end ") =
      some (some { Package := [], Messages := [Message.mk (str "M") [] []] }, none) := by
  refine ⟨rfl, ?_, rfl⟩
  intro fuel
  refine diverges_message _ _ { r := str "M \x7b \x7d end", buffer := [], next := [] }
    { r := str "end", buffer := [], next := [] } (Message.mk (str "M") [] []) 2
    (by decide) rfl ?_ fuel
  refine diverges_skip _ _ { r := [], buffer := str "end", next := [] } (str "end")
    (by decide) (by decide) (by decide) ?_
  exact diverges_stuck _ _ rfl rfl (by decide) (by decide) (by decide)

/-- Blanks up to the end of the input: the lexer reports `io.EOF`. -/
theorem NextTokenLoop_blanks (rest : List Nat) (h : ∀ b ∈ rest, b = 32 ∨ b = 10 ∨ b = 9) :
    NextTokenLoop rest [] [] =
      ([], some GoError.EOF, { r := [], buffer := [], next := [] }) := by
  induction rest with
  | nil => rfl
  | cons b rest ih =>
    rw [NextTokenLoop_skip b rest (h b (by simp))]
    exact ih (fun x hx => h x (by simp [hx]))

/-- The lexer on a name with the brace glued to it, and `ParseMessage` on it
when the following token is not the brace or is not there. -/
theorem ParseMessage_glued (name w rest : List Nat) (d : Nat)
    (hname : ∀ b ∈ name, isDelim b = false) (hw : ∀ b ∈ w, isDelim b = false)
    (hd : isDelim d = true) :
    (TokenReader.mk (name ++ 123 :: (w ++ d :: rest)) [] []).NextToken =
        (name ++ str "\x7b" ++ w, none,
          TokenReader.mk rest [] (if d == chr ';' || d == chr '=' then [d] else [])) ∧
    (∀ t r3,
      (TokenReader.mk rest [] (if d == chr ';' || d == chr '=' then [d] else [])).NextToken =
        (t, none, r3) → t ≠ str "\x7b" →
      ParseMessage 1 { r := name ++ 123 :: (w ++ d :: rest), buffer := [], next := [] } =
        some ((none, some (GoError.New (str "expected opening bracket after message name"))),
          r3)) ∧
    (∀ t e r3,
      (TokenReader.mk rest [] (if d == chr ';' || d == chr '=' then [d] else [])).NextToken =
        (t, some e, r3) →
      ParseMessage 1 { r := name ++ 123 :: (w ++ d :: rest), buffer := [], next := [] } =
        some ((none, some e), r3)) := by
  have hglue : (TokenReader.mk (name ++ 123 :: (w ++ d :: rest)) [] []).NextToken =
      (name ++ str "\x7b" ++ w, none,
        TokenReader.mk rest [] (if d == chr ';' || d == chr '=' then [d] else [])) := by
    have hall : ∀ b ∈ name ++ 123 :: w, isDelim b = false := by
      intro b hb
      rcases List.mem_append.mp hb with hb | hb
      · exact hname b hb
      · rcases List.mem_cons.mp hb with rfl | hb
        · decide
        · exact hw b hb
    have e0 : name ++ 123 :: (w ++ d :: rest) = (name ++ 123 :: w) ++ d :: rest := by simp
    have e1 : name ++ str "\x7b" ++ w = name ++ 123 :: w := by simp [str]
    simp only [TokenReader.NextToken]
    rw [e0, e1, NextTokenLoop_word_acc (name ++ 123 :: w) [] _ hall, List.nil_append,
      NextTokenLoop_flush d rest (name ++ 123 :: w) hd (by simp)]
  refine ⟨hglue, ?_, ?_⟩
  · intro t r3 hnext ht
    simp only [ParseMessage, hglue, hnext, ne_eq, ht, not_false_eq_true, if_true]
  · intro t e r3 hnext
    simp only [ParseMessage, hglue, hnext]

/-- C9, as amended. When the opening brace is written directly after the
message name, in a declaration at any place of a text where a declaration may
start, the lexer returns the name, the brace and what is written directly
after the brace, up to the next delimiter, as one token. Then: if a further
token follows that is not `\x7b` alone, `ParseProtoFile` fails with the error
`expected opening bracket after message name`; this is so in particular when
the delimiter is `;` or `=`, which is itself the further token; if the
delimiter is a space, a newline or a tab and only such bytes follow up to the
end of the input, `ParseProtoFile` fails with `io.EOF`. Here `w` is what is
written directly after the brace, `d` the delimiter at which the token ends,
and `rest` what follows. Where the input ends with the brace or with what is
written directly after it, name and brace are one token as well. -/
theorem glued_brace_expected_opening_bracket (name w rest : List Nat) (d : Nat) (p : Place)
    (hname : ∀ b ∈ name, isDelim b = false) (hw : ∀ b ∈ w, isDelim b = false)
    (hd : isDelim d = true) (hp : p.WellFormed) :
    (TokenReader.mk (name ++ 123 :: (w ++ d :: rest)) [] []).NextToken =
        (name ++ str "\x7b" ++ w, none,
          TokenReader.mk rest [] (if d == chr ';' || d == chr '=' then [d] else [])) ∧
    (∀ t r3,
      (TokenReader.mk rest [] (if d == chr ';' || d == chr '=' then [d] else [])).NextToken =
        (t, none, r3) → t ≠ str "\x7b" →
      FailsWith (p.render ++ (str "message " ++ (name ++ 123 :: (w ++ d :: rest))))
        (GoError.New (str "expected opening bracket after message name"))) ∧
    ((d = 59 ∨ d = 61) →
      FailsWith (p.render ++ (str "message " ++ (name ++ 123 :: (w ++ d :: rest))))
        (GoError.New (str "expected opening bracket after message name"))) ∧
    ((d = 32 ∨ d = 10 ∨ d = 9) → (∀ b ∈ rest, b = 32 ∨ b = 10 ∨ b = 9) →
      FailsWith (p.render ++ (str "message " ++ (name ++ 123 :: (w ++ d :: rest))))
        GoError.EOF) ∧
    (TokenReader.mk (name ++ 123 :: w) [] []).NextToken =
      (name ++ str "\x7b" ++ w, none, TokenReader.mk [] (name ++ str "\x7b" ++ w) []) := by
  obtain ⟨hglue, hbr, herr⟩ := ParseMessage_glued name w rest d hname hw hd
  refine ⟨hglue, ?_, ?_, ?_, ?_⟩
  rotate_right
  · have hall : ∀ b ∈ name ++ 123 :: w, isDelim b = false := by
      intro b hb
      rcases List.mem_append.mp hb with hb | hb
      · exact hname b hb
      · rcases List.mem_cons.mp hb with rfl | hb
        · decide
        · exact hw b hb
    have e1 : name ++ str "\x7b" ++ w = name ++ 123 :: w := by simp [str]
    have h0 := NextTokenLoop_word_acc (name ++ 123 :: w) [] [] hall
    simp only [List.append_nil, List.nil_append] at h0
    simp only [TokenReader.NextToken]
    rw [e1, h0]
    simp [NextTokenLoop]
  · intro t r3 hnext ht
    exact FailsWith_at_declaration p _ _ 1 r3 hp (hbr t r3 hnext ht)
  · intro hd2
    have hnext : (TokenReader.mk rest [] (if d == chr ';' || d == chr '=' then [d]
        else [])).NextToken = ([d], none, TokenReader.mk rest [] []) := by
      have hn : (if d == chr ';' || d == chr '=' then [d] else []) = ([d] : GoString) := by
        rcases hd2 with rfl | rfl <;> decide
      rw [hn]
      exact NextTokenLoop_next rest [] [d] (by simp)
    have ht : ([d] : GoString) ≠ str "\x7b" := by
      rcases hd2 with rfl | rfl <;> decide
    exact FailsWith_at_declaration p _ _ 1 _ hp (hbr _ _ hnext ht)
  · intro hd2 hrest
    have hnext : (TokenReader.mk rest [] (if d == chr ';' || d == chr '=' then [d]
        else [])).NextToken = ([], some GoError.EOF, { r := [], buffer := [], next := [] }) := by
      have hn : (if d == chr ';' || d == chr '=' then [d] else []) = ([] : GoString) := by
        rcases hd2 with rfl | rfl | rfl <;> decide
      rw [hn]
      exact NextTokenLoop_blanks rest hrest
    exact FailsWith_at_declaration p _ _ 1 _ hp (herr _ _ _ hnext)

theorem glued_brace_expected_opening_bracket_witness :
    FailsWith (str "message M\x7b required int32 x = 1; \x7d ")
        (GoError.New (str "expected opening bracket after message name")) ∧
      FailsWith (str "package p ; message A \x7b required int32 x = 1 ; message M\x7b;")
        (GoError.New (str "expected opening bracket after message name")) ∧
      FailsWith (str "package p ; message A \x7b \x7d message M\x7b \n\t ") GoError.EOF ∧
      FailsWith (str "message M\x7brequired int32 x = 1; \x7d ")
        (GoError.New (str "expected opening bracket after message name")) := by
  refine ⟨?_, ?_, ?_, ?_⟩
  · exact (glued_brace_expected_opening_bracket (str "M") []
      (str "required int32 x = 1; \x7d ") 32
      { pkg := none, decls := [], frames := [] } (by decide) (by decide) (by decide)
      ⟨(fun name hn => by cases hn), by intro d hd; simp at hd,
        by intro fr hfr; simp at hfr⟩).2.1
      (str "required") { r := str "int32 x = 1; \x7d ", buffer := [], next := [] }
      (by decide) (by decide)
  · have h := (glued_brace_expected_opening_bracket (str "M") [] [] 59
      { pkg := some (str "p"), decls := [],
        frames := [(str "A", [Item.field ⟨str "x", 1, str "int32", str "required"⟩])] }
      (by decide) (by decide) (by decide)
      ⟨(fun name hn => by cases hn; decide), by intro d hd; simp at hd, by
        intro fr hfr
        simp only [List.mem_singleton] at hfr
        subst hfr
        refine ⟨by decide, ?_⟩
        intro i hi
        simp only [List.mem_singleton] at hi
        subst hi
        exact ⟨by decide, by decide, by decide, by decide, by decide⟩⟩).2.2.1 (Or.inl rfl)
    have t : Place.render
        { pkg := some (str "p"), decls := [],
          frames := [(str "A", [Item.field ⟨str "x", 1, str "int32", str "required"⟩])] } ++
          (str "message " ++ (str "M" ++ 123 :: ([] ++ 59 :: []))) =
        str "package p ; message A \x7b required int32 x = 1 ; message M\x7b;" := by
      decide
    rw [t] at h
    exact h
  · have h := (glued_brace_expected_opening_bracket (str "M") [] (str "\n\t ") 32
      { pkg := some (str "p"), decls := [(str "A", Body.close)], frames := [] }
      (by decide) (by decide) (by decide)
      ⟨(fun name hn => by cases hn; decide), by
        intro d hd
        simp only [List.mem_singleton] at hd
        subst hd
        exact ⟨by decide, trivial⟩, by intro fr hfr; simp at hfr⟩).2.2.2.1 (Or.inl rfl)
      (by decide)
    have t : Place.render
        { pkg := some (str "p"), decls := [(str "A", Body.close)], frames := [] } ++
          (str "message " ++ (str "M" ++ 123 :: ([] ++ 32 :: str "\n\t "))) =
        str "package p ; message A \x7b \x7d message M\x7b \n\t " := by
      decide
    rw [t] at h
    exact h
  · exact (glued_brace_expected_opening_bracket (str "M") (str "required")
      (str "int32 x = 1; \x7d ") 32
      { pkg := none, decls := [], frames := [] } (by decide) (by decide) (by decide)
      ⟨(fun name hn => by cases hn), by intro d hd; simp at hd,
        by intro fr hfr; simp at hfr⟩).2.1
      (str "int32") { r := str "x = 1; \x7d ", buffer := [], next := [] }
      (by decide) (by decide)

end Protostream
